import Mathlib

/-!
# DeePKS descriptor pipeline (`LCAO_deepks_torch.cpp`)

A shallow embedding of the routines of `LCAO_deepks_torch.cpp`
(`cal_descriptor`, `cal_gvx`, `cal_gvdm`, `load_model`, `cal_gedm`,
`cal_orbital_precalc`).

Conventions of the embedding.

* `double` values are elements of an arbitrary commutative ring `K`
  (exact arithmetic; rounding, infinities and NaN are outside the model).
* A `torch::Tensor` is its list of extents together with its entries by
  multi-index.  The library operations used by the source (`ones`,
  `index_put_`, `reshape`, `unsqueeze`, `repeat`, `eye`, `stack`, `cat`,
  `einsum`) are defined on this representation, with the shape errors the
  library raises returned as `Except.error`.
* `torch::linalg::eigh` is an external numerical routine; it is a parameter
  (`EighSolver`) giving eigenvalues and eigenvectors of the symmetric matrix
  read from the upper triangle.  Its reverse-mode rule for the eigenvalues
  is `V diag(g) Vᵀ`.
* The serialized correction model is a parameter (`Module`): its forward
  function and the gradient autograd returns for its input.  The loader
  `torch::jit::load` is a parameter as well; it returns a module, raises
  `c10::Error` or raises another exception (`LoadResult`).
* `torch::autograd::grad` is the composition of these reverse-mode rules along
  the graph the routines build (`eigh`, `cat`, `reshape`, the model); a tensor
  the output does not depend on gets an undefined gradient (`none`), and
  indexing an undefined tensor fails the call.
* `assert` is a check that fails the call; an out-of-range `std::vector`
  access and an integer division by zero fail the call as well.
* `GlobalV::MY_RANK` is an argument of `cal_gvx`, the one routine that reads
  it; a `Process` pairs a rank with the object of that process.
* The accumulation over neighbour pairs at the head of `cal_orbital_precalc`
  belongs to the host simulation; the accumulated and reduced array
  `orbital_pdm_shell` is an argument of the routine.
-/

namespace Deepks

/-! ## Tensors -/

/-- A dense tensor: extents and entries by multi-index. -/
structure Tensor (K : Type) where
  shape : List Nat
  entry : List Nat → K

/-- An element of `d_tensor`: the values together with the autograd history
of the tensor.  `saved_vecs` holds the eigenvectors saved by the `eigh` node
that produced the values from `pdm_tensor[inl]`; it is `none` for a leaf. -/
structure Tracked (K : Type) where
  value : Tensor K
  saved_vecs : Option (Tensor K)

/-- The external symmetric eigen-solver behind `torch::linalg::eigh`. -/
structure EighSolver (K : Type) where
  eigenvalues : (n : Nat) → Matrix (Fin n) (Fin n) K → Fin n → K
  eigenvectors : (n : Nat) → Matrix (Fin n) (Fin n) K → Matrix (Fin n) (Fin n) K

/-- The loaded `torch::jit::script::Module`: the scalar its forward pass
returns on an input tensor, and the entries of the gradient of that scalar
with respect to the input as autograd reports it (`none` when the input is
not part of the graph of the output). -/
structure Module (K : Type) where
  forward : Tensor K → K
  grad_input : Tensor K → Option (List Nat → K)

/-- The outcome of the call `torch::jit::load(model_file)`: the loaded
module, a raised `c10::Error`, or a raised exception of any other type (for
instance `std::bad_alloc`); `what` is the message of the exception. -/
inductive LoadResult (K : Type) where
  | loaded (m : Module K)
  | c10_error (what : String)
  | other_exception (what : String)

section Ops

variable {K : Type} [CommRing K]

/-- Row-major offset of a multi-index. -/
def ravel : List Nat → List Nat → Nat
  | _ :: ds, i :: rest => i * ds.prod + ravel ds rest
  | _, _ => 0

/-- Multi-index of a row-major offset. -/
def unravel : List Nat → Nat → List Nat
  | [], _ => []
  | _ :: ds, p => (p / ds.prod) :: unravel ds (p % ds.prod)

/-- `torch::ones(shape)`. -/
def Tensor.ones (shape : List Nat) : Tensor K :=
  ⟨shape, fun _ => 1⟩

/-- `torch::eye(n)`. -/
def Tensor.eye (n : Nat) : Tensor K :=
  ⟨[n, n], fun idx => match idx with
    | [i, j] => if i = j then 1 else 0
    | _ => 0⟩

/-- `torch::tensor(v)` of a `std::vector<double>`. -/
def Tensor.of_vector (v : List K) : Tensor K :=
  ⟨[v.length], fun idx => match idx with
    | [i] => v.getD i 0
    | _ => 0⟩

/-- `t.index_put_(idx, v)`. -/
def Tensor.index_put (t : Tensor K) (idx : List Nat) (v : K) : Tensor K :=
  ⟨t.shape, fun i => if i = idx then v else t.entry i⟩

/-- `t.reshape(shape)`: a view of the same row-major data; fails when the
element counts differ. -/
def Tensor.reshape (t : Tensor K) (shape : List Nat) : Except String (Tensor K) :=
  if t.shape = shape then .ok t
  else if t.shape.prod = shape.prod then
    .ok ⟨shape, fun idx => t.entry (unravel t.shape (ravel shape idx))⟩
  else .error "reshape: shape is invalid for input size"

/-- `t.unsqueeze(0)`. -/
def Tensor.unsqueeze0 (t : Tensor K) : Tensor K :=
  ⟨1 :: t.shape, fun idx => t.entry idx.tail⟩

/-- `t.repeat(reps)` with as many repeat counts as `t` has dimensions. -/
def Tensor.repeat (t : Tensor K) (reps : List Nat) : Tensor K :=
  ⟨List.zipWith (fun r d => r * d) reps t.shape,
   fun idx => t.entry (List.zipWith (fun i d => i % d) idx t.shape)⟩

/-- Map with failure, left to right. -/
def mapE {α β : Type} (f : α → Except String β) : List α → Except String (List β)
  | [] => .ok []
  | a :: l =>
    match f a with
    | .error e => .error e
    | .ok b =>
      match mapE f l with
      | .error e => .error e
      | .ok bs => .ok (b :: bs)

/-- `torch::stack(ts, 0)`: fails on an empty list and on unequal shapes. -/
def stack (ts : List (Tensor K)) : Except String (Tensor K) :=
  match ts with
  | [] => .error "stack expects a non-empty TensorList"
  | t :: rest =>
    if rest.all (fun u => decide (u.shape = t.shape)) then
      .ok ⟨ts.length :: t.shape, fun idx => match idx with
        | i :: r => match ts[i]? with
          | some u => u.entry r
          | none => 0
        | [] => 0⟩
    else .error "stack expects each tensor to be equal size"

/-- Entry of the concatenation along the last dimension. -/
def cat_last_entry : List (Tensor K) → List Nat → Nat → K
  | [], _, _ => 0
  | t :: ts, lead, j =>
    if j < t.shape.getLastD 0 then t.entry (lead ++ [j])
    else cat_last_entry ts lead (j - t.shape.getLastD 0)

/-- `torch::cat(ts, -1)`: fails on an empty list, on a zero-dimensional
tensor and when the leading extents differ. -/
def cat_last (ts : List (Tensor K)) : Except String (Tensor K) :=
  match ts with
  | [] => .error "cat expects a non-empty TensorList"
  | t :: rest =>
    if t.shape = [] then .error "zero-dimensional tensor cannot be concatenated"
    else if rest.all (fun u => decide (u.shape ≠ [] ∧ u.shape.dropLast = t.shape.dropLast)) then
      .ok ⟨t.shape.dropLast ++ [(ts.map (fun u => u.shape.getLastD 0)).sum],
           fun idx => cat_last_entry ts idx.dropLast (idx.getLastD 0)⟩
    else .error "cat: sizes of tensors must match except in dimension -1"

/-- Entry of the concatenation along dimension 0. -/
def cat0_entry : List (Tensor K) → Nat → List Nat → K
  | [], _, _ => 0
  | t :: ts, i, r =>
    if i < t.shape.headD 0 then t.entry (i :: r)
    else cat0_entry ts (i - t.shape.headD 0) r

/-- `torch::cat(ts, 0)`: fails on an empty list, on a zero-dimensional
tensor and when the trailing extents differ. -/
def cat0 (ts : List (Tensor K)) : Except String (Tensor K) :=
  match ts with
  | [] => .error "cat expects a non-empty TensorList"
  | t :: rest =>
    if t.shape = [] then .error "zero-dimensional tensor cannot be concatenated"
    else if rest.all (fun u => decide (u.shape ≠ [] ∧ u.shape.tail = t.shape.tail)) then
      .ok ⟨(ts.map (fun u => u.shape.headD 0)).sum :: t.shape.tail,
           fun idx => cat0_entry ts (idx.headD 0) idx.tail⟩
    else .error "cat: sizes of tensors must match except in dimension 0"

/-- Index used for an operand whose extent along a shared subscript is 1. -/
def bidx (d i : Nat) : Nat := if d = 1 then 0 else i

/-- Extent of a shared subscript after broadcasting. -/
def bdim (d d' : Nat) : Nat := if d = 1 then d' else d

/-- `at::einsum("bxamn, avmn->bxav", A, B)`: extents of the shared
subscripts `a`, `m`, `n` must agree or be 1. -/
def einsum_bxamn_avmn (A B : Tensor K) : Except String (Tensor K) :=
  match A.shape, B.shape with
  | [b, x, a, m, n], [a', v, m', n'] =>
    if (a = a' ∨ a = 1 ∨ a' = 1) ∧ (m = m' ∨ m = 1 ∨ m' = 1) ∧ (n = n' ∨ n = 1 ∨ n' = 1) then
      .ok ⟨[b, x, bdim a a', v], fun idx => match idx with
        | [ib, ix, ia, iv] =>
          (Finset.range (bdim m m')).sum (fun im =>
            (Finset.range (bdim n n')).sum (fun jn =>
              A.entry [ib, ix, bidx a ia, bidx m im, bidx n jn]
                * B.entry [bidx a' ia, iv, bidx m' im, bidx n' jn]))
        | _ => 0⟩
    else .error "einsum: operands do not broadcast with remapped shapes"
  | _, _ => .error "einsum: subscripts do not match the operand dimensions"

/-- `at::einsum("iamn, avmn->iav", A, B)`: extents of the shared subscripts
`a`, `m`, `n` must agree or be 1. -/
def einsum_iamn_avmn (A B : Tensor K) : Except String (Tensor K) :=
  match A.shape, B.shape with
  | [i, a, m, n], [a', v, m', n'] =>
    if (a = a' ∨ a = 1 ∨ a' = 1) ∧ (m = m' ∨ m = 1 ∨ m' = 1) ∧ (n = n' ∨ n = 1 ∨ n' = 1) then
      .ok ⟨[i, bdim a a', v], fun idx => match idx with
        | [ii, ia, iv] =>
          (Finset.range (bdim m m')).sum (fun im =>
            (Finset.range (bdim n n')).sum (fun jn =>
              A.entry [ii, bidx a ia, bidx m im, bidx n jn]
                * B.entry [bidx a' ia, iv, bidx m' im, bidx n' jn]))
        | _ => 0⟩
    else .error "einsum: operands do not broadcast with remapped shapes"
  | _, _ => .error "einsum: subscripts do not match the operand dimensions"

/-- The symmetric matrix `eigh` reads from the upper triangle of an
`n × n` slice (`uplo = U`); `pre` is the batch index of the slice. -/
def upper_sym (t : Tensor K) (pre : List Nat) (n : Nat) : Matrix (Fin n) (Fin n) K :=
  fun i j => t.entry (pre ++ [min i.val j.val, max i.val j.val])

/-- Eigenvalue tensor of a batch of `b` matrices of order `n`, or of a
single matrix when `batch` is `none`. -/
def eigh_vals (solver : EighSolver K) (t : Tensor K) (batch : Option Nat) (n : Nat) : Tensor K :=
  match batch with
  | none => ⟨[n], fun idx => match idx with
      | [k] => if h : k < n then solver.eigenvalues n (upper_sym t [] n) ⟨k, h⟩ else 0
      | _ => 0⟩
  | some b => ⟨[b, n], fun idx => match idx with
      | [v, k] => if h : k < n then solver.eigenvalues n (upper_sym t [v] n) ⟨k, h⟩ else 0
      | _ => 0⟩

/-- Eigenvector tensor of a batch of `b` matrices of order `n`, or of a
single matrix when `batch` is `none`; column `k` belongs to eigenvalue `k`. -/
def eigh_vecs (solver : EighSolver K) (t : Tensor K) (batch : Option Nat) (n : Nat) : Tensor K :=
  match batch with
  | none => ⟨[n, n], fun idx => match idx with
      | [i, k] => if h : i < n ∧ k < n then
          solver.eigenvectors n (upper_sym t [] n) ⟨i, h.1⟩ ⟨k, h.2⟩ else 0
      | _ => 0⟩
  | some b => ⟨[b, n, n], fun idx => match idx with
      | [v, i, k] => if h : i < n ∧ k < n then
          solver.eigenvectors n (upper_sym t [v] n) ⟨i, h.1⟩ ⟨k, h.2⟩ else 0
      | _ => 0⟩

/-- `torch::linalg::eigh(t, "U")` on a square matrix or a batch of square
matrices: the eigenvalue tensor and the eigenvector tensor. -/
def linalg_eigh (solver : EighSolver K) (t : Tensor K) : Except String (Tensor K × Tensor K) :=
  match t.shape with
  | [n, n'] =>
    if n = n' then .ok (eigh_vals solver t none n, eigh_vecs solver t none n)
    else .error "linalg.eigh: A must be batches of square matrices"
  | [b, n, n'] =>
    if n = n' then .ok (eigh_vals solver t (some b) n, eigh_vecs solver t (some b) n)
    else .error "linalg.eigh: A must be batches of square matrices"
  | _ => .error "linalg.eigh: unsupported number of dimensions"

/-- Reverse-mode rule of the eigenvalues of `eigh`: the cotangent `g` of the
eigenvalues is projected onto the eigenvector basis, `V diag(g) Vᵀ`. -/
def eigh_backward (vecs g : Tensor K) : Tensor K :=
  match vecs.shape with
  | [n, _] =>
    ⟨vecs.shape, fun idx => match idx with
      | [i, j] => (Finset.range n).sum (fun k => vecs.entry [i, k] * g.entry [k] * vecs.entry [j, k])
      | _ => 0⟩
  | [_, n, _] =>
    ⟨vecs.shape, fun idx => match idx with
      | [v, i, j] =>
        (Finset.range n).sum (fun k => vecs.entry [v, i, k] * g.entry [v, k] * vecs.entry [v, j, k])
      | _ => 0⟩
  | _ => ⟨vecs.shape, fun _ => 0⟩

end Ops

/-! ## The state of `LCAO_Deepks` -/

/-- The members of `LCAO_Deepks` read or written by the routines. -/
structure LCAO_Deepks (K : Type) where
  inlmax : Nat
  inl_l : Nat → Nat
  des_per_atom : Nat
  pdm : Nat → Nat → K
  gdmx : Nat → Nat → Nat → K
  gdmy : Nat → Nat → Nat → K
  gdmz : Nat → Nat → Nat → K
  pdm_tensor : List (Tensor K)
  d_tensor : List (Tracked K)
  gevdm_vector : List (Tensor K)
  gdmr_vector : List (Tensor K)
  gvx_tensor : Tensor K
  module : Option (Module K)
  E_delta : K
  gedm_tensor : List (Option (Tensor K))
  gedm : Nat → Nat → K
  orbital_precalc_tensor : Tensor K

section Routines

variable {K : Type} [CommRing K]

/-- `if (!v.empty()) v.erase(v.begin(), v.end());`. -/
def erase_all {α : Type} (v : List α) : List α :=
  if ¬ v.isEmpty then [] else v

/-- Lines 42-49: a block of ones overwritten entry by entry from the
row-major array `src`. -/
def fill_block (nm : Nat) (src : Nat → K) : Tensor K :=
  (List.range nm).foldl (fun t m1 =>
    (List.range nm).foldl (fun t m2 => t.index_put [m1, m2] (src (m1 * nm + m2))) t)
    (Tensor.ones [nm, nm])

/-- One iteration of the second loop of `cal_descriptor` (lines 59-63). -/
def descriptor_step (solver : EighSolver K) (pdm_tensor : List (Tensor K))
    (d : List (Tracked K)) (inl : Nat) : Except String (List (Tracked K)) :=
  match pdm_tensor[inl]? with
  | none => .error "pdm_tensor: index out of range"
  | some blk =>
    match linalg_eigh solver blk with
    | .error e => .error e
    | .ok d_v =>
      if inl < d.length then .ok (d.set inl ⟨d_v.1, some d_v.2⟩)
      else .error "d_tensor: index out of range"

/-- `LCAO_Deepks::cal_descriptor`. -/
def cal_descriptor (solver : EighSolver K) (s : LCAO_Deepks K) : Except String (LCAO_Deepks K) :=
  let d0 := erase_all s.d_tensor
  let p0 := erase_all s.pdm_tensor
  let pd := (List.range s.inlmax).foldl (fun (acc : List (Tensor K) × List (Tracked K)) inl =>
    let nm := 2 * s.inl_l inl + 1
    let tmp := fill_block nm (s.pdm inl)
    (acc.1 ++ [tmp], acc.2 ++ [⟨Tensor.ones [nm], none⟩])) (p0, d0)
  match (List.range s.inlmax).foldlM (descriptor_step solver pd.1) pd.2 with
  | .error e => .error e
  | .ok d => .ok { s with pdm_tensor := pd.1, d_tensor := d }

/-- Lines 158-173 of `cal_gvdm`: the Jacobian slice of one atom in one
shell.  The block is replicated `nm` times, decomposed as a batch, and the
rows of the identity are propagated back through the decomposition. -/
def gvdm_atom (solver : EighSolver K) (s : LCAO_Deepks K) (nlmax nl iat : Nat) :
    Except String (Tensor K) :=
  let inl := iat * nlmax + nl
  let nm := 2 * s.inl_l inl + 1
  match s.pdm_tensor[inl]? with
  | none => .error "pdm_tensor: index out of range"
  | some blk =>
    match blk.reshape [nm, nm] with
    | .error e => .error e
    | .ok r =>
      let tmp_x := (r.unsqueeze0).repeat [nm, 1, 1]
      match linalg_eigh solver tmp_x with
      | .error e => .error e
      | .ok tmp_yv =>
        let tmp_yshell : Tensor K := Tensor.eye nm
        if tmp_yv.1.shape = tmp_yshell.shape then .ok (eigh_backward tmp_yv.2 tmp_yshell)
        else .error "autograd::grad: mismatch in shape of grad_output and output"

/-- `LCAO_Deepks::cal_gvdm`. -/
def cal_gvdm (solver : EighSolver K) (nat : Nat) (s : LCAO_Deepks K) :
    Except String (LCAO_Deepks K) :=
  if nat = 0 then .error "integer division by zero"
  else
    let nlmax := s.inlmax / nat
    match mapE (fun nl =>
        match mapE (gvdm_atom solver s nlmax nl) (List.range nat) with
        | .error e => .error e
        | .ok avmmv => stack avmmv) (List.range nlmax) with
    | .error e => .error e
    | .ok gevdm =>
      if gevdm.length = nlmax then .ok { s with gevdm_vector := gevdm }
      else .error "assertion failed: gevdm_vector.size() == nlmax"

/-- Lines 97-106 of `cal_gvx`: the row-major entries of one derivative
block, taken from `gdmx`, `gdmy` or `gdmz` according to the direction `i`. -/
def gdm_mmv (s : LCAO_Deepks K) (ibt i inl nm : Nat) : List K :=
  (List.range nm).foldl (fun mmv m1 =>
    (List.range nm).foldl (fun mmv m2 =>
      let mmv := if i = 0 then mmv ++ [s.gdmx ibt inl (m1 * nm + m2)] else mmv
      let mmv := if i = 1 then mmv ++ [s.gdmy ibt inl (m1 * nm + m2)] else mmv
      if i = 2 then mmv ++ [s.gdmz ibt inl (m1 * nm + m2)] else mmv) mmv) []

/-- Lines 86-116 of `cal_gvx`: the stacked derivative blocks of shell `nl`. -/
def gdmr_shell (s : LCAO_Deepks K) (nat nlmax nl : Nat) : Except String (Tensor K) :=
  match mapE (fun ibt =>
      match mapE (fun i =>
          match mapE (fun iat =>
              let inl := iat * nlmax + nl
              let nm := 2 * s.inl_l inl + 1
              (Tensor.of_vector (gdm_mmv s ibt i inl nm)).reshape [nm, nm]) (List.range nat) with
          | .error e => .error e
          | .ok ammv => stack ammv) (List.range 3) with
      | .error e => .error e
      | .ok xmmv => stack xmmv) (List.range nat) with
  | .error e => .error e
  | .ok bmmv => stack bmmv

/-- Lines 124-132 of `cal_gvx`: contraction per shell and concatenation; the
result is the tensor assigned to `gvx_tensor`. -/
def gvx_build (nlmax : Nat) (gdmr_vector gevdm_vector : List (Tensor K)) :
    Except String (Tensor K) :=
  match mapE (fun nl =>
      match gdmr_vector[nl]?, gevdm_vector[nl]? with
      | some a, some b => einsum_bxamn_avmn a b
      | _, _ => .error "index out of range") (List.range nlmax) with
  | .error e => .error e
  | .ok gvx_vector => cat_last gvx_vector

/-- Lines 124-137 of `cal_gvx`: contraction per shell, concatenation, and
the four assertions on the extents of the result. -/
def gvx_contract (nat nlmax des_per_atom : Nat) (gdmr_vector gevdm_vector : List (Tensor K)) :
    Except String (Tensor K) :=
  match gvx_build nlmax gdmr_vector gevdm_vector with
  | .error e => .error e
  | .ok gvx =>
    if gvx.shape.length < 4 then .error "size: dimension out of range"
    else if gvx.shape.getD 0 0 ≠ nat then .error "assertion failed: gvx_tensor.size(0) == nat"
    else if gvx.shape.getD 1 0 ≠ 3 then .error "assertion failed: gvx_tensor.size(1) == 3"
    else if gvx.shape.getD 2 0 ≠ nat then .error "assertion failed: gvx_tensor.size(2) == nat"
    else if gvx.shape.getD 3 0 ≠ des_per_atom then
      .error "assertion failed: gvx_tensor.size(3) == des_per_atom"
    else .ok gvx

/-- `LCAO_Deepks::cal_gvx`; `MY_RANK` is `GlobalV::MY_RANK`. -/
def cal_gvx (solver : EighSolver K) (MY_RANK : Nat) (nat : Nat) (s : LCAO_Deepks K) :
    Except String (LCAO_Deepks K) :=
  match cal_gvdm solver nat s with
  | .error e => .error e
  | .ok s1 =>
    let s2 := { s1 with gdmr_vector := erase_all s1.gdmr_vector }
    if MY_RANK = 0 then
      let nlmax := s2.inlmax / nat
      match mapE (gdmr_shell s2 nat nlmax) (List.range nlmax) with
      | .error e => .error e
      | .ok gdmr =>
        let gdmr_vector := s2.gdmr_vector ++ gdmr
        if gdmr_vector.length ≠ nlmax then .error "assertion failed: gdmr_vector.size() == nlmax"
        else
          match gvx_contract nat nlmax s2.des_per_atom gdmr_vector s2.gevdm_vector with
          | .error e => .error e
          | .ok gvx => .ok { s2 with gdmr_vector := gdmr_vector, gvx_tensor := gvx }
    else .ok s2

/-- `LCAO_Deepks::load_model`; `jit_load` is `torch::jit::load`.  The
module is assigned only when the load returns.  The handler catches
`c10::Error` alone: it prints a message and returns; an exception of any
other type leaves the routine and reaches the caller. -/
def load_model (jit_load : String → LoadResult K) (model_file : String)
    (s : LCAO_Deepks K) : Except String (LCAO_Deepks K) :=
  match jit_load model_file with
  | .loaded m => .ok { s with module := some m }
  | .c10_error _ => .ok s
  | .other_exception what => .error what

/-- Line 208 of `cal_gedm`: `torch::cat(d_tensor, 0)`. -/
def gedm_cat (s : LCAO_Deepks K) : Except String (Tensor K) :=
  cat0 (s.d_tensor.map (fun d => d.value))

/-- Line 208 of `cal_gedm`: the input handed to the model. -/
def gedm_input (nat : Nat) (s : LCAO_Deepks K) : Except String (Tensor K) :=
  match gedm_cat s with
  | .error e => .error e
  | .ok c => c.reshape [nat, s.des_per_atom]

/-- Lines 205-211 of `cal_gedm`: the forward pass and the stored energy. -/
def cal_gedm_forward (nat : Nat) (s : LCAO_Deepks K) : Except String (LCAO_Deepks K) :=
  match gedm_input nat s with
  | .error e => .error e
  | .ok x =>
    match s.module with
    | none => .error "forward: the module has no method forward"
    | some md => .ok { s with E_delta := md.forward x * 2 }

/-- Start of the segment of `d_tensor[inl]` inside `torch::cat(d_tensor, 0)`. -/
def d_offset (d : List (Tracked K)) (inl : Nat) : Nat :=
  ((d.take inl).map (fun t => t.value.shape.headD 0)).sum

/-- The cotangent reaching `d_tensor[inl]` when the gradient `g` of the model
input of shape `xshape` is propagated back through `reshape` and `cat`. -/
def d_cotangent (d : List (Tracked K)) (cshape xshape : List Nat) (g : List Nat → K)
    (inl : Nat) : Tensor K :=
  let gc : List Nat → K :=
    if cshape = xshape then g else fun idx => g (unravel xshape (ravel cshape idx))
  match d[inl]? with
  | some t => ⟨t.value.shape, fun idx => gc ((d_offset d inl + idx.headD 0) :: idx.tail)⟩
  | none => ⟨[], fun _ => 0⟩

/-- Line 216 of `cal_gedm`: `torch::autograd::grad(ec, pdm_tensor, ones_like(ec),
retain_graph, create_graph, allow_unused = true)`.  One result per element of
`pdm_tensor`; an element the output does not depend on gets an undefined
tensor (`none`).  `cshape` is the shape of `torch::cat(d_tensor, 0)` and `x`
the model input. -/
def autograd_grad_pdm (md : Module K) (pdm_tensor : List (Tensor K)) (d_tensor : List (Tracked K))
    (cshape : List Nat) (x : Tensor K) : List (Option (Tensor K)) :=
  (List.range pdm_tensor.length).map (fun inl =>
    match md.grad_input x with
    | none => none
    | some g =>
      match d_tensor[inl]? with
      | some t =>
        match t.saved_vecs with
        | some vecs => some (eigh_backward vecs (d_cotangent d_tensor cshape x.shape g inl))
        | none => none
      | none => none)

/-- `t.index({m1, m2}).item().toDouble()` on a possibly undefined tensor. -/
def index_item (t : Option (Tensor K)) (m1 m2 : Nat) : Except String K :=
  match t with
  | none => .error "index: undefined tensor"
  | some u =>
    match u.shape with
    | [a, b] => if m1 < a ∧ m2 < b then .ok (u.entry [m1, m2]) else .error "index out of range"
    | _ => .error "item: a tensor with more than one element"

/-- Lines 219-231 of `cal_gedm`: the gradients `gedm_tensor` are copied into
`gedm`, multiplied by 2 (Hartree to Ry). -/
def gedm_store (s : LCAO_Deepks K) (gedm_tensor : List (Option (Tensor K))) :
    Except String (Nat → Nat → K) :=
  (List.range s.inlmax).foldlM (fun gedm inl =>
    let nm := 2 * s.inl_l inl + 1
    (List.range nm).foldlM (fun gedm m1 =>
      (List.range nm).foldlM (fun (gedm : Nat → Nat → K) m2 =>
        let index := m1 * nm + m2
        match gedm_tensor[inl]? with
        | none => .error "gedm_tensor: index out of range"
        | some t =>
          match index_item t m1 m2 with
          | .error e => .error e
          | .ok v => .ok (fun i j => if i = inl ∧ j = index then v * 2 else gedm i j)) gedm) gedm)
    s.gedm

/-- Lines 213-231 of `cal_gedm`: the backward pass through the model and
the stored blocks, for the model input `x` built from the concatenation of
shape `cshape`. -/
def cal_gedm_backward (md : Module K) (cshape : List Nat) (x : Tensor K) (s : LCAO_Deepks K) :
    Except String (LCAO_Deepks K) :=
  let gedm_tensor := autograd_grad_pdm md s.pdm_tensor s.d_tensor cshape x
  match gedm_store s gedm_tensor with
  | .error e => .error e
  | .ok gedm => .ok { s with gedm_tensor := gedm_tensor, gedm := gedm }

/-- `LCAO_Deepks::cal_gedm`. -/
def cal_gedm (nat : Nat) (s : LCAO_Deepks K) : Except String (LCAO_Deepks K) :=
  match gedm_cat s with
  | .error e => .error e
  | .ok c =>
    match c.reshape [nat, s.des_per_atom] with
    | .error e => .error e
    | .ok x =>
      match s.module with
      | none => .error "forward: the module has no method forward"
      | some md => cal_gedm_backward md c.shape x { s with E_delta := md.forward x * 2 }

/-- Lines 73-132 of `cal_gvx` on rank zero: the tensor assigned to
`gvx_tensor`, before the assertions on its extents are evaluated. -/
def gvx_assigned (solver : EighSolver K) (nat : Nat) (s : LCAO_Deepks K) :
    Except String (Tensor K) :=
  match cal_gvdm solver nat s with
  | .error e => .error e
  | .ok s1 =>
    let s2 := { s1 with gdmr_vector := erase_all s1.gdmr_vector }
    let nlmax := s2.inlmax / nat
    match mapE (gdmr_shell s2 nat nlmax) (List.range nlmax) with
    | .error e => .error e
    | .ok gdmr =>
      let gdmr_vector := s2.gdmr_vector ++ gdmr
      if gdmr_vector.length ≠ nlmax then .error "assertion failed: gdmr_vector.size() == nlmax"
      else gvx_build nlmax gdmr_vector s2.gevdm_vector

/-- Lines 353-362 of `cal_orbital_precalc`: the row-major entries of one
block of `orbital_pdm_shell`. -/
def orbital_mmv (orbital_pdm_shell : Nat → Nat → Nat → K) (hl inl nm : Nat) : List K :=
  (List.range nm).foldl (fun mmv m1 =>
    (List.range nm).foldl (fun mmv m2 =>
      mmv ++ [orbital_pdm_shell hl inl (m1 * nm + m2)]) mmv) []

/-- Lines 345-372 of `cal_orbital_precalc`: the stacked blocks of shell `nl`. -/
def orbital_shell (s : LCAO_Deepks K) (orbital_pdm_shell : Nat → Nat → Nat → K)
    (nat nlmax nl : Nat) : Except String (Tensor K) :=
  match mapE (fun hl =>
      match mapE (fun iat =>
          let inl := iat * nlmax + nl
          let nm := 2 * s.inl_l inl + 1
          (Tensor.of_vector (orbital_mmv orbital_pdm_shell hl inl nm)).reshape [nm, nm])
          (List.range nat) with
      | .error e => .error e
      | .ok ammv => stack ammv) (List.range 1) with
  | .error e => .error e
  | .ok iammv => stack iammv

/-- Lines 339-386 of `cal_orbital_precalc`: the contraction stage.
`orbital_pdm_shell` holds the blocks accumulated over the neighbour pairs and
reduced over the processes by lines 244-334. -/
def orbital_contract (nat : Nat) (orbital_pdm_shell : Nat → Nat → Nat → K)
    (s : LCAO_Deepks K) : Except String (Tensor K) :=
  if nat = 0 then .error "integer division by zero"
  else
    let nlmax := s.inlmax / nat
    match mapE (orbital_shell s orbital_pdm_shell nat nlmax) (List.range nlmax) with
    | .error e => .error e
    | .ok orbital_pdm_shell_vector =>
      if orbital_pdm_shell_vector.length ≠ nlmax then
        .error "assertion failed: orbital_pdm_shell_vector.size() == nlmax"
      else
        match mapE (fun nl =>
            match orbital_pdm_shell_vector[nl]?, s.gevdm_vector[nl]? with
            | some a, some b => einsum_iamn_avmn a b
            | _, _ => .error "index out of range") (List.range nlmax) with
        | .error e => .error e
        | .ok orbital_precalc_vector => cat_last orbital_precalc_vector

/-- `LCAO_Deepks::cal_orbital_precalc`; `nat` is `GlobalC::ucell.nat`.  The
accumulation of lines 242-334 is done by the host simulation (neighbour
search, overlaps `nlm_save`, density matrix `dm_hl`, sum over the processes);
its result `orbital_pdm_shell` is an argument. -/
def cal_orbital_precalc (solver : EighSolver K) (nat : Nat)
    (orbital_pdm_shell : Nat → Nat → Nat → K) (s : LCAO_Deepks K) :
    Except String (LCAO_Deepks K) :=
  match cal_gvdm solver nat s with
  | .error e => .error e
  | .ok s1 =>
    match orbital_contract nat orbital_pdm_shell s1 with
    | .error e => .error e
    | .ok t => .ok { s1 with orbital_precalc_tensor := t }

end Routines

/-! ## Processes -/

/-- One process of the parallel run: its rank `GlobalV::MY_RANK` and its
`LCAO_Deepks` object. -/
structure Process (K : Type) where
  MY_RANK : Nat
  deepks : LCAO_Deepks K

section Processes

variable {K : Type} [CommRing K]

/-- The call `cal_gvx(nat)` on process `p`. -/
def Process.cal_gvx (solver : EighSolver K) (p : Process K) (nat : Nat) :
    Except String (LCAO_Deepks K) :=
  Deepks.cal_gvx solver p.MY_RANK nat p.deepks

/-- The call `cal_gedm(nat)` on process `p`; the routine does not read the rank. -/
def Process.cal_gedm (p : Process K) (nat : Nat) : Except String (LCAO_Deepks K) :=
  Deepks.cal_gedm nat p.deepks

/-- The call `cal_orbital_precalc(dm_hl)` on process `p`; the routine does not
read the rank. -/
def Process.cal_orbital_precalc (solver : EighSolver K) (p : Process K) (nat : Nat)
    (orbital_pdm_shell : Nat → Nat → Nat → K) : Except String (LCAO_Deepks K) :=
  Deepks.cal_orbital_precalc solver nat orbital_pdm_shell p.deepks

end Processes

/-! ## Closed forms and predicates -/

section ClosedForms

variable {K : Type} [CommRing K]

/-- The block built by lines 42-49, entry by entry. -/
def block_of (nm : Nat) (src : Nat → K) : Tensor K :=
  ⟨[nm, nm], fun idx => match idx with
    | [a, b] => if a < nm ∧ b < nm then src (a * nm + b) else 1
    | _ => 1⟩

/-- The differentiable blocks retained by `cal_descriptor`. -/
def retained_blocks (s : LCAO_Deepks K) : List (Tensor K) :=
  (List.range s.inlmax).map (fun inl => block_of (2 * s.inl_l inl + 1) (s.pdm inl))

/-- The descriptor of projector `inl` with its history. -/
def descriptor_of (solver : EighSolver K) (s : LCAO_Deepks K) (inl : Nat) : Tracked K :=
  ⟨eigh_vals solver (block_of (2 * s.inl_l inl + 1) (s.pdm inl)) none (2 * s.inl_l inl + 1),
   some (eigh_vecs solver (block_of (2 * s.inl_l inl + 1) (s.pdm inl)) none (2 * s.inl_l inl + 1))⟩

/-- The descriptors stored by `cal_descriptor`. -/
def descriptors (solver : EighSolver K) (s : LCAO_Deepks K) : List (Tracked K) :=
  (List.range s.inlmax).map (descriptor_of solver s)

/-- Contract of the eigen-solver at the symmetric matrix `S`: the columns of
the returned eigenvector matrix are orthonormal and column `k` is an
eigenvector of `S` for the returned eigenvalue `k`. -/
def IsEigh (solver : EighSolver K) (n : Nat) (S : Matrix (Fin n) (Fin n) K) : Prop :=
  (solver.eigenvectors n S).transpose * solver.eigenvectors n S = 1 ∧
  S * solver.eigenvectors n S
    = solver.eigenvectors n S * Matrix.diagonal (solver.eigenvalues n S)

/-- A solver that is exact on diagonal matrices: it returns the diagonal as
eigenvalues and the unit vectors as eigenvectors. -/
def diag_solver (K : Type) [CommRing K] : EighSolver K :=
  ⟨fun _ S k => S k k, fun _ _ => 1⟩

/-- The tensor `torch::stack` returns on tensors of the common shape `sh`. -/
def stacked (ts : List (Tensor K)) (sh : List Nat) : Tensor K :=
  ⟨ts.length :: sh, fun idx => match idx with
    | i :: r => match ts[i]? with
      | some u => u.entry r
      | none => 0
    | [] => 0⟩

/-- The block stored for projector `inl`. -/
def block_at (s : LCAO_Deepks K) (inl : Nat) : Tensor K :=
  (s.pdm_tensor[inl]?).getD ⟨[], fun _ => 0⟩

/-- The Jacobian slice `gvdm_atom` computes from a retained block of order `nm`. -/
def jac_of (solver : EighSolver K) (blk : Tensor K) (nm : Nat) : Tensor K :=
  eigh_backward (eigh_vecs solver ((blk.unsqueeze0).repeat [nm, 1, 1]) (some nm) nm)
    (Tensor.eye nm)

/-- The retained blocks have the shapes `cal_descriptor` gives them. -/
def RetainedShapes (s : LCAO_Deepks K) : Prop :=
  ∀ inl, inl < s.inlmax → ∃ blk, s.pdm_tensor[inl]? = some blk ∧
    blk.shape = [2 * s.inl_l inl + 1, 2 * s.inl_l inl + 1]

/-- Every atom has the same angular momentum in shell `nl`. -/
def UniformShells (s : LCAO_Deepks K) (nat : Nat) : Prop :=
  ∀ iat nl, iat < nat → nl < s.inlmax / nat →
    s.inl_l (iat * (s.inlmax / nat) + nl) = s.inl_l nl

/-- The Jacobian tensor of shell `nl` stored by `cal_gvdm`. -/
def gevdm_shell (solver : EighSolver K) (s : LCAO_Deepks K) (nat nl : Nat) : Tensor K :=
  stacked ((List.range nat).map (fun iat =>
      jac_of solver (block_at s (iat * (s.inlmax / nat) + nl))
        (2 * s.inl_l (iat * (s.inlmax / nat) + nl) + 1)))
    [2 * s.inl_l nl + 1, 2 * s.inl_l nl + 1, 2 * s.inl_l nl + 1]

/-- The derivative array selected by the direction `i`. -/
def gdm_dir (s : LCAO_Deepks K) (i : Nat) : Nat → Nat → Nat → K :=
  if i = 0 then s.gdmx else if i = 1 then s.gdmy else s.gdmz

/-- The `nm × nm` view of a vector of `nm * nm` values. -/
def mat_of_vector (v : List K) (nm : Nat) : Tensor K :=
  ⟨[nm, nm], fun idx => (Tensor.of_vector v).entry (unravel [v.length] (ravel [nm, nm] idx))⟩

/-- The stacked derivative blocks of shell `nl` built by `cal_gvx`. -/
def gdmr_closed (s : LCAO_Deepks K) (nat nl : Nat) : Tensor K :=
  stacked ((List.range nat).map (fun ibt =>
    stacked ((List.range 3).map (fun i =>
      stacked ((List.range nat).map (fun iat =>
        mat_of_vector (gdm_mmv s ibt i (iat * (s.inlmax / nat) + nl) (2 * s.inl_l nl + 1))
          (2 * s.inl_l nl + 1)))
        [2 * s.inl_l nl + 1, 2 * s.inl_l nl + 1]))
      [nat, 2 * s.inl_l nl + 1, 2 * s.inl_l nl + 1]))
    [3, nat, 2 * s.inl_l nl + 1, 2 * s.inl_l nl + 1]

/-- The tensor `einsum_bxamn_avmn` returns on operands whose shared extents agree. -/
def contracted (A B : Tensor K) (b x a v m n : Nat) : Tensor K :=
  ⟨[b, x, a, v], fun idx => match idx with
    | [ib, ix, ia, iv] =>
      (Finset.range m).sum (fun im =>
        (Finset.range n).sum (fun jn =>
          A.entry [ib, ix, bidx a ia, bidx m im, bidx n jn]
            * B.entry [bidx a ia, iv, bidx m im, bidx n jn]))
    | _ => 0⟩

/-- The tensor `cat_last` returns on tensors with leading extents `lead`. -/
def catted (ts : List (Tensor K)) (lead : List Nat) : Tensor K :=
  ⟨lead ++ [(ts.map (fun u => u.shape.getLastD 0)).sum],
   fun idx => cat_last_entry ts idx.dropLast (idx.getLastD 0)⟩

/-- All entries of the tensor are zero. -/
def ZeroT (t : Tensor K) : Prop := ∀ idx, t.entry idx = 0

/-- The contraction of shell `nl` computed by `cal_gvx`. -/
def gvx_shell (solver : EighSolver K) (s : LCAO_Deepks K) (nat nl : Nat) : Tensor K :=
  contracted (gdmr_closed s nat nl) (gevdm_shell solver s nat nl) nat 3 nat
    (2 * s.inl_l nl + 1) (2 * s.inl_l nl + 1) (2 * s.inl_l nl + 1)

/-- The descriptor-gradient tensor stored by `cal_gvx`. -/
def gvx_closed (solver : EighSolver K) (s : LCAO_Deepks K) (nat : Nat) : Tensor K :=
  catted ((List.range (s.inlmax / nat)).map (gvx_shell solver s nat)) [nat, 3, nat]

/-- The length of one atom's descriptor vector: the block sizes of its shells summed. -/
def shell_total (s : LCAO_Deepks K) (nlmax : Nat) : Nat :=
  ((List.range nlmax).map (fun nl => 2 * s.inl_l nl + 1)).sum

/-- The tensor `cat0` returns on tensors with trailing extents `tl`. -/
def catted0 (ts : List (Tensor K)) (tl : List Nat) : Tensor K :=
  ⟨(ts.map (fun u => u.shape.headD 0)).sum :: tl,
   fun idx => cat0_entry ts (idx.headD 0) idx.tail⟩

/-- Every element of `d_tensor` is a vector. -/
def VectorDescriptors (s : LCAO_Deepks K) : Prop :=
  ∀ t ∈ s.d_tensor, ∃ n, t.value.shape = [n]

/-- The number of descriptor values held by `d_tensor`. -/
def d_total (d : List (Tracked K)) : Nat :=
  (d.map (fun t => t.value.shape.headD 0)).sum

/-- The values of a vector, in order. -/
def vector_values (t : Tensor K) : List K :=
  (List.range (t.shape.headD 0)).map (fun k => t.entry [k])

/-- The concatenation of the descriptor vectors `d_tensor[0]`, `d_tensor[1]`,
... in projector order, as a list of values. -/
def concat_values : List (Tracked K) → List K
  | [] => []
  | t :: ts => vector_values t.value ++ concat_values ts

/-- The matrix handed to the model by `cal_gedm`. -/
def input_of (nat : Nat) (s : LCAO_Deepks K) : Tensor K :=
  ⟨[nat, s.des_per_atom], fun idx =>
    (catted0 (s.d_tensor.map (fun d => d.value)) []).entry
      (unravel [d_total s.d_tensor] (ravel [nat, s.des_per_atom] idx))⟩

/-- The array `gedm` after the copy loop of `cal_gedm`, for defined gradient
tensors `G inl`. -/
def gedm_closed (s : LCAO_Deepks K) (G : Nat → Tensor K) : Nat → Nat → K :=
  fun i j =>
    if i < s.inlmax ∧ j < (2 * s.inl_l i + 1) * (2 * s.inl_l i + 1)
    then (G i).entry [j / (2 * s.inl_l i + 1), j % (2 * s.inl_l i + 1)] * 2
    else s.gedm i j

/-- The state of `s` after `cal_descriptor`. -/
def descriptor_state (solver : EighSolver K) (s : LCAO_Deepks K) : LCAO_Deepks K :=
  { s with pdm_tensor := retained_blocks s, d_tensor := descriptors solver s }

/-- The gradient tensor autograd returns for the block of projector `inl` of
a state produced by `cal_descriptor`, for the model-input gradient `g`. -/
def grad_block (solver : EighSolver K) (s : LCAO_Deepks K) (nat : Nat) (g : List Nat → K)
    (inl : Nat) : Tensor K :=
  eigh_backward
    (eigh_vecs solver (block_of (2 * s.inl_l inl + 1) (s.pdm inl)) none (2 * s.inl_l inl + 1))
    (d_cotangent (descriptors solver s) [d_total (descriptors solver s)]
      [nat, s.des_per_atom] g inl)

/-- Position of the first descriptor of projector `inl` in the concatenation
of all descriptor vectors. -/
def slot_offset (s : LCAO_Deepks K) (inl : Nat) : Nat :=
  ((List.range inl).map (fun i => 2 * s.inl_l i + 1)).sum

/-- Index, in the `(nat, des_per_atom)` model input, of descriptor `k` of
projector `inl`. -/
def model_slot (s : LCAO_Deepks K) (inl k : Nat) : List Nat :=
  [(slot_offset s inl + k) / s.des_per_atom, (slot_offset s inl + k) % s.des_per_atom]

/-- The derivative of the model output with respect to entry `(m1, m2)` of
the block of projector `inl`, by the chain rule: the sum over the descriptors
`k` of the projector of the derivative `g` of the model output with respect
to descriptor `k` times the derivative of descriptor `k` with respect to the
block entry (the Eigen-Jacobian computed as in `cal_gvdm`). -/
def dE_dpdm (solver : EighSolver K) (s : LCAO_Deepks K) (g : List Nat → K) (inl m1 m2 : Nat) : K :=
  (Finset.range (2 * s.inl_l inl + 1)).sum (fun k =>
    g (model_slot s inl k)
      * (jac_of solver (block_of (2 * s.inl_l inl + 1) (s.pdm inl))
          (2 * s.inl_l inl + 1)).entry [k, m1, m2])

/-- A correction model that is the pure sum of all descriptor components. -/
def sum_module (K : Type) [CommRing K] : Module K :=
  ⟨fun x => (Finset.range (x.shape.getD 0 0)).sum (fun i =>
      (Finset.range (x.shape.getD 1 0)).sum (fun j => x.entry [i, j])),
   fun _ => some (fun _ => 1)⟩

/-- Row `iat` of the model input, as a list. -/
def input_row (nat : Nat) (s : LCAO_Deepks K) (iat : Nat) : List K :=
  (List.range s.des_per_atom).map (fun j => (input_of nat s).entry [iat, j])

/-- The tensor `einsum_iamn_avmn` returns on operands whose shared extents agree. -/
def contracted3 (A B : Tensor K) (i a v m n : Nat) : Tensor K :=
  ⟨[i, a, v], fun idx => match idx with
    | [ii, ia, iv] =>
      (Finset.range m).sum (fun im =>
        (Finset.range n).sum (fun jn =>
          A.entry [ii, bidx a ia, bidx m im, bidx n jn]
            * B.entry [bidx a ia, iv, bidx m im, bidx n jn]))
    | _ => 0⟩

/-- The stacked blocks of shell `nl` built by `cal_orbital_precalc`. -/
def orbital_closed (s : LCAO_Deepks K) (P : Nat → Nat → Nat → K) (nat nl : Nat) : Tensor K :=
  stacked ((List.range 1).map (fun hl =>
    stacked ((List.range nat).map (fun iat =>
      mat_of_vector (orbital_mmv P hl (iat * (s.inlmax / nat) + nl) (2 * s.inl_l nl + 1))
        (2 * s.inl_l nl + 1)))
      [2 * s.inl_l nl + 1, 2 * s.inl_l nl + 1]))
    [nat, 2 * s.inl_l nl + 1, 2 * s.inl_l nl + 1]

/-- The contraction of shell `nl` computed by `cal_orbital_precalc`. -/
def precalc_shell (solver : EighSolver K) (s : LCAO_Deepks K) (P : Nat → Nat → Nat → K)
    (nat nl : Nat) : Tensor K :=
  contracted3 (orbital_closed s P nat nl) (gevdm_shell solver s nat nl) 1 nat
    (2 * s.inl_l nl + 1) (2 * s.inl_l nl + 1) (2 * s.inl_l nl + 1)

/-- The tensor stored in `orbital_precalc_tensor` by `cal_orbital_precalc`. -/
def precalc_closed (solver : EighSolver K) (s : LCAO_Deepks K) (P : Nat → Nat → Nat → K)
    (nat : Nat) : Tensor K :=
  catted ((List.range (s.inlmax / nat)).map (precalc_shell solver s P nat)) [1, nat]

end ClosedForms

/-! ## Concrete configurations -/

/-- A state with no projector, no model and nothing retained. -/
def empty_state (K : Type) [CommRing K] : LCAO_Deepks K :=
  { inlmax := 0, inl_l := fun _ => 0, des_per_atom := 0, pdm := fun _ _ => 0,
    gdmx := fun _ _ _ => 0, gdmy := fun _ _ _ => 0, gdmz := fun _ _ _ => 0,
    pdm_tensor := [], d_tensor := [], gevdm_vector := [], gdmr_vector := [],
    gvx_tensor := ⟨[], fun _ => 0⟩, module := none, E_delta := 0, gedm_tensor := [],
    gedm := fun _ _ => 0, orbital_precalc_tensor := ⟨[], fun _ => 0⟩ }

/-- One atom, one projector with `l = 1`, PDM block `5/2` times the identity. -/
def scalar_block_state : LCAO_Deepks ℚ :=
  { (empty_state ℚ) with
    inlmax := 1
    inl_l := fun _ => 1
    des_per_atom := 3
    pdm := fun _ i => if i = 0 ∨ i = 4 ∨ i = 8 then 5 / 2 else 0 }

/-- The state `scalar_block_state` with stale retained tensors from an
earlier geometry. -/
def stale_state : LCAO_Deepks ℚ :=
  { scalar_block_state with
    pdm_tensor := [Tensor.ones [1, 1], Tensor.ones [5, 5]]
    d_tensor := [⟨Tensor.ones [7], none⟩] }

/-- Block Store of two atoms with one shared shell `l = 1`, the two blocks
diagonal, all position derivatives zero. -/
def two_atom_store : LCAO_Deepks ℚ :=
  { (empty_state ℚ) with
    inlmax := 2
    inl_l := fun _ => 1
    des_per_atom := 3
    pdm := fun inl i => if i = 0 then 1 else if i = 4 then 2 + inl else if i = 8 then 7 / 2 else 0 }

/-- The state `two_atom_store` after `cal_descriptor`. -/
def two_atom_state : LCAO_Deepks ℚ :=
  { two_atom_store with
    pdm_tensor := retained_blocks two_atom_store
    d_tensor := descriptors (diag_solver ℚ) two_atom_store }

/-- Block Store of two atoms whose single shell has `l = 0` on the first atom
and `l = 1` on the second; all position derivatives zero. -/
def mixed_store : LCAO_Deepks ℚ :=
  { (empty_state ℚ) with
    inlmax := 2
    inl_l := fun inl => inl
    des_per_atom := 1 }

/-- The state `mixed_store` after `cal_descriptor`. -/
def mixed_state : LCAO_Deepks ℚ :=
  { mixed_store with
    pdm_tensor := retained_blocks mixed_store
    d_tensor := descriptors (diag_solver ℚ) mixed_store }

/-- The state `two_atom_state` with `des_per_atom` set to 5 instead of the
block size 3 of its single shell. -/
def wrong_des_state : LCAO_Deepks ℚ :=
  { two_atom_state with des_per_atom := 5 }

/-- A model that multiplies its single input by `1/2`. -/
def half_module : Module ℚ :=
  ⟨fun x => 1 / 2 * x.entry [0, 0], fun _ => some (fun _ => 1 / 2)⟩

/-- A model whose output does not depend on its input. -/
def const_module : Module ℚ :=
  ⟨fun _ => 3, fun _ => none⟩

/-- Block Store of one atom with one projector `l = 0` and PDM block
`[[2]]`, with the model `md` loaded. -/
def one_atom_store (md : Module ℚ) : LCAO_Deepks ℚ :=
  { (empty_state ℚ) with
    inlmax := 1
    des_per_atom := 1
    pdm := fun _ _ => 2
    module := some md }

/-- The state `one_atom_store md` after `cal_descriptor`. -/
def one_atom_state (md : Module ℚ) : LCAO_Deepks ℚ :=
  descriptor_state (diag_solver ℚ) (one_atom_store md)

/-- The state `one_atom_state md` after `cal_gvdm(1)`. -/
def one_atom_jac_state (md : Module ℚ) : LCAO_Deepks ℚ :=
  { one_atom_state md with
    gevdm_vector := (List.range 1).map (gevdm_shell (diag_solver ℚ) (one_atom_state md) 1) }

/-- The state `one_atom_state half_module` before any model was loaded. -/
def unloaded_state : LCAO_Deepks ℚ :=
  { one_atom_state half_module with module := none }

/-- A state with a loaded model, no projector and `des_per_atom = 0`. -/
def no_projector_state : LCAO_Deepks ℚ :=
  { (empty_state ℚ) with module := some half_module }

/-- The state `mixed_store` with `des_per_atom = 2` and a loaded model, after
`cal_descriptor`: two atoms, the first with one descriptor, the second with
three. -/
def mixed_model_state : LCAO_Deepks ℚ :=
  descriptor_state (diag_solver ℚ)
    { mixed_store with des_per_atom := 2, module := some half_module }

/-- Block Store of three projectors with `l = 0` and `des_per_atom = 1`; for
two atoms `inlmax = 3` is not a multiple of the atom count. -/
def ragged_store : LCAO_Deepks ℚ :=
  { (empty_state ℚ) with
    inlmax := 3
    des_per_atom := 1 }

/-- The state `ragged_store` after `cal_descriptor`. -/
def ragged_state : LCAO_Deepks ℚ :=
  descriptor_state (diag_solver ℚ) ragged_store

/-- Block Store of `two_atom_store` with position derivatives that are not zero. -/
def moving_store : LCAO_Deepks ℚ :=
  { two_atom_store with
    gdmx := fun ibt inl i => (ibt : ℚ) + 2 * (inl : ℚ) + (i : ℚ)
    gdmy := fun _ _ _ => 1
    gdmz := fun ibt _ _ => (ibt : ℚ) }

/-- The state `moving_store` after `cal_descriptor`. -/
def moving_state : LCAO_Deepks ℚ :=
  descriptor_state (diag_solver ℚ) moving_store

/-- Reduced overlap-contraction blocks `orbital_pdm_shell` for the examples. -/
def overlap_blocks : Nat → Nat → Nat → ℚ :=
  fun _ inl i => (inl : ℚ) + (i : ℚ) + 1

/-- The process of rank 1 of a run, holding `wrong_des_state`. -/
def idle_process : Process ℚ :=
  ⟨1, wrong_des_state⟩

/-- The process of rank 1 of a run, holding `one_atom_state half_module`. -/
def second_process : Process ℚ :=
  ⟨1, one_atom_state half_module⟩

/-- A load that raises `c10::Error`, as for a file that cannot be opened. -/
def missing_file_load : String → LoadResult ℚ :=
  fun _ => .c10_error "open file failed"

/-- A load that raises `std::bad_alloc`, which is not a `c10::Error`. -/
def exhausted_load : String → LoadResult ℚ :=
  fun _ => .other_exception "std::bad_alloc"

/-! ## Lemmas -/

section Lemmas

set_option linter.unusedSectionVars false

variable {K : Type} [CommRing K]

theorem erase_all_eq {α : Type} (v : List α) : erase_all v = [] := by
  unfold erase_all
  cases v <;> simp

theorem fill_row_shape (nm m1 : Nat) (src : Nat → K) (c : Nat) (t : Tensor K) :
    ((List.range c).foldl (fun t m2 => t.index_put [m1, m2] (src (m1 * nm + m2))) t).shape
      = t.shape := by
  induction c with
  | zero => simp
  | succ c ih =>
    simp only [List.range_succ, List.foldl_append, List.foldl_cons, List.foldl_nil]
    exact ih

theorem fill_row_entry (nm m1 : Nat) (src : Nat → K) (c : Nat) (t : Tensor K) (idx : List Nat) :
    ((List.range c).foldl (fun t m2 => t.index_put [m1, m2] (src (m1 * nm + m2))) t).entry idx
      = match idx with
        | [a, b] => if a = m1 ∧ b < c then src (a * nm + b) else t.entry idx
        | _ => t.entry idx := by
  induction c with
  | zero =>
    match idx with
    | [] => simp
    | [_] => simp
    | [_, _] => simp
    | _ :: _ :: _ :: _ => simp
  | succ c ih =>
    simp only [List.range_succ, List.foldl_append, List.foldl_cons, List.foldl_nil]
    show (if idx = [m1, c] then src (m1 * nm + c) else _) = _
    rw [ih]
    match idx with
    | [] => simp
    | [_] => simp
    | [a, b] =>
      by_cases h1 : a = m1
      · subst h1
        by_cases h2 : b = c
        · subst h2; simp
        · by_cases h3 : b < c
          · have : b < c + 1 := by omega
            simp [h2, h3, this]
          · have : ¬ b < c + 1 := by omega
            simp [h2, h3, this]
      · simp [h1]
    | _ :: _ :: _ :: _ => simp

theorem fill_block_eq (nm : Nat) (src : Nat → K) : fill_block nm src = block_of nm src := by
  have key : ∀ r : Nat,
      (List.range r).foldl (fun t m1 =>
        (List.range nm).foldl (fun t m2 => t.index_put [m1, m2] (src (m1 * nm + m2))) t)
        (Tensor.ones [nm, nm])
      = (⟨[nm, nm], fun idx => match idx with
          | [a, b] => if a < r ∧ b < nm then src (a * nm + b) else 1
          | _ => 1⟩ : Tensor K) := by
    intro r
    induction r with
    | zero =>
      simp only [List.range_zero, List.foldl_nil, Tensor.ones]
      congr 1
      funext idx
      match idx with
      | [] => rfl
      | [_] => rfl
      | [_, _] => simp
      | _ :: _ :: _ :: _ => rfl
    | succ r ih =>
      rw [List.range_succ, List.foldl_append, ih]
      simp only [List.foldl_cons, List.foldl_nil]
      have hs := fill_row_shape nm r src nm (⟨[nm, nm], fun idx => match idx with
          | [a, b] => if a < r ∧ b < nm then src (a * nm + b) else 1
          | _ => 1⟩ : Tensor K)
      have he := fill_row_entry nm r src nm (⟨[nm, nm], fun idx => match idx with
          | [a, b] => if a < r ∧ b < nm then src (a * nm + b) else 1
          | _ => 1⟩ : Tensor K)
      generalize (List.range nm).foldl (fun t m2 => t.index_put [r, m2] (src (r * nm + m2)))
        (⟨[nm, nm], fun idx => match idx with
          | [a, b] => if a < r ∧ b < nm then src (a * nm + b) else 1
          | _ => 1⟩ : Tensor K) = u at hs he
      cases u with
      | mk sh en =>
        simp only at hs he
        subst hs
        congr 1
        funext idx
        rw [he]
        match idx with
        | [] => rfl
        | [_] => rfl
        | [a, b] =>
          simp only
          by_cases h1 : a = r
          · subst h1
            by_cases h2 : b < nm <;> simp [h2]
          · by_cases h2 : b < nm
            · by_cases h3 : a < r
              · have : a < r + 1 := by omega
                simp [h1, h2, h3, this]
              · have : ¬ a < r + 1 := by omega
                simp [h1, h2, h3, this]
            · simp [h1, h2]
        | _ :: _ :: _ :: _ => rfl
  unfold fill_block block_of
  exact key nm

theorem foldl_push_pair {α β : Type} (f : Nat → α) (g : Nat → β) (n : Nat) (p : List α)
    (d : List β) :
    (List.range n).foldl (fun (acc : List α × List β) i => (acc.1 ++ [f i], acc.2 ++ [g i])) (p, d)
      = (p ++ (List.range n).map f, d ++ (List.range n).map g) := by
  induction n with
  | zero => simp
  | succ n ih => simp [List.range_succ, List.foldl_append, ih]

theorem foldlM_set {β : Type} (n : Nat) (f : Nat → β)
    (step : List β → Nat → Except String (List β))
    (hstep : ∀ d i, i < n → d.length = n → step d i = .ok (d.set i (f i)))
    (j : Nat) (hj : j ≤ n) (d : List β) (hd : d.length = n) :
    (List.range j).foldlM step d = .ok ((List.range j).map f ++ d.drop j) := by
  induction j with
  | zero => simp [pure, Except.pure]
  | succ j ih =>
    have hjn : j < n := by omega
    rw [List.range_succ, List.foldlM_append, ih (by omega)]
    have hlen : ((List.range j).map f ++ d.drop j).length = n := by
      simp; omega
    simp only [bind, Except.bind, List.foldlM_cons, List.foldlM_nil]
    rw [hstep _ j hjn hlen]
    simp only [pure, Except.pure]
    congr 1
    have hjd : j < d.length := by omega
    rw [List.set_append_right _ _ (by simp), List.drop_eq_getElem_cons hjd]
    simp only [List.length_map, List.length_range, Nat.sub_self, List.set_cons_zero,
      List.map_append, List.map_cons, List.map_nil, List.append_assoc, List.singleton_append]

theorem block_of_shape (nm : Nat) (src : Nat → K) : (block_of nm src).shape = [nm, nm] := rfl

theorem cal_descriptor_eq (solver : EighSolver K) (s : LCAO_Deepks K) :
    cal_descriptor solver s
      = .ok { s with pdm_tensor := retained_blocks s, d_tensor := descriptors solver s } := by
  unfold cal_descriptor
  simp only [erase_all_eq, foldl_push_pair, List.nil_append]
  have h := foldlM_set s.inlmax (descriptor_of solver s)
    (descriptor_step solver ((List.range s.inlmax).map
      (fun inl => fill_block (2 * s.inl_l inl + 1) (s.pdm inl))))
    (by
      intro d i hi hd
      unfold descriptor_step
      simp [hi, hd, fill_block_eq, linalg_eigh, block_of_shape, descriptor_of])
    s.inlmax (le_refl _)
    ((List.range s.inlmax).map (fun inl => (⟨Tensor.ones [2 * s.inl_l inl + 1], none⟩ : Tracked K)))
    (by simp)
  rw [h]
  simp [retained_blocks, descriptors, fill_block_eq]

theorem diag_solver_isEigh (n : Nat) (d : Fin n → K) :
    IsEigh (diag_solver K) n (Matrix.diagonal d) := by
  constructor
  · simp [diag_solver]
  · simp [diag_solver]

theorem isEigh_scalar (solver : EighSolver K) (n : Nat) (c : K)
    (h : IsEigh solver n (Matrix.diagonal (fun _ => c))) (k : Fin n) :
    solver.eigenvalues n (Matrix.diagonal (fun _ => c)) k = c := by
  have h4 : (Matrix.diagonal (fun _ => c) : Matrix (Fin n) (Fin n) K)
      = c • (1 : Matrix (Fin n) (Fin n) K) := by
    ext i j
    by_cases hij : i = j <;> simp [Matrix.diagonal, Matrix.one_apply, hij]
  rw [h4] at h ⊢
  obtain ⟨h1, h2⟩ := h
  have h3 := congrArg (fun M => (solver.eigenvectors n (c • 1)).transpose * M) h2
  simp only [← Matrix.mul_assoc, h1, Matrix.one_mul] at h3
  simp only [Matrix.mul_smul, Matrix.mul_one, Matrix.smul_mul, h1] at h3
  have h5 := congrFun (congrFun h3 k) k
  simp at h5
  exact h5.symm

theorem upper_sym_block_scalar (nm : Nat) (src : Nat → K) (c : K)
    (h : ∀ m1 m2, m1 < nm → m2 < nm → src (m1 * nm + m2) = if m1 = m2 then c else 0) :
    upper_sym (block_of nm src) [] nm = Matrix.diagonal (fun _ => c) := by
  ext i j
  have hi := i.isLt
  have hj := j.isLt
  have h1 : min i.val j.val < nm := by omega
  have h2 : max i.val j.val < nm := by omega
  simp only [upper_sym, block_of, List.nil_append, h1, h2, and_self, if_true]
  rw [h _ _ h1 h2]
  by_cases hij : i = j
  · subst hij; simp
  · have : ¬ (min i.val j.val = max i.val j.val) := by
      intro hm
      apply hij
      apply Fin.ext
      omega
    simp [Matrix.diagonal, hij, this]

theorem mapE_eq_map {α β : Type} (f : α → Except String β) (g : α → β) (l : List α)
    (h : ∀ a ∈ l, f a = .ok (g a)) : mapE f l = .ok (l.map g) := by
  induction l with
  | nil => rfl
  | cons a l ih =>
    have ha := h a (by simp)
    have hl := ih (fun b hb => h b (by simp [hb]))
    simp [mapE, ha, hl]

theorem stack_eq (ts : List (Tensor K)) (sh : List Nat) (hne : ts ≠ [])
    (hsh : ∀ u ∈ ts, u.shape = sh) : stack ts = .ok (stacked ts sh) := by
  cases ts with
  | nil => exact absurd rfl hne
  | cons t rest =>
    have ht : t.shape = sh := hsh t (by simp)
    have hall : rest.all (fun u => decide (u.shape = t.shape)) = true := by
      rw [List.all_eq_true]
      intro u hu
      simp [ht, hsh u (by simp [hu])]
    rw [ht] at hall
    simp only [stack, stacked, ht, hall, if_true]

theorem jac_of_shape (solver : EighSolver K) (blk : Tensor K) (nm : Nat) :
    (jac_of solver blk nm).shape = [nm, nm, nm] := rfl

theorem inl_lt (inlmax nat iat nl : Nat) (hiat : iat < nat) (hnl : nl < inlmax / nat) :
    iat * (inlmax / nat) + nl < inlmax := by
  have h1 : inlmax / nat * nat ≤ inlmax := Nat.div_mul_le_self inlmax nat
  have h2 : (iat + 1) * (inlmax / nat) ≤ nat * (inlmax / nat) :=
    Nat.mul_le_mul_right _ hiat
  have h3 : (iat + 1) * (inlmax / nat) = iat * (inlmax / nat) + inlmax / nat := by ring
  have h4 : nat * (inlmax / nat) = inlmax / nat * nat := by ring
  omega

theorem gvdm_atom_eq (solver : EighSolver K) (s : LCAO_Deepks K) (nlmax nl iat : Nat)
    (blk : Tensor K) (hget : s.pdm_tensor[iat * nlmax + nl]? = some blk)
    (hshape : blk.shape = [2 * s.inl_l (iat * nlmax + nl) + 1, 2 * s.inl_l (iat * nlmax + nl) + 1]) :
    gvdm_atom solver s nlmax nl iat
      = .ok (jac_of solver blk (2 * s.inl_l (iat * nlmax + nl) + 1)) := by
  unfold gvdm_atom
  simp only [hget]
  generalize 2 * s.inl_l (iat * nlmax + nl) + 1 = nm at hshape ⊢
  simp [Tensor.reshape, hshape, linalg_eigh, Tensor.repeat, Tensor.unsqueeze0, eigh_vals,
    Tensor.eye, jac_of]

theorem cal_gvdm_eq (solver : EighSolver K) (nat : Nat) (s : LCAO_Deepks K) (hnat : 1 ≤ nat)
    (hret : RetainedShapes s) (huni : UniformShells s nat) :
    cal_gvdm solver nat s
      = .ok { s with gevdm_vector := (List.range (s.inlmax / nat)).map (gevdm_shell solver s nat) } := by
  unfold cal_gvdm
  have hn0 : nat ≠ 0 := by omega
  simp only [hn0, if_false]
  have hshell : ∀ nl ∈ List.range (s.inlmax / nat),
      (match mapE (gvdm_atom solver s (s.inlmax / nat) nl) (List.range nat) with
        | .error e => Except.error e
        | .ok avmmv => stack avmmv) = Except.ok (gevdm_shell solver s nat nl) := by
    intro nl hnl
    rw [List.mem_range] at hnl
    have hatoms := mapE_eq_map (gvdm_atom solver s (s.inlmax / nat) nl)
      (fun iat => jac_of solver (block_at s (iat * (s.inlmax / nat) + nl))
        (2 * s.inl_l (iat * (s.inlmax / nat) + nl) + 1)) (List.range nat)
      (by
        intro iat hiat
        rw [List.mem_range] at hiat
        obtain ⟨blk, hget, hshape⟩ := hret _ (inl_lt s.inlmax nat iat nl hiat hnl)
        rw [gvdm_atom_eq solver s _ nl iat blk hget hshape]
        simp [block_at, hget])
    rw [hatoms]
    simp only
    unfold gevdm_shell
    apply stack_eq
    · intro h
      have := congrArg List.length h
      simp at this
      omega
    · intro u hu
      rw [List.mem_map] at hu
      obtain ⟨iat, hiat, rfl⟩ := hu
      rw [List.mem_range] at hiat
      rw [jac_of_shape, huni iat nl hiat hnl]
  rw [mapE_eq_map _ _ _ hshell]
  simp

theorem foldl_push_rows (g : Nat → K) (nm r : Nat) :
    (List.range r).foldl (fun mmv m1 =>
      (List.range nm).foldl (fun mmv m2 => mmv ++ [g (m1 * nm + m2)]) mmv) []
      = (List.range (r * nm)).map g := by
  have inner : ∀ (m1 c : Nat) (init : List K),
      (List.range c).foldl (fun mmv m2 => mmv ++ [g (m1 * nm + m2)]) init
        = init ++ (List.range c).map (fun m2 => g (m1 * nm + m2)) := by
    intro m1 c init
    induction c with
    | zero => simp
    | succ c ih => simp [List.range_succ, List.foldl_append, ih]
  induction r with
  | zero => simp
  | succ r ih =>
    rw [List.range_succ, List.foldl_append, ih]
    simp only [List.foldl_cons, List.foldl_nil]
    rw [inner, Nat.succ_mul, List.range_add, List.map_append, List.map_map]
    rfl

theorem gdm_mmv_eq (s : LCAO_Deepks K) (ibt i inl nm : Nat) (hi : i < 3) :
    gdm_mmv s ibt i inl nm = (List.range (nm * nm)).map (gdm_dir s i ibt inl) := by
  unfold gdm_mmv
  interval_cases i
  · simpa [gdm_dir] using foldl_push_rows (s.gdmx ibt inl) nm nm
  · simpa [gdm_dir] using foldl_push_rows (s.gdmy ibt inl) nm nm
  · simpa [gdm_dir] using foldl_push_rows (s.gdmz ibt inl) nm nm

theorem reshape_of_vector (v : List K) (nm : Nat) (h : v.length = nm * nm) :
    (Tensor.of_vector v).reshape [nm, nm] = .ok (mat_of_vector v nm) := by
  simp [Tensor.reshape, Tensor.of_vector, mat_of_vector, h]

theorem range_map_ne_nil {α : Type} (n : Nat) (f : Nat → α) (hn : 1 ≤ n) :
    (List.range n).map f ≠ [] := by
  intro h
  have := congrArg List.length h
  simp at this
  omega

theorem gdmr_shell_eq (s : LCAO_Deepks K) (nat nl : Nat) (hnat : 1 ≤ nat)
    (hnl : nl < s.inlmax / nat) (huni : UniformShells s nat) :
    gdmr_shell s nat (s.inlmax / nat) nl = .ok (gdmr_closed s nat nl) := by
  unfold gdmr_shell
  have hatoms : ∀ ibt i, i ∈ List.range 3 →
      mapE (fun iat =>
        (Tensor.of_vector (gdm_mmv s ibt i (iat * (s.inlmax / nat) + nl)
          (2 * s.inl_l (iat * (s.inlmax / nat) + nl) + 1))).reshape
          [2 * s.inl_l (iat * (s.inlmax / nat) + nl) + 1,
           2 * s.inl_l (iat * (s.inlmax / nat) + nl) + 1]) (List.range nat)
      = .ok ((List.range nat).map (fun iat =>
          mat_of_vector (gdm_mmv s ibt i (iat * (s.inlmax / nat) + nl) (2 * s.inl_l nl + 1))
            (2 * s.inl_l nl + 1))) := by
    intro ibt i hi
    rw [List.mem_range] at hi
    apply mapE_eq_map
    intro iat hiat
    rw [List.mem_range] at hiat
    simp only [huni iat nl hiat hnl]
    apply reshape_of_vector
    rw [gdm_mmv_eq _ _ _ _ _ hi]
    simp
  have hdirs : ∀ ibt, ibt ∈ List.range nat →
      (match mapE (fun i =>
          match mapE (fun iat =>
            (Tensor.of_vector (gdm_mmv s ibt i (iat * (s.inlmax / nat) + nl)
              (2 * s.inl_l (iat * (s.inlmax / nat) + nl) + 1))).reshape
              [2 * s.inl_l (iat * (s.inlmax / nat) + nl) + 1,
               2 * s.inl_l (iat * (s.inlmax / nat) + nl) + 1]) (List.range nat) with
          | .error e => Except.error e
          | .ok ammv => stack ammv) (List.range 3) with
        | .error e => Except.error e
        | .ok xmmv => stack xmmv)
      = Except.ok (stacked ((List.range 3).map (fun i =>
          stacked ((List.range nat).map (fun iat =>
            mat_of_vector (gdm_mmv s ibt i (iat * (s.inlmax / nat) + nl) (2 * s.inl_l nl + 1))
              (2 * s.inl_l nl + 1)))
            [2 * s.inl_l nl + 1, 2 * s.inl_l nl + 1]))
          [nat, 2 * s.inl_l nl + 1, 2 * s.inl_l nl + 1]) := by
    intro ibt _
    rw [mapE_eq_map _ (fun i => stacked ((List.range nat).map (fun iat =>
            mat_of_vector (gdm_mmv s ibt i (iat * (s.inlmax / nat) + nl) (2 * s.inl_l nl + 1))
              (2 * s.inl_l nl + 1)))
            [2 * s.inl_l nl + 1, 2 * s.inl_l nl + 1])]
    · simp only
      apply stack_eq
      · exact range_map_ne_nil 3 _ (by omega)
      · intro u hu
        rw [List.mem_map] at hu
        obtain ⟨i, _, rfl⟩ := hu
        simp [stacked]
    · intro i hi
      rw [hatoms ibt i hi]
      simp only
      apply stack_eq
      · exact range_map_ne_nil nat _ hnat
      · intro u hu
        rw [List.mem_map] at hu
        obtain ⟨iat, _, rfl⟩ := hu
        rfl
  rw [mapE_eq_map _ _ _ hdirs]
  simp only
  unfold gdmr_closed
  apply stack_eq
  · exact range_map_ne_nil nat _ hnat
  · intro u hu
    rw [List.mem_map] at hu
    obtain ⟨ibt, _, rfl⟩ := hu
    simp [stacked]

theorem einsum_eq (A B : Tensor K) (b x a v m n : Nat) (hA : A.shape = [b, x, a, m, n])
    (hB : B.shape = [a, v, m, n]) :
    einsum_bxamn_avmn A B = .ok (contracted A B b x a v m n) := by
  unfold einsum_bxamn_avmn
  rw [hA, hB]
  simp [bdim, contracted]

theorem cat_last_eq (ts : List (Tensor K)) (lead : List Nat) (hne : ts ≠ [])
    (hsh : ∀ u ∈ ts, ∃ d, u.shape = lead ++ [d]) : cat_last ts = .ok (catted ts lead) := by
  cases ts with
  | nil => exact absurd rfl hne
  | cons t rest =>
    obtain ⟨d, ht⟩ := hsh t (by simp)
    have hall : rest.all (fun u => decide (u.shape ≠ [] ∧ u.shape.dropLast = t.shape.dropLast))
        = true := by
      rw [List.all_eq_true]
      intro u hu
      obtain ⟨d', hu'⟩ := hsh u (by simp [hu])
      simp [ht, hu']
    have hne' : t.shape ≠ [] := by simp [ht]
    simp only [cat_last, hne', hall, if_true, if_false, catted]
    simp [ht]

theorem zero_stacked (ts : List (Tensor K)) (sh : List Nat) (h : ∀ u ∈ ts, ZeroT u) :
    ZeroT (stacked ts sh) := by
  intro idx
  unfold stacked
  match idx with
  | [] => rfl
  | i :: r =>
    simp only
    cases hget : ts[i]? with
    | none => rfl
    | some u => exact h u (List.getElem?_mem hget) r

theorem zero_mat_of_vector (v : List K) (nm : Nat) (h : ∀ a ∈ v, a = 0) :
    ZeroT (mat_of_vector v nm) := by
  intro idx
  simp only [mat_of_vector, Tensor.of_vector]
  split
  · rename_i i _
    by_cases hi : i < v.length
    · simp [List.getD_eq_getElem?_getD, List.getElem?_eq_getElem hi, h _ (List.getElem_mem hi)]
    · simp [List.getD_eq_getElem?_getD, List.getElem?_eq_none (not_lt.mp hi)]
  · rfl

theorem zero_contracted (A B : Tensor K) (b x a v m n : Nat) (hA : ZeroT A) :
    ZeroT (contracted A B b x a v m n) := by
  intro idx
  unfold contracted
  match idx with
  | [] => rfl
  | [_] => rfl
  | [_, _] => rfl
  | [_, _, _] => rfl
  | [ib, ix, ia, iv] => simp [hA _]
  | _ :: _ :: _ :: _ :: _ :: _ => rfl

theorem zero_cat_last_entry (ts : List (Tensor K)) (h : ∀ u ∈ ts, ZeroT u) (lead : List Nat)
    (j : Nat) : cat_last_entry ts lead j = 0 := by
  induction ts generalizing j with
  | nil => rfl
  | cons t ts ih =>
    unfold cat_last_entry
    split
    · exact h t (by simp) _
    · exact ih (fun u hu => h u (by simp [hu])) _

theorem zero_catted (ts : List (Tensor K)) (lead : List Nat) (h : ∀ u ∈ ts, ZeroT u) :
    ZeroT (catted ts lead) := by
  intro idx
  exact zero_cat_last_entry ts h _ _

theorem zero_gdmr_closed (s : LCAO_Deepks K) (nat nl : Nat)
    (hx : ∀ a b c, s.gdmx a b c = 0) (hy : ∀ a b c, s.gdmy a b c = 0)
    (hz : ∀ a b c, s.gdmz a b c = 0) : ZeroT (gdmr_closed s nat nl) := by
  unfold gdmr_closed
  apply zero_stacked
  intro u hu
  rw [List.mem_map] at hu
  obtain ⟨ibt, _, rfl⟩ := hu
  apply zero_stacked
  intro u hu
  rw [List.mem_map] at hu
  obtain ⟨i, hi, rfl⟩ := hu
  rw [List.mem_range] at hi
  apply zero_stacked
  intro u hu
  rw [List.mem_map] at hu
  obtain ⟨iat, _, rfl⟩ := hu
  apply zero_mat_of_vector
  intro a ha
  rw [gdm_mmv_eq _ _ _ _ _ hi, List.mem_map] at ha
  obtain ⟨p, _, rfl⟩ := ha
  unfold gdm_dir
  split
  · exact hx _ _ _
  · split
    · exact hy _ _ _
    · exact hz _ _ _

theorem gvx_closed_shape (solver : EighSolver K) (s : LCAO_Deepks K) (nat : Nat) :
    (gvx_closed solver s nat).shape = [nat, 3, nat, shell_total s (s.inlmax / nat)] := by
  simp [gvx_closed, catted, shell_total, gvx_shell, contracted, Function.comp_def]

theorem gvx_build_eq (solver : EighSolver K) (s : LCAO_Deepks K) (nat : Nat)
    (hnl : 1 ≤ s.inlmax / nat) :
    gvx_build (s.inlmax / nat)
        ((List.range (s.inlmax / nat)).map (gdmr_closed s nat))
        ((List.range (s.inlmax / nat)).map (gevdm_shell solver s nat))
      = .ok (gvx_closed solver s nat) := by
  unfold gvx_build
  rw [mapE_eq_map _ (gvx_shell solver s nat)]
  · simp only
    rw [cat_last_eq _ [nat, 3, nat] (range_map_ne_nil _ _ hnl)]
    · rfl
    · intro u hu
      rw [List.mem_map] at hu
      obtain ⟨nl, _, rfl⟩ := hu
      exact ⟨2 * s.inl_l nl + 1, rfl⟩
  · intro nl hnl'
    rw [List.mem_range] at hnl'
    simp only [List.getElem?_map, List.getElem?_range hnl', Option.map_some']
    exact einsum_eq _ _ _ _ _ _ _ _ (by simp [gdmr_closed, stacked])
      (by simp [gevdm_shell, stacked])

theorem gvx_contract_eq (solver : EighSolver K) (s : LCAO_Deepks K) (nat : Nat)
    (hnl : 1 ≤ s.inlmax / nat) (hdes : s.des_per_atom = shell_total s (s.inlmax / nat)) :
    gvx_contract nat (s.inlmax / nat) s.des_per_atom
        ((List.range (s.inlmax / nat)).map (gdmr_closed s nat))
        ((List.range (s.inlmax / nat)).map (gevdm_shell solver s nat))
      = .ok (gvx_closed solver s nat) := by
  unfold gvx_contract
  rw [gvx_build_eq solver s nat hnl]
  simp [gvx_closed_shape, hdes]

theorem cal_gvx_eq (solver : EighSolver K) (nat : Nat) (s : LCAO_Deepks K) (hnat : 1 ≤ nat)
    (hnl : 1 ≤ s.inlmax / nat) (hret : RetainedShapes s) (huni : UniformShells s nat)
    (hdes : s.des_per_atom = shell_total s (s.inlmax / nat)) :
    cal_gvx solver 0 nat s
      = .ok { s with
          gevdm_vector := (List.range (s.inlmax / nat)).map (gevdm_shell solver s nat)
          gdmr_vector := (List.range (s.inlmax / nat)).map (gdmr_closed s nat)
          gvx_tensor := gvx_closed solver s nat } := by
  unfold cal_gvx
  rw [cal_gvdm_eq solver nat s hnat hret huni]
  simp only [erase_all_eq, if_true, List.nil_append]
  rw [mapE_eq_map _ (gdmr_closed s nat)]
  · simp only [List.length_map, List.length_range, ne_eq, not_true_eq_false, if_false]
    have h := gvx_contract_eq solver s nat hnl hdes
    simp only [gdmr_closed, gevdm_shell, gvx_closed, gvx_shell, block_at] at h ⊢
    rw [h]
  · intro nl hnl'
    rw [List.mem_range] at hnl'
    exact gdmr_shell_eq _ nat nl hnat hnl' huni

theorem retained_shapes_descriptor (solver : EighSolver K) (s : LCAO_Deepks K) :
    RetainedShapes { s with pdm_tensor := retained_blocks s, d_tensor := descriptors solver s } := by
  intro inl hinl
  refine ⟨block_of (2 * s.inl_l inl + 1) (s.pdm inl), ?_, rfl⟩
  simp only [retained_blocks] at hinl ⊢
  simp [List.getElem?_range, hinl]

theorem layout_div (inlmax nat nlmax : Nat) (hnat : 1 ≤ nat) (hlay : inlmax = nat * nlmax) :
    inlmax / nat = nlmax := by
  rw [hlay]
  exact Nat.mul_div_cancel_left nlmax (by omega)

theorem mapE_inv {α β : Type} (f : α → Except String β) (l : List α) (bs : List β)
    (h : mapE f l = .ok bs) :
    bs.length = l.length ∧
      ∀ (i : Nat) (a : α), l[i]? = some a → ∃ b, bs[i]? = some b ∧ f a = .ok b := by
  induction l generalizing bs with
  | nil =>
    simp only [mapE, Except.ok.injEq] at h
    subst h
    simp
  | cons a l ih =>
    unfold mapE at h
    cases hfa : f a with
    | error e => simp [hfa] at h
    | ok b =>
      cases hml : mapE f l with
      | error e => simp [hfa, hml] at h
      | ok bs' =>
        simp only [hfa, hml, Except.ok.injEq] at h
        subst h
        obtain ⟨hlen, hget⟩ := ih bs' hml
        refine ⟨by simp [hlen], ?_⟩
        intro i a' hi
        cases i with
        | zero =>
          simp only [List.getElem?_cons_zero, Option.some.injEq] at hi
          subst hi
          exact ⟨b, by simp, hfa⟩
        | succ i =>
          simp only [List.getElem?_cons_succ] at hi ⊢
          exact hget i a' hi

theorem stack_inv (ts : List (Tensor K)) (T : Tensor K) (h : stack ts = .ok T) :
    ∃ sh, (∀ u ∈ ts, u.shape = sh) ∧ T = stacked ts sh := by
  cases ts with
  | nil => simp [stack] at h
  | cons t rest =>
    unfold stack at h
    by_cases hall : rest.all (fun u => decide (u.shape = t.shape)) = true
    · simp only [hall, if_true, Except.ok.injEq] at h
      refine ⟨t.shape, ?_, h.symm⟩
      intro u hu
      rw [List.all_eq_true] at hall
      rcases List.mem_cons.mp hu with rfl | hu'
      · rfl
      · simpa using hall u hu'
    · simp [hall] at h

theorem upper_sym_repeat (blk : Tensor K) (nm v : Nat) (h : blk.shape = [nm, nm]) :
    upper_sym ((blk.unsqueeze0).repeat [nm, 1, 1]) [v] nm = upper_sym blk [] nm := by
  funext i j
  have hi := i.isLt
  have hj := j.isLt
  have h1 : min i.val j.val < nm := by omega
  have h2 : max i.val j.val < nm := by omega
  simp [upper_sym, Tensor.repeat, Tensor.unsqueeze0, h, Nat.mod_eq_of_lt h1, Nat.mod_eq_of_lt h2]

theorem jac_entry (solver : EighSolver K) (blk : Tensor K) (nm v m n : Nat)
    (h : blk.shape = [nm, nm]) (hv : v < nm) (hm : m < nm) (hn : n < nm) :
    (jac_of solver blk nm).entry [v, m, n]
      = solver.eigenvectors nm (upper_sym blk [] nm) ⟨m, hm⟩ ⟨v, hv⟩
        * solver.eigenvectors nm (upper_sym blk [] nm) ⟨n, hn⟩ ⟨v, hv⟩ := by
  simp only [jac_of, eigh_backward, eigh_vecs, Tensor.eye]
  rw [Finset.sum_eq_single v]
  · simp [hv, hm, hn, upper_sym_repeat blk nm v h]
  · intro k _ hk
    simp [Ne.symm hk]
  · intro hv'
    exact absurd (Finset.mem_range.mpr hv) hv'

theorem isEigh_one (solver : EighSolver K) (S : Matrix (Fin 1) (Fin 1) K)
    (h : IsEigh solver 1 S) :
    solver.eigenvectors 1 S 0 0 * solver.eigenvectors 1 S 0 0 = 1 := by
  have h1 := congrFun (congrFun h.1 0) 0
  simpa [Matrix.mul_apply] using h1

theorem upper_sym_block_one (src : Nat → K) :
    upper_sym (block_of 1 src) [] 1 = fun _ _ => src 0 := by
  funext i j
  have hi : i.val = 0 := by omega
  have hj : j.val = 0 := by omega
  simp [upper_sym, block_of, hi, hj]

theorem cat0_eq (ts : List (Tensor K)) (tl : List Nat) (hne : ts ≠ [])
    (hsh : ∀ u ∈ ts, ∃ d, u.shape = d :: tl) : cat0 ts = .ok (catted0 ts tl) := by
  cases ts with
  | nil => exact absurd rfl hne
  | cons t rest =>
    obtain ⟨d, ht⟩ := hsh t (by simp)
    have hall : rest.all (fun u => decide (u.shape ≠ [] ∧ u.shape.tail = t.shape.tail))
        = true := by
      rw [List.all_eq_true]
      intro u hu
      obtain ⟨d', hu'⟩ := hsh u (by simp [hu])
      simp [ht, hu']
    have hne' : t.shape ≠ [] := by simp [ht]
    simp only [cat0, hne', hall, if_true, if_false, catted0]
    simp [ht]

theorem gedm_cat_eq (s : LCAO_Deepks K) (hne : s.d_tensor ≠ []) (hvec : VectorDescriptors s) :
    gedm_cat s = .ok (catted0 (s.d_tensor.map (fun d => d.value)) []) := by
  unfold gedm_cat
  apply cat0_eq
  · simpa using hne
  · intro u hu
    rw [List.mem_map] at hu
    obtain ⟨t, ht, rfl⟩ := hu
    exact hvec t ht

theorem catted0_shape (d : List (Tracked K)) :
    (catted0 (d.map (fun t => t.value)) []).shape = [d_total d] := by
  simp [catted0, d_total, Function.comp_def]

theorem reshape_input_eq (nat : Nat) (s : LCAO_Deepks K)
    (htot : d_total s.d_tensor = nat * s.des_per_atom) :
    (catted0 (s.d_tensor.map (fun d => d.value)) []).reshape [nat, s.des_per_atom]
      = .ok (input_of nat s) := by
  unfold Tensor.reshape
  rw [catted0_shape]
  simp [htot, input_of]

theorem gedm_input_eq (nat : Nat) (s : LCAO_Deepks K) (hne : s.d_tensor ≠ [])
    (hvec : VectorDescriptors s) (htot : d_total s.d_tensor = nat * s.des_per_atom) :
    gedm_input nat s = .ok (input_of nat s) := by
  unfold gedm_input
  rw [gedm_cat_eq s hne hvec]
  exact reshape_input_eq nat s htot

theorem cat0_entry_concat (d : List (Tracked K)) (p : Nat) :
    cat0_entry (d.map (fun t => t.value)) p [] = (concat_values d).getD p 0 := by
  induction d generalizing p with
  | nil => simp [cat0_entry, concat_values]
  | cons t ts ih =>
    simp only [List.map_cons, cat0_entry, concat_values]
    have hlen : (vector_values t.value).length = t.value.shape.headD 0 := by
      simp [vector_values]
    by_cases hp : p < t.value.shape.headD 0
    · simp only [hp, if_true]
      rw [List.getD_eq_getElem?_getD, List.getElem?_append_left (by omega)]
      simp only [vector_values, List.getElem?_map]
      rw [List.getElem?_range hp]
      rfl
    · simp only [hp, if_false]
      rw [ih, List.getD_eq_getElem?_getD, List.getD_eq_getElem?_getD,
        List.getElem?_append_right (by omega), hlen]

theorem input_of_entry (nat : Nat) (s : LCAO_Deepks K) (iat j : Nat) :
    (input_of nat s).entry [iat, j] = (concat_values s.d_tensor).getD (iat * s.des_per_atom + j) 0 := by
  simp [input_of, catted0, ravel, unravel, cat0_entry_concat]

theorem foldlM_pure {σ α : Type} (f : σ → α → Except String σ) (g : σ → α → σ) (l : List α)
    (st : σ) (h : ∀ st a, a ∈ l → f st a = .ok (g st a)) :
    l.foldlM f st = .ok (l.foldl g st) := by
  induction l generalizing st with
  | nil => rfl
  | cons a l ih =>
    simp only [List.foldlM_cons, List.foldl_cons, bind, Except.bind, h st a (by simp)]
    exact ih _ (fun st b hb => h st b (by simp [hb]))

theorem divmod_row (nm m1 j : Nat) (h1 : m1 * nm ≤ j) (h2 : j < m1 * nm + nm) :
    j / nm = m1 ∧ j % nm = j - m1 * nm := by
  have hdiv : j / nm = m1 := by
    apply Nat.div_eq_of_lt_le h1
    rw [Nat.succ_mul]
    exact h2
  refine ⟨hdiv, ?_⟩
  have := Nat.mod_add_div j nm
  rw [hdiv, Nat.mul_comm] at this
  omega

theorem store_row_eq (G : Tensor K) (inl nm m1 c : Nat) (gedm : Nat → Nat → K) :
    (List.range c).foldl (fun (gedm : Nat → Nat → K) m2 =>
        fun i j => if i = inl ∧ j = m1 * nm + m2 then G.entry [m1, m2] * 2 else gedm i j) gedm
      = fun i j => if i = inl ∧ m1 * nm ≤ j ∧ j < m1 * nm + c
          then G.entry [m1, j - m1 * nm] * 2 else gedm i j := by
  induction c with
  | zero =>
    funext i j
    have : ¬ (i = inl ∧ m1 * nm ≤ j ∧ j < m1 * nm + 0) := by omega
    simp only [List.range_zero, List.foldl_nil]
    rw [if_neg this]
  | succ c ih =>
    rw [List.range_succ, List.foldl_append, ih]
    funext i j
    simp only [List.foldl_cons, List.foldl_nil]
    by_cases h1 : i = inl ∧ j = m1 * nm + c
    · obtain ⟨hi, hj⟩ := h1
      have : i = inl ∧ m1 * nm ≤ j ∧ j < m1 * nm + (c + 1) := ⟨hi, by omega, by omega⟩
      have hc : j - m1 * nm = c := by omega
      simp [hi, hj]
    · by_cases h2 : i = inl ∧ m1 * nm ≤ j ∧ j < m1 * nm + c
      · have : i = inl ∧ m1 * nm ≤ j ∧ j < m1 * nm + (c + 1) := ⟨h2.1, h2.2.1, by omega⟩
        rw [if_neg h1, if_pos h2, if_pos this]
      · have : ¬ (i = inl ∧ m1 * nm ≤ j ∧ j < m1 * nm + (c + 1)) := by
          intro h3
          by_cases hj : j = m1 * nm + c
          · exact h1 ⟨h3.1, hj⟩
          · exact h2 ⟨h3.1, h3.2.1, by omega⟩
        rw [if_neg h1, if_neg h2, if_neg this]

theorem store_block_eq (G : Tensor K) (inl nm r : Nat) (gedm : Nat → Nat → K) :
    (List.range r).foldl (fun (gedm : Nat → Nat → K) m1 =>
        (List.range nm).foldl (fun (gedm : Nat → Nat → K) m2 =>
          fun i j => if i = inl ∧ j = m1 * nm + m2 then G.entry [m1, m2] * 2 else gedm i j) gedm)
        gedm
      = fun i j => if i = inl ∧ j < r * nm
          then G.entry [j / nm, j % nm] * 2 else gedm i j := by
  induction r with
  | zero =>
    funext i j
    have : ¬ (i = inl ∧ j < 0 * nm) := by omega
    simp only [List.range_zero, List.foldl_nil]
    rw [if_neg this]
  | succ r ih =>
    rw [List.range_succ, List.foldl_append, ih]
    simp only [List.foldl_cons, List.foldl_nil]
    rw [store_row_eq]
    funext i j
    have hs : (r + 1) * nm = r * nm + nm := Nat.succ_mul r nm
    by_cases h1 : i = inl ∧ r * nm ≤ j ∧ j < r * nm + nm
    · have h2 : i = inl ∧ j < (r + 1) * nm := ⟨h1.1, by omega⟩
      obtain ⟨hd, hm⟩ := divmod_row nm r j h1.2.1 h1.2.2
      rw [if_pos h1, if_pos h2, hd, hm]
    · by_cases h2 : i = inl ∧ j < r * nm
      · have h3 : i = inl ∧ j < (r + 1) * nm := ⟨h2.1, by omega⟩
        rw [if_neg h1, if_pos h2, if_pos h3]
      · have h3 : ¬ (i = inl ∧ j < (r + 1) * nm) := by
          intro h4
          by_cases hj : j < r * nm
          · exact h2 ⟨h4.1, hj⟩
          · exact h1 ⟨h4.1, by omega, by omega⟩
        rw [if_neg h1, if_neg h2, if_neg h3]

theorem store_all_eq (G : Nat → Tensor K) (nm : Nat → Nat) (q : Nat) (gedm : Nat → Nat → K) :
    (List.range q).foldl (fun (gedm : Nat → Nat → K) inl =>
        (List.range (nm inl)).foldl (fun (gedm : Nat → Nat → K) m1 =>
          (List.range (nm inl)).foldl (fun (gedm : Nat → Nat → K) m2 =>
            fun i j => if i = inl ∧ j = m1 * nm inl + m2
              then (G inl).entry [m1, m2] * 2 else gedm i j) gedm) gedm) gedm
      = fun i j => if i < q ∧ j < nm i * nm i
          then (G i).entry [j / nm i, j % nm i] * 2 else gedm i j := by
  induction q with
  | zero =>
    funext i j
    simp
  | succ q ih =>
    rw [List.range_succ, List.foldl_append, ih]
    simp only [List.foldl_cons, List.foldl_nil]
    rw [store_block_eq]
    funext i j
    by_cases h1 : i = q ∧ j < nm q * nm q
    · obtain ⟨hi, hj⟩ := h1
      subst hi
      have h2 : i < i + 1 ∧ j < nm i * nm i := ⟨by omega, hj⟩
      simp [hj]
    · by_cases h2 : i < q ∧ j < nm i * nm i
      · have h3 : i < q + 1 ∧ j < nm i * nm i := ⟨by omega, h2.2⟩
        rw [if_neg h1, if_pos h2, if_pos h3]
      · have h3 : ¬ (i < q + 1 ∧ j < nm i * nm i) := by
          intro h4
          by_cases hi : i = q
          · subst hi
            exact h1 ⟨rfl, h4.2⟩
          · exact h2 ⟨by omega, h4.2⟩
        rw [if_neg h1, if_neg h2, if_neg h3]

theorem gedm_store_eq (s : LCAO_Deepks K) (gt : List (Option (Tensor K))) (G : Nat → Tensor K)
    (h : ∀ inl, inl < s.inlmax → gt[inl]? = some (some (G inl)) ∧
      (G inl).shape = [2 * s.inl_l inl + 1, 2 * s.inl_l inl + 1]) :
    gedm_store s gt = .ok (gedm_closed s G) := by
  unfold gedm_store gedm_closed
  rw [foldlM_pure _ (fun (gedm : Nat → Nat → K) inl =>
        (List.range (2 * s.inl_l inl + 1)).foldl (fun (gedm : Nat → Nat → K) m1 =>
          (List.range (2 * s.inl_l inl + 1)).foldl (fun (gedm : Nat → Nat → K) m2 =>
            fun i j => if i = inl ∧ j = m1 * (2 * s.inl_l inl + 1) + m2
              then (G inl).entry [m1, m2] * 2 else gedm i j) gedm) gedm)]
  · rw [store_all_eq G (fun inl => 2 * s.inl_l inl + 1)]
  · intro gedm inl hinl
    rw [List.mem_range] at hinl
    obtain ⟨hG, hshape⟩ := h inl hinl
    apply foldlM_pure
    intro gedm m1 hm1
    rw [List.mem_range] at hm1
    apply foldlM_pure
    intro gedm m2 hm2
    rw [List.mem_range] at hm2
    simp [hG, index_item, hshape, hm1, hm2]

theorem gedm_closed_entry (s : LCAO_Deepks K) (G : Nat → Tensor K) (inl m1 m2 : Nat)
    (hinl : inl < s.inlmax) (h1 : m1 < 2 * s.inl_l inl + 1) (h2 : m2 < 2 * s.inl_l inl + 1) :
    gedm_closed s G inl (m1 * (2 * s.inl_l inl + 1) + m2) = (G inl).entry [m1, m2] * 2 := by
  unfold gedm_closed
  generalize 2 * s.inl_l inl + 1 = nm at h1 h2
  have hlt : m1 * nm + m2 < nm * nm := by
    have : (m1 + 1) * nm ≤ nm * nm := Nat.mul_le_mul_right nm h1
    rw [Nat.succ_mul] at this
    omega
  obtain ⟨hd, hm⟩ := divmod_row nm m1 (m1 * nm + m2) (by omega) (by omega)
  rw [if_pos ⟨hinl, hlt⟩, hd, hm, Nat.add_sub_cancel_left]

theorem cal_gedm_backward_spec (md : Module K) (cshape : List Nat) (x : Tensor K)
    (s : LCAO_Deepks K) (G : Nat → Tensor K)
    (h : ∀ inl, inl < s.inlmax →
      (autograd_grad_pdm md s.pdm_tensor s.d_tensor cshape x)[inl]? = some (some (G inl)) ∧
      (G inl).shape = [2 * s.inl_l inl + 1, 2 * s.inl_l inl + 1]) :
    ∃ t', cal_gedm_backward md cshape x s = .ok t' ∧ t'.E_delta = s.E_delta ∧
      t'.gedm_tensor = autograd_grad_pdm md s.pdm_tensor s.d_tensor cshape x ∧
      t'.gedm = gedm_closed s G := by
  unfold cal_gedm_backward
  simp only
  rw [gedm_store_eq s _ G h]
  exact ⟨_, rfl, rfl, rfl, rfl⟩

theorem cal_gedm_spec (nat : Nat) (s : LCAO_Deepks K) (md : Module K) (G : Nat → Tensor K)
    (hne : s.d_tensor ≠ []) (hvec : VectorDescriptors s)
    (htot : d_total s.d_tensor = nat * s.des_per_atom) (hmod : s.module = some md)
    (h : ∀ inl, inl < s.inlmax →
      (autograd_grad_pdm md s.pdm_tensor s.d_tensor [d_total s.d_tensor] (input_of nat s))[inl]?
        = some (some (G inl)) ∧
      (G inl).shape = [2 * s.inl_l inl + 1, 2 * s.inl_l inl + 1]) :
    ∃ t', cal_gedm nat s = .ok t' ∧ t'.E_delta = md.forward (input_of nat s) * 2 ∧
      t'.gedm_tensor
        = autograd_grad_pdm md s.pdm_tensor s.d_tensor [d_total s.d_tensor] (input_of nat s) ∧
      t'.gedm = gedm_closed s G := by
  obtain ⟨inlmax, inl_l, des, pdm, gx, gy, gz, pt, dt, gv, gr, gvx, mo, ed, gt, ge, op⟩ := s
  simp only at hmod
  subst hmod
  obtain ⟨t', h1, h2, h3, h4⟩ := cal_gedm_backward_spec md [d_total dt]
    (input_of nat ⟨inlmax, inl_l, des, pdm, gx, gy, gz, pt, dt, gv, gr, gvx, some md, ed, gt, ge, op⟩)
    ⟨inlmax, inl_l, des, pdm, gx, gy, gz, pt, dt, gv, gr, gvx, some md,
      md.forward (input_of nat
        ⟨inlmax, inl_l, des, pdm, gx, gy, gz, pt, dt, gv, gr, gvx, some md, ed, gt, ge, op⟩) * 2,
      gt, ge, op⟩ G h
  refine ⟨t', ?_, h2, h3, h4⟩
  unfold cal_gedm
  rw [gedm_cat_eq _ hne hvec]
  simp only
  rw [reshape_input_eq nat _ htot, catted0_shape]
  exact h1

theorem cal_descriptor_state (solver : EighSolver K) (s : LCAO_Deepks K) :
    cal_descriptor solver s = .ok (descriptor_state solver s) :=
  cal_descriptor_eq solver s

theorem descriptor_state_of (solver : EighSolver K) (s t : LCAO_Deepks K)
    (h : cal_descriptor solver s = .ok t) : t = descriptor_state solver s := by
  rw [cal_descriptor_state] at h
  exact (Except.ok.inj h).symm

theorem descriptors_ne_nil (solver : EighSolver K) (s : LCAO_Deepks K) (h : 1 ≤ s.inlmax) :
    descriptors solver s ≠ [] :=
  range_map_ne_nil _ _ h

theorem descriptors_vector (solver : EighSolver K) (s : LCAO_Deepks K) :
    VectorDescriptors (descriptor_state solver s) := by
  intro t ht
  simp only [descriptor_state, descriptors, List.mem_map] at ht
  obtain ⟨inl, _, rfl⟩ := ht
  exact ⟨2 * s.inl_l inl + 1, rfl⟩

theorem descriptors_total (solver : EighSolver K) (s : LCAO_Deepks K) :
    d_total (descriptors solver s)
      = ((List.range s.inlmax).map (fun inl => 2 * s.inl_l inl + 1)).sum := by
  simp [d_total, descriptors, descriptor_of, eigh_vals, Function.comp_def]

theorem autograd_grad_pdm_eq (solver : EighSolver K) (s : LCAO_Deepks K) (md : Module K)
    (nat : Nat) (g : List Nat → K) (x : Tensor K) (hx : x.shape = [nat, s.des_per_atom])
    (hgrad : md.grad_input x = some g) (inl : Nat) (hinl : inl < s.inlmax) :
    (autograd_grad_pdm md (retained_blocks s) (descriptors solver s)
        [d_total (descriptors solver s)] x)[inl]?
      = some (some (grad_block solver s nat g inl)) := by
  unfold autograd_grad_pdm
  simp only [retained_blocks, List.length_map, List.length_range,
    List.getElem?_map, List.getElem?_range hinl, Option.map_some', hgrad]
  simp only [descriptors, List.getElem?_map, List.getElem?_range hinl, Option.map_some',
    descriptor_of, grad_block, hx]

theorem cal_gedm_descriptor_eq (solver : EighSolver K) (s : LCAO_Deepks K) (md : Module K)
    (nat : Nat) (g : List Nat → K) (hne : 1 ≤ s.inlmax)
    (htot : ((List.range s.inlmax).map (fun inl => 2 * s.inl_l inl + 1)).sum
      = nat * s.des_per_atom)
    (hmod : s.module = some md)
    (hgrad : md.grad_input (input_of nat (descriptor_state solver s)) = some g) :
    ∃ t', cal_gedm nat (descriptor_state solver s) = .ok t' ∧
      t'.E_delta = md.forward (input_of nat (descriptor_state solver s)) * 2 ∧
      (∀ inl, inl < s.inlmax →
        t'.gedm_tensor[inl]? = some (some (grad_block solver s nat g inl))) ∧
      t'.gedm = gedm_closed s (grad_block solver s nat g) := by
  have hget : ∀ inl, inl < s.inlmax →
      (autograd_grad_pdm md (descriptor_state solver s).pdm_tensor
        (descriptor_state solver s).d_tensor [d_total (descriptor_state solver s).d_tensor]
        (input_of nat (descriptor_state solver s)))[inl]?
        = some (some (grad_block solver s nat g inl)) :=
    fun inl hinl => autograd_grad_pdm_eq solver s md nat g _ rfl hgrad inl hinl
  obtain ⟨t', h1, h2, h3, h4⟩ := cal_gedm_spec nat (descriptor_state solver s) md
    (grad_block solver s nat g) (descriptors_ne_nil solver s hne) (descriptors_vector solver s)
    (by
      show d_total (descriptors solver s) = nat * s.des_per_atom
      rw [descriptors_total, htot])
    hmod
    (fun inl hinl => ⟨hget inl hinl, by simp [grad_block, eigh_backward, eigh_vecs, descriptor_state]⟩)
  refine ⟨t', h1, h2, ?_, h4⟩
  intro inl hinl
  rw [h3]
  exact hget inl hinl

theorem d_offset_descriptors (solver : EighSolver K) (s : LCAO_Deepks K) (inl : Nat)
    (hinl : inl ≤ s.inlmax) : d_offset (descriptors solver s) inl = slot_offset s inl := by
  simp only [d_offset, descriptors, slot_offset, ← List.map_take, List.take_range,
    Nat.min_eq_left hinl, List.map_map]
  rfl

theorem grad_block_entry (solver : EighSolver K) (s : LCAO_Deepks K) (nat : Nat)
    (g : List Nat → K) (inl m1 m2 : Nat) (hinl : inl < s.inlmax)
    (h1 : m1 < 2 * s.inl_l inl + 1) (h2 : m2 < 2 * s.inl_l inl + 1) :
    (grad_block solver s nat g inl).entry [m1, m2]
      = (Finset.range (2 * s.inl_l inl + 1)).sum (fun k =>
          g (model_slot s inl k)
            * (jac_of solver (block_of (2 * s.inl_l inl + 1) (s.pdm inl))
                (2 * s.inl_l inl + 1)).entry [k, m1, m2]) := by
  have hd : (descriptors solver s)[inl]? = some (descriptor_of solver s inl) := by
    simp [descriptors, List.getElem?_range hinl]
  simp only [grad_block, eigh_backward, eigh_vecs, d_cotangent, hd]
  apply Finset.sum_congr rfl
  intro k hk
  rw [Finset.mem_range] at hk
  rw [jac_entry solver _ _ k m1 m2 rfl hk h1 h2, d_offset_descriptors solver s inl (by omega)]
  simp [h1, h2, hk, model_slot, ravel, unravel]
  ring

theorem reshape_vector_inv (t x : Tensor K) (a b c : Nat) (ht : t.shape = [a])
    (h : t.reshape [b, c] = .ok x) : a = b * c := by
  unfold Tensor.reshape at h
  rw [ht] at h
  by_cases hp : a = b * c
  · exact hp
  · simp [hp] at h

theorem cat0_ne_nil (ts : List (Tensor K)) (c : Tensor K) (h : cat0 ts = .ok c) : ts ≠ [] := by
  intro hnil
  subst hnil
  simp [cat0] at h

/-- What `cal_gvdm` stores for atom `iat` in shell `nl` when it returns on a
state produced by `cal_descriptor`. -/
theorem cal_gvdm_inv (solver : EighSolver K) (nat iat nl : Nat) (s t' : LCAO_Deepks K)
    (hiat : iat < nat) (hnl : nl < s.inlmax / nat)
    (hgvdm : cal_gvdm solver nat (descriptor_state solver s) = .ok t') :
    ∃ J, t'.gevdm_vector[nl]? = some J ∧
      J.shape = [nat, 2 * s.inl_l (iat * (s.inlmax / nat) + nl) + 1,
        2 * s.inl_l (iat * (s.inlmax / nat) + nl) + 1,
        2 * s.inl_l (iat * (s.inlmax / nat) + nl) + 1] ∧
      ∀ r, J.entry (iat :: r)
        = (jac_of solver (block_of (2 * s.inl_l (iat * (s.inlmax / nat) + nl) + 1)
              (s.pdm (iat * (s.inlmax / nat) + nl)))
            (2 * s.inl_l (iat * (s.inlmax / nat) + nl) + 1)).entry r := by
  have hret := retained_shapes_descriptor solver s
  unfold cal_gvdm at hgvdm
  have hn0 : nat ≠ 0 := by omega
  simp only [hn0, if_false] at hgvdm
  split at hgvdm
  · simp at hgvdm
  · rename_i gevdm hmap
    split at hgvdm
    · simp only [Except.ok.injEq] at hgvdm
      subst hgvdm
      obtain ⟨_, hget⟩ := mapE_inv _ _ _ hmap
      obtain ⟨J, hJ, hshell⟩ := hget nl nl (List.getElem?_range hnl)
      refine ⟨J, hJ, ?_⟩
      have hatoms := mapE_eq_map (gvdm_atom solver (descriptor_state solver s)
          (s.inlmax / nat) nl)
        (fun ia => jac_of solver (block_of (2 * s.inl_l (ia * (s.inlmax / nat) + nl) + 1)
            (s.pdm (ia * (s.inlmax / nat) + nl)))
          (2 * s.inl_l (ia * (s.inlmax / nat) + nl) + 1)) (List.range nat)
        (by
          intro ia hia
          rw [List.mem_range] at hia
          obtain ⟨blk, hb, hshape⟩ := hret _ (inl_lt s.inlmax nat ia nl hia hnl)
          have hb2 : (descriptor_state solver s).pdm_tensor[ia * (s.inlmax / nat) + nl]?
              = some blk := hb
          rw [gvdm_atom_eq solver _ _ nl ia blk hb2 hshape]
          have hb' : blk = block_of (2 * s.inl_l (ia * (s.inlmax / nat) + nl) + 1)
              (s.pdm (ia * (s.inlmax / nat) + nl)) := by
            have hlt := inl_lt s.inlmax nat ia nl hia hnl
            simp only [retained_blocks] at hb
            simp [List.getElem?_range, hlt] at hb
            exact hb.symm
          rw [hb']
          rfl)
      have hshell' : (match mapE (gvdm_atom solver (descriptor_state solver s)
          (s.inlmax / nat) nl) (List.range nat) with
        | .error e => Except.error e
        | .ok avmmv => stack avmmv) = .ok J := hshell
      rw [hatoms] at hshell'
      simp only at hshell'
      obtain ⟨sh, hsh, hJeq⟩ := stack_inv _ _ hshell'
      have hmem := hsh (jac_of solver (block_of (2 * s.inl_l (iat * (s.inlmax / nat) + nl) + 1)
            (s.pdm (iat * (s.inlmax / nat) + nl)))
          (2 * s.inl_l (iat * (s.inlmax / nat) + nl) + 1))
        (List.mem_map.mpr ⟨iat, List.mem_range.mpr hiat, rfl⟩)
      rw [jac_of_shape] at hmem
      subst hJeq
      subst hmem
      refine ⟨by simp [stacked], ?_⟩
      intro r
      simp only [stacked, List.getElem?_map, List.getElem?_range hiat, Option.map_some']
    · simp at hgvdm

theorem diag_solver_isEigh_one (S : Matrix (Fin 1) (Fin 1) K) : IsEigh (diag_solver K) 1 S := by
  constructor
  · simp [diag_solver]
  · ext i j
    have hi : i = 0 := Subsingleton.elim _ _
    have hj : j = 0 := Subsingleton.elim _ _
    subst hi hj
    simp [diag_solver]

theorem cal_gedm_total (solver : EighSolver K) (nat : Nat) (s tg : LCAO_Deepks K)
    (hne : 1 ≤ s.inlmax) (hgedm : cal_gedm nat (descriptor_state solver s) = .ok tg) :
    ((List.range s.inlmax).map (fun inl => 2 * s.inl_l inl + 1)).sum = nat * s.des_per_atom := by
  have hc := gedm_cat_eq (descriptor_state solver s) (descriptors_ne_nil solver s hne)
    (descriptors_vector solver s)
  unfold cal_gedm at hgedm
  rw [hc] at hgedm
  simp only at hgedm
  split at hgedm
  · simp at hgedm
  · rename_i x hx
    have h := reshape_vector_inv _ x _ nat s.des_per_atom (catted0_shape _) hx
    rw [← descriptors_total solver s]
    exact h

/-- The gradient tensor and the stored gradient of `cal_gedm` for the model
that sums all descriptor components, against the Jacobian of `cal_gvdm`. -/
theorem sum_model_gradient (solver : EighSolver K) (nat iat nl m n : Nat)
    (s tg tj : LCAO_Deepks K) (hiat : iat < nat) (hnl : nl < s.inlmax / nat)
    (hm : m < 2 * s.inl_l (iat * (s.inlmax / nat) + nl) + 1)
    (hn : n < 2 * s.inl_l (iat * (s.inlmax / nat) + nl) + 1)
    (hmod : s.module = some (sum_module K))
    (hgedm : cal_gedm nat (descriptor_state solver s) = .ok tg)
    (hgvdm : cal_gvdm solver nat (descriptor_state solver s) = .ok tj) :
    ∃ G J, tg.gedm_tensor[iat * (s.inlmax / nat) + nl]? = some (some G) ∧
      tj.gevdm_vector[nl]? = some J ∧
      G.entry [m, n] = (Finset.range (2 * s.inl_l (iat * (s.inlmax / nat) + nl) + 1)).sum
        (fun v => J.entry [iat, v, m, n]) ∧
      tg.gedm (iat * (s.inlmax / nat) + nl)
          (m * (2 * s.inl_l (iat * (s.inlmax / nat) + nl) + 1) + n)
        = 2 * (Finset.range (2 * s.inl_l (iat * (s.inlmax / nat) + nl) + 1)).sum
            (fun v => J.entry [iat, v, m, n]) := by
  have hinl := inl_lt s.inlmax nat iat nl hiat hnl
  have hne : 1 ≤ s.inlmax := by omega
  have htot := cal_gedm_total solver nat s tg hne hgedm
  obtain ⟨t', h1, _, h3, h4⟩ := cal_gedm_descriptor_eq solver s (sum_module K) nat
    (fun _ => 1) hne htot hmod rfl
  rw [hgedm] at h1
  simp only [Except.ok.injEq] at h1
  subst h1
  obtain ⟨J, hJ, _, hentry⟩ := cal_gvdm_inv solver nat iat nl s tj hiat hnl hgvdm
  have hG := grad_block_entry solver s nat (fun _ => 1) _ m n hinl hm hn
  simp only [one_mul] at hG
  refine ⟨_, J, h3 _ hinl, hJ, ?_, ?_⟩
  · rw [hG]
    apply Finset.sum_congr rfl
    intro v _
    rw [hentry]
  · rw [h4, gedm_closed_entry s _ _ m n hinl hm hn, hG, mul_comm]
    congr 1
    apply Finset.sum_congr rfl
    intro v _
    rw [hentry]

theorem concat_values_append (a b : List (Tracked K)) :
    concat_values (a ++ b) = concat_values a ++ concat_values b := by
  induction a with
  | nil => rfl
  | cons t ts ih => simp [concat_values, ih]

theorem concat_head_length (d : List (Tracked K)) (nlmax des n : Nat)
    (hseg : ∀ i, i < n → (concat_values ((d.drop (i * nlmax)).take nlmax)).length = des) :
    (concat_values (d.take (n * nlmax))).length = n * des := by
  induction n with
  | zero => simp [concat_values]
  | succ n ih =>
    rw [Nat.succ_mul, List.take_add, concat_values_append, List.length_append,
      ih (fun i hi => hseg i (by omega)), hseg n (by omega), Nat.succ_mul]

theorem input_row_eq (nat nlmax : Nat) (s : LCAO_Deepks K) (iat : Nat)
    (hseg : ∀ i, i < nat →
      (concat_values ((s.d_tensor.drop (i * nlmax)).take nlmax)).length = s.des_per_atom)
    (hiat : iat < nat) :
    input_row nat s iat = concat_values ((s.d_tensor.drop (iat * nlmax)).take nlmax) := by
  have hP := concat_head_length s.d_tensor nlmax s.des_per_atom iat
    (fun i hi => hseg i (by omega))
  have hS := hseg iat hiat
  have hsplit : concat_values s.d_tensor
      = concat_values (s.d_tensor.take (iat * nlmax))
        ++ (concat_values ((s.d_tensor.drop (iat * nlmax)).take nlmax)
          ++ concat_values ((s.d_tensor.drop (iat * nlmax)).drop nlmax)) := by
    rw [← concat_values_append, ← concat_values_append, List.take_append_drop,
      List.take_append_drop]
  apply List.ext_getElem
  · simp [input_row, hS]
  · intro j h1 h2
    have hj : j < s.des_per_atom := by simpa [input_row] using h1
    simp only [input_row, List.getElem_map, List.getElem_range, input_of_entry]
    rw [hsplit, List.getD_eq_getElem?_getD, List.getElem?_append_right (by omega), hP,
      Nat.add_sub_cancel_left, List.getElem?_append_left (by omega),
      List.getElem?_eq_getElem h2]
    rfl

theorem cal_gedm_forward_eq (nat : Nat) (s : LCAO_Deepks K) (md : Module K)
    (hne : s.d_tensor ≠ []) (hvec : VectorDescriptors s)
    (htot : d_total s.d_tensor = nat * s.des_per_atom) (hmod : s.module = some md) :
    cal_gedm_forward nat s = .ok { s with E_delta := md.forward (input_of nat s) * 2 } := by
  unfold cal_gedm_forward
  rw [gedm_input_eq nat s hne hvec htot]
  simp only [hmod]

theorem cal_gedm_energy (nat : Nat) (s t' : LCAO_Deepks K) (md : Module K)
    (hne : s.d_tensor ≠ []) (hvec : VectorDescriptors s)
    (htot : d_total s.d_tensor = nat * s.des_per_atom) (hmod : s.module = some md)
    (h : cal_gedm nat s = .ok t') : t'.E_delta = md.forward (input_of nat s) * 2 := by
  obtain ⟨inlmax, inl_l, des, pdm, gx, gy, gz, pt, dt, gv, gr, gvx, mo, ed, gt, ge, op⟩ := s
  simp only at hmod
  subst hmod
  unfold cal_gedm at h
  rw [gedm_cat_eq _ hne hvec] at h
  simp only at h
  rw [reshape_input_eq nat _ htot] at h
  simp only [cal_gedm_backward] at h
  split at h
  · simp at h
  · simp only [Except.ok.injEq] at h
    subst h
    rfl

theorem cal_gedm_unloaded (nat : Nat) (s : LCAO_Deepks K) (hmod : s.module = none) :
    ∃ e, cal_gedm nat s = .error e := by
  unfold cal_gedm
  split
  · exact ⟨_, rfl⟩
  · split
    · exact ⟨_, rfl⟩
    · simp only [hmod]
      exact ⟨_, rfl⟩

theorem foldlM_head_error {σ : Type} (f : σ → Nat → Except String σ) (st : σ) (n : Nat) (e : String)
    (h : f st 0 = .error e) : (List.range (n + 1)).foldlM f st = .error e := by
  rw [List.range_succ_eq_map, List.foldlM_cons, h]
  rfl

theorem gedm_store_undefined (s : LCAO_Deepks K) (gt : List (Option (Tensor K)))
    (h0 : 1 ≤ s.inlmax) (hg : gt[0]? = some none) : ∃ e, gedm_store s gt = .error e := by
  obtain ⟨n, hn⟩ : ∃ n, s.inlmax = n + 1 := ⟨s.inlmax - 1, by omega⟩
  refine ⟨"index: undefined tensor", ?_⟩
  unfold gedm_store
  rw [hn]
  apply foldlM_head_error
  simp only
  apply foldlM_head_error
  apply foldlM_head_error
  simp [hg, index_item]

theorem cal_gedm_undefined (nat : Nat) (s : LCAO_Deepks K) (md : Module K)
    (hne : s.d_tensor ≠ []) (hvec : VectorDescriptors s)
    (htot : d_total s.d_tensor = nat * s.des_per_atom) (hmod : s.module = some md)
    (h0 : 1 ≤ s.inlmax)
    (hg : (autograd_grad_pdm md s.pdm_tensor s.d_tensor [d_total s.d_tensor]
      (input_of nat s))[0]? = some none) :
    ∃ e, cal_gedm nat s = .error e := by
  obtain ⟨inlmax, inl_l, des, pdm, gx, gy, gz, pt, dt, gv, gr, gvx, mo, ed, gt, ge, op⟩ := s
  simp only at hmod
  subst hmod
  obtain ⟨e, he⟩ := gedm_store_undefined
    ⟨inlmax, inl_l, des, pdm, gx, gy, gz, pt, dt, gv, gr, gvx, some md,
      md.forward (input_of nat
        ⟨inlmax, inl_l, des, pdm, gx, gy, gz, pt, dt, gv, gr, gvx, some md, ed, gt, ge, op⟩) * 2,
      gt, ge, op⟩ _ h0 hg
  refine ⟨e, ?_⟩
  unfold cal_gedm
  rw [gedm_cat_eq _ hne hvec]
  simp only
  rw [reshape_input_eq nat _ htot, catted0_shape]
  simp only [cal_gedm_backward]
  rw [he]

theorem cal_gedm_grad_defined (solver : EighSolver K) (nat : Nat) (s tg : LCAO_Deepks K)
    (md : Module K) (hne : 1 ≤ s.inlmax) (hmod : s.module = some md)
    (hgedm : cal_gedm nat (descriptor_state solver s) = .ok tg) :
    ∃ g, md.grad_input (input_of nat (descriptor_state solver s)) = some g := by
  cases hg : md.grad_input (input_of nat (descriptor_state solver s)) with
  | some g => exact ⟨g, rfl⟩
  | none =>
    exfalso
    have htot := cal_gedm_total solver nat s tg hne hgedm
    have hlen : 0 < (descriptor_state solver s).pdm_tensor.length := by
      simp only [descriptor_state, retained_blocks, List.length_map, List.length_range]
      omega
    obtain ⟨e, he⟩ := cal_gedm_undefined nat (descriptor_state solver s) md
      (descriptors_ne_nil solver s hne) (descriptors_vector solver s)
      (by
        show d_total (descriptors solver s) = nat * s.des_per_atom
        rw [descriptors_total, htot])
      hmod hne
      (by
        unfold autograd_grad_pdm
        rw [List.getElem?_map, List.getElem?_range hlen]
        simp [hg])
    rw [he] at hgedm
    cases hgedm

theorem cal_gvdm_returns (solver : EighSolver K) (nat : Nat) (s : LCAO_Deepks K)
    (hnat : 1 ≤ nat)
    (huni : ∀ iat nl, iat < nat → nl < s.inlmax / nat →
      s.inl_l (iat * (s.inlmax / nat) + nl) = s.inl_l nl) :
    ∃ t', cal_gvdm solver nat (descriptor_state solver s) = .ok t' :=
  ⟨_, cal_gvdm_eq solver nat (descriptor_state solver s) hnat
    (retained_shapes_descriptor solver s) huni⟩

theorem cal_gedm_returns (solver : EighSolver K) (nat : Nat) (s : LCAO_Deepks K) (md : Module K)
    (hne : 1 ≤ s.inlmax)
    (htot : ((List.range s.inlmax).map (fun inl => 2 * s.inl_l inl + 1)).sum
      = nat * s.des_per_atom)
    (hmod : s.module = some md)
    (hgrad : ∃ g, md.grad_input (input_of nat (descriptor_state solver s)) = some g) :
    ∃ t', cal_gedm nat (descriptor_state solver s) = .ok t' := by
  obtain ⟨g, hg⟩ := hgrad
  obtain ⟨t', h, _⟩ := cal_gedm_descriptor_eq solver s md nat g hne htot hmod hg
  exact ⟨t', h⟩

theorem bidx_of_lt (d i : Nat) (h : i < d) : bidx d i = i := by
  unfold bidx
  split
  · omega
  · rfl

theorem stacked_range_entry (f : Nat → Tensor K) (n : Nat) (sh : List Nat) (i : Nat)
    (r : List Nat) (hi : i < n) :
    (stacked ((List.range n).map f) sh).entry (i :: r) = (f i).entry r := by
  simp [stacked, List.getElem?_range hi]

theorem mat_of_vector_entry (g : Nat → K) (nm m n : Nat) (hm : m < nm) (hn : n < nm) :
    (mat_of_vector ((List.range (nm * nm)).map g) nm).entry [m, n] = g (m * nm + n) := by
  have hlt : m * nm + n < nm * nm := by
    have : (m + 1) * nm ≤ nm * nm := Nat.mul_le_mul_right nm hm
    rw [Nat.succ_mul] at this
    omega
  simp [mat_of_vector, Tensor.of_vector, ravel, unravel, List.getD_eq_getElem?_getD,
    List.getElem?_range hlt]

theorem cat_last_entry_locate (ts : List (Tensor K)) (lead : List Nat) (i : Nat) (t : Tensor K)
    (v : Nat) (h : ts[i]? = some t) (hv : v < t.shape.getLastD 0) :
    cat_last_entry ts lead (((ts.take i).map (fun u => u.shape.getLastD 0)).sum + v)
      = t.entry (lead ++ [v]) := by
  induction ts generalizing i with
  | nil => simp at h
  | cons u us ih =>
    cases i with
    | zero =>
      simp only [List.getElem?_cons_zero, Option.some.injEq] at h
      subst h
      simp only [List.take_zero, List.map_nil, List.sum_nil, Nat.zero_add, cat_last_entry, hv,
        if_true]
    | succ j =>
      simp only [List.getElem?_cons_succ] at h
      have hnot : ¬ (u.shape.getLastD 0
          + ((us.take j).map (fun u => u.shape.getLastD 0)).sum + v < u.shape.getLastD 0) := by
        omega
      simp only [List.take_succ_cons, List.map_cons, List.sum_cons, cat_last_entry, hnot,
        if_false]
      rw [show u.shape.getLastD 0 + ((us.take j).map (fun u => u.shape.getLastD 0)).sum + v
          - u.shape.getLastD 0
          = ((us.take j).map (fun u => u.shape.getLastD 0)).sum + v from by omega]
      exact ih j h

theorem catted_range_entry (f : Nat → Tensor K) (w : Nat → Nat) (N : Nat) (lead idx : List Nat)
    (nl v : Nat) (hw : ∀ k, (f k).shape.getLastD 0 = w k) (hnl : nl < N) (hv : v < w nl) :
    (catted ((List.range N).map f) lead).entry (idx ++ [((List.range nl).map w).sum + v])
      = (f nl).entry (idx ++ [v]) := by
  have hget : ((List.range N).map f)[nl]? = some (f nl) := by
    simp [List.getElem?_range hnl]
  have h := cat_last_entry_locate ((List.range N).map f) idx nl (f nl) v hget
    (by rw [hw]; exact hv)
  have htake : ((((List.range N).map f).take nl).map (fun u => u.shape.getLastD 0))
      = (List.range nl).map w := by
    rw [← List.map_take, List.take_range, Nat.min_eq_left (by omega), List.map_map]
    apply List.map_congr_left
    intro k _
    exact hw k
  rw [htake] at h
  simp only [catted, List.dropLast_concat, List.getLastD_concat]
  exact h

theorem gdmr_closed_entry (s : LCAO_Deepks K) (nat nl b x a m n : Nat) (hb : b < nat)
    (hx : x < 3) (ha : a < nat) (hm : m < 2 * s.inl_l nl + 1) (hn : n < 2 * s.inl_l nl + 1) :
    (gdmr_closed s nat nl).entry [b, x, a, m, n]
      = gdm_dir s x b (a * (s.inlmax / nat) + nl) (m * (2 * s.inl_l nl + 1) + n) := by
  unfold gdmr_closed
  rw [stacked_range_entry _ nat _ b _ hb, stacked_range_entry _ 3 _ x _ hx,
    stacked_range_entry _ nat _ a _ ha, gdm_mmv_eq _ _ _ _ _ hx,
    mat_of_vector_entry _ _ m n hm hn]

theorem gvx_shell_entry (solver : EighSolver K) (s : LCAO_Deepks K) (nat nl b x a v : Nat)
    (hb : b < nat) (hx : x < 3) (ha : a < nat) :
    (gvx_shell solver s nat nl).entry [b, x, a, v]
      = (Finset.range (2 * s.inl_l nl + 1)).sum (fun m =>
          (Finset.range (2 * s.inl_l nl + 1)).sum (fun n =>
            gdm_dir s x b (a * (s.inlmax / nat) + nl) (m * (2 * s.inl_l nl + 1) + n)
              * (gevdm_shell solver s nat nl).entry [a, v, m, n])) := by
  simp only [gvx_shell, contracted]
  apply Finset.sum_congr rfl
  intro m hm
  rw [Finset.mem_range] at hm
  apply Finset.sum_congr rfl
  intro n hn
  rw [Finset.mem_range] at hn
  rw [bidx_of_lt _ _ ha, bidx_of_lt _ _ hm, bidx_of_lt _ _ hn,
    gdmr_closed_entry s nat nl b x a m n hb hx ha hm hn]

theorem gvx_closed_entry (solver : EighSolver K) (s : LCAO_Deepks K) (nat nl b x a v : Nat)
    (hb : b < nat) (hx : x < 3) (ha : a < nat) (hnl : nl < s.inlmax / nat)
    (hv : v < 2 * s.inl_l nl + 1) :
    (gvx_closed solver s nat).entry [b, x, a, shell_total s nl + v]
      = (Finset.range (2 * s.inl_l nl + 1)).sum (fun m =>
          (Finset.range (2 * s.inl_l nl + 1)).sum (fun n =>
            gdm_dir s x b (a * (s.inlmax / nat) + nl) (m * (2 * s.inl_l nl + 1) + n)
              * (gevdm_shell solver s nat nl).entry [a, v, m, n])) := by
  have h := catted_range_entry (gvx_shell solver s nat) (fun k => 2 * s.inl_l k + 1)
    (s.inlmax / nat) [nat, 3, nat] [b, x, a] nl v (fun _ => rfl) hnl hv
  rw [← gvx_shell_entry solver s nat nl b x a v hb hx ha]
  exact h

theorem gvx_assigned_eq (solver : EighSolver K) (nat : Nat) (s : LCAO_Deepks K) (hnat : 1 ≤ nat)
    (hnl : 1 ≤ s.inlmax / nat) (hret : RetainedShapes s) (huni : UniformShells s nat) :
    gvx_assigned solver nat s = .ok (gvx_closed solver s nat) := by
  unfold gvx_assigned
  rw [cal_gvdm_eq solver nat s hnat hret huni]
  simp only [erase_all_eq, List.nil_append]
  rw [mapE_eq_map _ (gdmr_closed s nat)]
  · simp only [List.length_map, List.length_range, ne_eq, not_true_eq_false, if_false]
    have h := gvx_build_eq solver s nat hnl
    simp only [gdmr_closed, gevdm_shell, gvx_closed, gvx_shell, block_at] at h ⊢
    rw [h]
  · intro nl hnl'
    rw [List.mem_range] at hnl'
    exact gdmr_shell_eq _ nat nl hnat hnl' huni

theorem cal_gvx_wrong_des (solver : EighSolver K) (nat : Nat) (s : LCAO_Deepks K) (hnat : 1 ≤ nat)
    (hnl : 1 ≤ s.inlmax / nat) (hret : RetainedShapes s) (huni : UniformShells s nat)
    (hdes : s.des_per_atom ≠ shell_total s (s.inlmax / nat)) :
    cal_gvx solver 0 nat s = .error "assertion failed: gvx_tensor.size(3) == des_per_atom" := by
  unfold cal_gvx
  rw [cal_gvdm_eq solver nat s hnat hret huni]
  simp only [erase_all_eq, if_true, List.nil_append]
  rw [mapE_eq_map _ (gdmr_closed s nat)]
  · simp only [List.length_map, List.length_range, ne_eq, not_true_eq_false, if_false]
    have h := gvx_build_eq solver s nat hnl
    have hsh := gvx_closed_shape solver s nat
    unfold gvx_contract
    simp only [gdmr_closed, gevdm_shell, gvx_closed, gvx_shell, block_at] at h hsh ⊢
    rw [h]
    simp [hsh, Ne.symm hdes]
  · intro nl hnl'
    rw [List.mem_range] at hnl'
    exact gdmr_shell_eq _ nat nl hnat hnl' huni

theorem orbital_mmv_eq (P : Nat → Nat → Nat → K) (hl inl nm : Nat) :
    orbital_mmv P hl inl nm = (List.range (nm * nm)).map (P hl inl) :=
  foldl_push_rows (P hl inl) nm nm

theorem orbital_shell_eq (s : LCAO_Deepks K) (P : Nat → Nat → Nat → K) (nat nl : Nat)
    (hnat : 1 ≤ nat) (hnl : nl < s.inlmax / nat) (huni : UniformShells s nat) :
    orbital_shell s P nat (s.inlmax / nat) nl = .ok (orbital_closed s P nat nl) := by
  unfold orbital_shell
  have hatoms : ∀ hl,
      mapE (fun iat =>
        (Tensor.of_vector (orbital_mmv P hl (iat * (s.inlmax / nat) + nl)
          (2 * s.inl_l (iat * (s.inlmax / nat) + nl) + 1))).reshape
          [2 * s.inl_l (iat * (s.inlmax / nat) + nl) + 1,
           2 * s.inl_l (iat * (s.inlmax / nat) + nl) + 1]) (List.range nat)
      = .ok ((List.range nat).map (fun iat =>
          mat_of_vector (orbital_mmv P hl (iat * (s.inlmax / nat) + nl) (2 * s.inl_l nl + 1))
            (2 * s.inl_l nl + 1))) := by
    intro hl
    apply mapE_eq_map
    intro iat hiat
    rw [List.mem_range] at hiat
    simp only [huni iat nl hiat hnl]
    apply reshape_of_vector
    rw [orbital_mmv_eq]
    simp
  rw [mapE_eq_map _ (fun hl => stacked ((List.range nat).map (fun iat =>
      mat_of_vector (orbital_mmv P hl (iat * (s.inlmax / nat) + nl) (2 * s.inl_l nl + 1))
        (2 * s.inl_l nl + 1)))
      [2 * s.inl_l nl + 1, 2 * s.inl_l nl + 1])]
  · simp only
    unfold orbital_closed
    apply stack_eq
    · exact range_map_ne_nil 1 _ (by omega)
    · intro u hu
      rw [List.mem_map] at hu
      obtain ⟨hl, _, rfl⟩ := hu
      simp [stacked]
  · intro hl _
    rw [hatoms hl]
    simp only
    apply stack_eq
    · exact range_map_ne_nil nat _ hnat
    · intro u hu
      rw [List.mem_map] at hu
      obtain ⟨iat, _, rfl⟩ := hu
      rfl

theorem einsum3_eq (A B : Tensor K) (i a v m n : Nat) (hA : A.shape = [i, a, m, n])
    (hB : B.shape = [a, v, m, n]) :
    einsum_iamn_avmn A B = .ok (contracted3 A B i a v m n) := by
  unfold einsum_iamn_avmn
  rw [hA, hB]
  simp [bdim, contracted3]

theorem orbital_contract_eq (solver : EighSolver K) (s : LCAO_Deepks K)
    (P : Nat → Nat → Nat → K) (nat : Nat) (hnat : 1 ≤ nat) (hnl : 1 ≤ s.inlmax / nat)
    (huni : UniformShells s nat) :
    orbital_contract nat P
        { s with gevdm_vector := (List.range (s.inlmax / nat)).map (gevdm_shell solver s nat) }
      = .ok (precalc_closed solver s P nat) := by
  unfold orbital_contract
  have hn0 : nat ≠ 0 := by omega
  simp only [hn0, if_false]
  have hshell : ∀ nl ∈ List.range (s.inlmax / nat),
      orbital_shell
        { s with gevdm_vector := (List.range (s.inlmax / nat)).map (gevdm_shell solver s nat) }
        P nat (s.inlmax / nat) nl = .ok (orbital_closed s P nat nl) := by
    intro nl hnl'
    rw [List.mem_range] at hnl'
    exact orbital_shell_eq s P nat nl hnat hnl' huni
  rw [mapE_eq_map _ (orbital_closed s P nat) _ hshell]
  simp only [List.length_map, List.length_range, ne_eq, not_true_eq_false, if_false]
  rw [mapE_eq_map _ (precalc_shell solver s P nat)]
  · simp only
    unfold precalc_closed
    apply cat_last_eq _ [1, nat] (range_map_ne_nil _ _ hnl)
    intro u hu
    rw [List.mem_map] at hu
    obtain ⟨nl, _, rfl⟩ := hu
    exact ⟨2 * s.inl_l nl + 1, rfl⟩
  · intro nl hnl'
    rw [List.mem_range] at hnl'
    simp only [List.getElem?_map, List.getElem?_range hnl', Option.map_some']
    exact einsum3_eq _ _ _ _ _ _ _ (by simp [orbital_closed, stacked])
      (by simp [gevdm_shell, stacked])

theorem cal_orbital_precalc_eq (solver : EighSolver K) (nat : Nat) (s : LCAO_Deepks K)
    (P : Nat → Nat → Nat → K) (hnat : 1 ≤ nat) (hnl : 1 ≤ s.inlmax / nat)
    (hret : RetainedShapes s) (huni : UniformShells s nat) :
    cal_orbital_precalc solver nat P s
      = .ok { s with
          gevdm_vector := (List.range (s.inlmax / nat)).map (gevdm_shell solver s nat)
          orbital_precalc_tensor := precalc_closed solver s P nat } := by
  unfold cal_orbital_precalc
  rw [cal_gvdm_eq solver nat s hnat hret huni]
  simp only
  rw [orbital_contract_eq solver s P nat hnat hnl huni]

theorem precalc_closed_shape (solver : EighSolver K) (s : LCAO_Deepks K)
    (P : Nat → Nat → Nat → K) (nat : Nat) :
    (precalc_closed solver s P nat).shape = [1, nat, shell_total s (s.inlmax / nat)] := by
  simp [precalc_closed, catted, shell_total, precalc_shell, contracted3, Function.comp_def]

theorem orbital_closed_entry (s : LCAO_Deepks K) (P : Nat → Nat → Nat → K) (nat nl a m n : Nat)
    (ha : a < nat) (hm : m < 2 * s.inl_l nl + 1) (hn : n < 2 * s.inl_l nl + 1) :
    (orbital_closed s P nat nl).entry [0, a, m, n]
      = P 0 (a * (s.inlmax / nat) + nl) (m * (2 * s.inl_l nl + 1) + n) := by
  unfold orbital_closed
  rw [stacked_range_entry _ 1 _ 0 _ (by omega), stacked_range_entry _ nat _ a _ ha,
    orbital_mmv_eq, mat_of_vector_entry _ _ m n hm hn]

theorem precalc_shell_entry (solver : EighSolver K) (s : LCAO_Deepks K)
    (P : Nat → Nat → Nat → K) (nat nl a v : Nat) (ha : a < nat) :
    (precalc_shell solver s P nat nl).entry [0, a, v]
      = (Finset.range (2 * s.inl_l nl + 1)).sum (fun m =>
          (Finset.range (2 * s.inl_l nl + 1)).sum (fun n =>
            P 0 (a * (s.inlmax / nat) + nl) (m * (2 * s.inl_l nl + 1) + n)
              * (gevdm_shell solver s nat nl).entry [a, v, m, n])) := by
  simp only [precalc_shell, contracted3]
  apply Finset.sum_congr rfl
  intro m hm
  rw [Finset.mem_range] at hm
  apply Finset.sum_congr rfl
  intro n hn
  rw [Finset.mem_range] at hn
  rw [bidx_of_lt _ _ ha, bidx_of_lt _ _ hm, bidx_of_lt _ _ hn,
    orbital_closed_entry s P nat nl a m n ha hm hn]

theorem precalc_closed_entry (solver : EighSolver K) (s : LCAO_Deepks K)
    (P : Nat → Nat → Nat → K) (nat nl a v : Nat) (ha : a < nat) (hnl : nl < s.inlmax / nat)
    (hv : v < 2 * s.inl_l nl + 1) :
    (precalc_closed solver s P nat).entry [0, a, shell_total s nl + v]
      = (Finset.range (2 * s.inl_l nl + 1)).sum (fun m =>
          (Finset.range (2 * s.inl_l nl + 1)).sum (fun n =>
            P 0 (a * (s.inlmax / nat) + nl) (m * (2 * s.inl_l nl + 1) + n)
              * (gevdm_shell solver s nat nl).entry [a, v, m, n])) := by
  have h := catted_range_entry (precalc_shell solver s P nat) (fun k => 2 * s.inl_l k + 1)
    (s.inlmax / nat) [1, nat] [0, a] nl v (fun _ => rfl) hnl hv
  rw [← precalc_shell_entry solver s P nat nl a v ha]
  exact h

theorem cal_gvdm_frame (solver : EighSolver K) (nat : Nat) (s s1 : LCAO_Deepks K)
    (h : cal_gvdm solver nat s = .ok s1) :
    1 ≤ nat ∧ ∃ G, s1 = { s with gevdm_vector := G } := by
  unfold cal_gvdm at h
  by_cases hn0 : nat = 0
  · simp [hn0] at h
  · simp only [hn0, if_false] at h
    split at h
    · cases h
    · split at h
      · simp only [Except.ok.injEq] at h
        exact ⟨by omega, _, h.symm⟩
      · cases h

theorem reshape_shape (t r : Tensor K) (sh : List Nat) (h : t.reshape sh = .ok r) :
    r.shape = sh := by
  unfold Tensor.reshape at h
  split at h
  · rename_i heq
    simp only [Except.ok.injEq] at h
    rw [← h]
    exact heq
  · split at h
    · simp only [Except.ok.injEq] at h
      rw [← h]
    · cases h

theorem gvdm_atom_shape (solver : EighSolver K) (s : LCAO_Deepks K) (nlmax nl iat : Nat)
    (J : Tensor K) (h : gvdm_atom solver s nlmax nl iat = .ok J) :
    J.shape = [2 * s.inl_l (iat * nlmax + nl) + 1, 2 * s.inl_l (iat * nlmax + nl) + 1,
      2 * s.inl_l (iat * nlmax + nl) + 1] := by
  unfold gvdm_atom at h
  simp only at h
  split at h
  · cases h
  · split at h
    · cases h
    · rename_i r hr
      have hshape := reshape_shape _ _ _ hr
      split at h
      · cases h
      · rename_i tmp_yv heig
        split at h
        · simp only [Except.ok.injEq] at h
          subst h
          unfold linalg_eigh at heig
          simp only [Tensor.repeat, Tensor.unsqueeze0, hshape, List.zipWith_cons_cons,
            List.zipWith_nil_right, Nat.one_mul, Nat.mul_one, if_true, Except.ok.injEq] at heig
          subst heig
          simp [eigh_backward, eigh_vecs]
        · cases h

theorem cal_gvdm_shapes (solver : EighSolver K) (nat : Nat) (s : LCAO_Deepks K)
    (G : List (Tensor K)) (h : cal_gvdm solver nat s = .ok { s with gevdm_vector := G })
    (nl : Nat) (hnl : nl < s.inlmax / nat) :
    ∃ J, G[nl]? = some J ∧
      J.shape = [nat, 2 * s.inl_l nl + 1, 2 * s.inl_l nl + 1, 2 * s.inl_l nl + 1] := by
  have hnat := (cal_gvdm_frame solver nat s _ h).1
  unfold cal_gvdm at h
  have hn0 : nat ≠ 0 := by omega
  simp only [hn0, if_false] at h
  split at h
  · cases h
  · rename_i gevdm hmap
    split at h
    · simp only [Except.ok.injEq] at h
      have hG : gevdm = G := congrArg LCAO_Deepks.gevdm_vector h
      subst hG
      obtain ⟨_, hget⟩ := mapE_inv _ _ _ hmap
      obtain ⟨J, hJ, hshell⟩ := hget nl nl (List.getElem?_range hnl)
      refine ⟨J, hJ, ?_⟩
      split at hshell
      · cases hshell
      · rename_i avmmv hatoms
        obtain ⟨hlen, hat⟩ := mapE_inv _ _ _ hatoms
        obtain ⟨b, hb, hb0⟩ := hat 0 0 (List.getElem?_range (by omega))
        have hbs := gvdm_atom_shape solver s _ nl 0 b hb0
        simp only [Nat.zero_mul, Nat.zero_add] at hbs
        obtain ⟨sh, hsh, hJeq⟩ := stack_inv _ _ hshell
        have hmem := hsh b (List.getElem?_mem hb)
        subst hJeq
        simp only [stacked, hlen, List.length_range]
        rw [← hmem, hbs]
    · cases h

theorem einsum_last_inv (A B T : Tensor K) (a v m n : Nat) (hB : B.shape = [a, v, m, n])
    (h : einsum_bxamn_avmn A B = .ok T) : ∃ p q r, T.shape = [p, q, r, v] := by
  unfold einsum_bxamn_avmn at h
  rw [hB] at h
  split at h
  · rename_i b x a0 m0 n0 a1 v1 m1 n1 hA hB1
    simp only [List.cons.injEq, and_true] at hB1
    obtain ⟨_, hv, _, _⟩ := hB1
    subst hv
    split at h
    · simp only [Except.ok.injEq] at h
      subst h
      exact ⟨_, _, _, rfl⟩
    · cases h
  · cases h

theorem cat_last_inv (ts : List (Tensor K)) (T : Tensor K) (h : cat_last ts = .ok T) :
    ∃ t rest, ts = t :: rest ∧
      T.shape = t.shape.dropLast ++ [(ts.map (fun u => u.shape.getLastD 0)).sum] := by
  cases ts with
  | nil => simp [cat_last] at h
  | cons t rest =>
    unfold cat_last at h
    by_cases h0 : t.shape = []
    · simp [h0] at h
    · by_cases hall : rest.all
          (fun u => decide (u.shape ≠ [] ∧ u.shape.dropLast = t.shape.dropLast)) = true
      · simp only [h0, hall, if_false, if_true, Except.ok.injEq] at h
        exact ⟨t, rest, rfl, by rw [← h]⟩
      · simp only [h0, hall, if_false] at h
        cases h

theorem gvx_build_last (s : LCAO_Deepks K) (nat nlmax : Nat) (gdmr G : List (Tensor K))
    (g : Tensor K)
    (hG : ∀ nl, nl < nlmax → ∃ J, G[nl]? = some J ∧
      J.shape = [nat, 2 * s.inl_l nl + 1, 2 * s.inl_l nl + 1, 2 * s.inl_l nl + 1])
    (h : gvx_build nlmax gdmr G = .ok g) :
    g.shape.length = 4 ∧ g.shape.getD 3 0 = shell_total s nlmax := by
  unfold gvx_build at h
  split at h
  · cases h
  · rename_i gv hm
    obtain ⟨hlen, hget⟩ := mapE_inv _ _ _ hm
    rw [List.length_range] at hlen
    have hshape : ∀ nl, nl < nlmax → ∃ b p q r, gv[nl]? = some b ∧
        b.shape = [p, q, r, 2 * s.inl_l nl + 1] := by
      intro nl hnl
      obtain ⟨b, hb, hein⟩ := hget nl nl (List.getElem?_range hnl)
      obtain ⟨J, hJ, hJs⟩ := hG nl hnl
      rw [hJ] at hein
      split at hein
      · rename_i a0 b0 ha0 hb0
        simp only [Option.some.injEq] at hb0
        subst hb0
        obtain ⟨p, q, r, hs⟩ := einsum_last_inv _ _ _ _ _ _ _ hJs hein
        exact ⟨b, p, q, r, hb, hs⟩
      · cases hein
    have hsum : (gv.map (fun u => u.shape.getLastD 0))
        = (List.range nlmax).map (fun nl => 2 * s.inl_l nl + 1) := by
      apply List.ext_getElem?
      intro i
      by_cases hi : i < nlmax
      · obtain ⟨b, p, q, r, hb, hs⟩ := hshape i hi
        simp [List.getElem?_map, hb, hs, List.getElem?_range hi]
      · have h1 : gv.length ≤ i := by omega
        have h2 : (List.range nlmax).length ≤ i := by
          rw [List.length_range]
          omega
        simp [List.getElem?_map, List.getElem?_eq_none h1, List.getElem?_eq_none h2]
    obtain ⟨t, rest, hts, hgs⟩ := cat_last_inv _ _ h
    have hpos : 0 < nlmax := by
      rw [← hlen, hts]
      simp
    obtain ⟨b, p, q, r, hb, hs⟩ := hshape 0 hpos
    rw [hts] at hb
    simp only [List.getElem?_cons_zero, Option.some.injEq] at hb
    subst hb
    rw [hsum, hs] at hgs
    rw [hgs]
    simp [shell_total]

theorem cal_gvx_ok_des (solver : EighSolver K) (nat : Nat) (s s' : LCAO_Deepks K)
    (h : cal_gvx solver 0 nat s = .ok s') :
    s.des_per_atom = shell_total s (s.inlmax / nat) := by
  unfold cal_gvx at h
  split at h
  · cases h
  · rename_i s1 hg
    obtain ⟨_, G, hfr⟩ := cal_gvdm_frame solver nat s s1 hg
    subst hfr
    simp only [if_true] at h
    split at h
    · cases h
    · rename_i gdmr _
      split at h
      · cases h
      · split at h
        · cases h
        · rename_i gvx hc
          unfold gvx_contract at hc
          split at hc
          · cases hc
          · rename_i g hb
            obtain ⟨_, hlast⟩ := gvx_build_last s nat (s.inlmax / nat) _ G g
              (cal_gvdm_shapes solver nat s G hg) hb
            split at hc
            · cases hc
            · split at hc
              · cases hc
              · split at hc
                · cases hc
                · split at hc
                  · cases hc
                  · split at hc
                    · cases hc
                    · rename_i hdes
                      simp only [ne_eq, not_not] at hdes
                      rw [← hlast]
                      exact hdes.symm

end Lemmas

/-! ## Lemmas on the concrete configurations -/

theorem one_atom_input (md : Module ℚ) :
    (input_of 1 (one_atom_state md)).entry [0, 0] = 2 := by
  rw [input_of_entry]
  rfl

/-! ## Claims -/

section Claims

variable {K : Type} [CommRing K]

/-- C1 (amended): on a valid layout (`nat ≥ 1`, `inlmax = nat * nlmax`,
`nlmax ≥ 1`, the same `l` in shell `nl` on every atom, `des_per_atom` the sum
of the block sizes of the shells), for every solver and every content of the
retained blocks, if `gdmx`, `gdmy` and `gdmz` are zero then `cal_gvx` on rank
zero returns a `gvx_tensor` of shape `(nat, 3, nat, des_per_atom)` all of
whose entries are zero. -/
theorem C1_zero_gdm_zero_gvx (solver : EighSolver K) (nat nlmax : Nat) (s : LCAO_Deepks K)
    (hnat : 1 ≤ nat) (hnl : 1 ≤ nlmax) (hlay : s.inlmax = nat * nlmax)
    (huni : ∀ iat nl, iat < nat → nl < nlmax → s.inl_l (iat * nlmax + nl) = s.inl_l nl)
    (hdes : s.des_per_atom = ((List.range nlmax).map (fun nl => 2 * s.inl_l nl + 1)).sum)
    (hret : RetainedShapes s)
    (hx : ∀ ibt inl i, s.gdmx ibt inl i = 0) (hy : ∀ ibt inl i, s.gdmy ibt inl i = 0)
    (hz : ∀ ibt inl i, s.gdmz ibt inl i = 0) :
    ∃ s', cal_gvx solver 0 nat s = .ok s' ∧
      s'.gvx_tensor.shape = [nat, 3, nat, s.des_per_atom] ∧
      ∀ idx, s'.gvx_tensor.entry idx = 0 := by
  have hdiv := layout_div s.inlmax nat nlmax hnat hlay
  have huni' : UniformShells s nat := by
    intro iat nl hiat hnl'
    rw [hdiv] at hnl' ⊢
    exact huni iat nl hiat hnl'
  have hdes' : s.des_per_atom = shell_total s (s.inlmax / nat) := by
    rw [hdiv]
    exact hdes
  refine ⟨_, cal_gvx_eq solver nat s hnat (by omega) hret huni' hdes', ?_, ?_⟩
  · simp only [gvx_closed_shape, hdes']
  · apply zero_catted
    intro u hu
    rw [List.mem_map] at hu
    obtain ⟨nl, _, rfl⟩ := hu
    exact zero_contracted _ _ _ _ _ _ _ _ (zero_gdmr_closed s nat nl hx hy hz)

/-- Witness of C1: two atoms, one shared shell, zero position-derivative blocks. -/
theorem C1_zero_gdm_zero_gvx_witness :
    ∃ s', cal_gvx (diag_solver ℚ) 0 2 two_atom_state = .ok s' ∧
      s'.gvx_tensor.shape = [2, 3, 2, two_atom_state.des_per_atom] ∧
      ∀ idx, s'.gvx_tensor.entry idx = 0 :=
  C1_zero_gdm_zero_gvx (diag_solver ℚ) 2 1 two_atom_state (by decide) (by decide) rfl
    (fun _ _ _ _ => rfl) rfl (retained_shapes_descriptor (diag_solver ℚ) two_atom_store)
    (fun _ _ _ => rfl) (fun _ _ _ => rfl) (fun _ _ _ => rfl)

/-- C1 as stated fails: with `nat = 2`, `nlmax = 1`, `inlmax = nat * nlmax` and
zero position derivatives, `cal_gvx` on rank zero returns no tensor when the
two atoms differ in the `l` of the shell (`torch::stack` rejects the unequal
blocks), and none when `des_per_atom` is not the block size of the shell (the
assertion on the last extent fails). -/
theorem C1_counterexample :
    (mixed_state.inlmax = 2 * 1 ∧ RetainedShapes mixed_state ∧
      (∀ ibt inl i, mixed_state.gdmx ibt inl i = 0 ∧ mixed_state.gdmy ibt inl i = 0 ∧
        mixed_state.gdmz ibt inl i = 0) ∧
      ¬ ∃ s', cal_gvx (diag_solver ℚ) 0 2 mixed_state = .ok s') ∧
    (wrong_des_state.inlmax = 2 * 1 ∧ RetainedShapes wrong_des_state ∧
      (∀ ibt inl i, wrong_des_state.gdmx ibt inl i = 0 ∧ wrong_des_state.gdmy ibt inl i = 0 ∧
        wrong_des_state.gdmz ibt inl i = 0) ∧
      ¬ ∃ s', cal_gvx (diag_solver ℚ) 0 2 wrong_des_state = .ok s') := by
  refine ⟨⟨rfl, retained_shapes_descriptor (diag_solver ℚ) mixed_store,
    fun _ _ _ => ⟨rfl, rfl, rfl⟩, ?_⟩,
    ⟨rfl, retained_shapes_descriptor (diag_solver ℚ) two_atom_store,
    fun _ _ _ => ⟨rfl, rfl, rfl⟩, ?_⟩⟩
  · have h : cal_gvx (diag_solver ℚ) 0 2 mixed_state
        = .error "stack expects each tensor to be equal size" := rfl
    rw [h]
    rintro ⟨_, h'⟩
    cases h'
  · have h : cal_gvx (diag_solver ℚ) 0 2 wrong_des_state
        = .error "assertion failed: gvx_tensor.size(3) == des_per_atom" := rfl
    rw [h]
    rintro ⟨_, h'⟩
    cases h'

/-- C2: after `cal_descriptor` followed by `cal_gedm(nat)` with the loaded
model `md`, for every projector `inl` and all `m1, m2 < nm = 2 * inl_l[inl] + 1`
the stored `gedm[inl][m1 * nm + m2]` is 2 times the derivative of the model
output with respect to entry `(m1, m2)` of the retained block of `inl`, where
`g` is the gradient of the model output with respect to the model input; and
`cal_gedm(nat)` does return when there are `nat * des_per_atom` descriptor
values and the model output depends on the model input. -/
theorem C2_gedm_twice_gradient (solver : EighSolver K) (nat : Nat) (s t : LCAO_Deepks K)
    (md : Module K) (inl m1 m2 : Nat) (hmod : s.module = some md)
    (hdesc : cal_descriptor solver s = .ok t)
    (hinl : inl < s.inlmax) (hm1 : m1 < 2 * s.inl_l inl + 1) (hm2 : m2 < 2 * s.inl_l inl + 1) :
    (∀ t', cal_gedm nat t = .ok t' →
      ∃ g, md.grad_input (input_of nat t) = some g ∧
        t'.gedm inl (m1 * (2 * s.inl_l inl + 1) + m2) = 2 * dE_dpdm solver s g inl m1 m2) ∧
    (((List.range s.inlmax).map (fun i => 2 * s.inl_l i + 1)).sum = nat * s.des_per_atom →
      (∃ g, md.grad_input (input_of nat t) = some g) → ∃ t', cal_gedm nat t = .ok t') := by
  have ht := descriptor_state_of solver s t hdesc
  subst ht
  have hne : 1 ≤ s.inlmax := by omega
  refine ⟨?_, fun htot hgrad => cal_gedm_returns solver nat s md hne htot hmod hgrad⟩
  intro t' hgedm
  have htot := cal_gedm_total solver nat s t' hne hgedm
  obtain ⟨g, hg⟩ := cal_gedm_grad_defined solver nat s t' md hne hmod hgedm
  obtain ⟨t'', h1, _, _, h4⟩ := cal_gedm_descriptor_eq solver s md nat g hne htot hmod hg
  rw [hgedm] at h1
  simp only [Except.ok.injEq] at h1
  subst h1
  refine ⟨g, hg, ?_⟩
  rw [h4, gedm_closed_entry s _ inl m1 m2 hinl hm1 hm2,
    grad_block_entry solver s nat g inl m1 m2 hinl hm1 hm2, mul_comm]
  rfl

/-- Witness of C2: one atom, one projector with `l = 0`, PDM block `[[2]]`
and a model that multiplies its input by `1/2`: the stored PDM gradient is 1. -/
theorem C2_gedm_twice_gradient_witness :
    ∃ t', cal_gedm 1 (one_atom_state half_module) = .ok t' ∧ t'.gedm 0 0 = 1 := by
  obtain ⟨hval, hret⟩ := C2_gedm_twice_gradient (diag_solver ℚ) 1 (one_atom_store half_module)
    (one_atom_state half_module) half_module 0 0 0 rfl (cal_descriptor_eq _ _)
    (by decide) (by decide) (by decide)
  obtain ⟨t', h1⟩ := hret rfl ⟨fun _ => 1 / 2, rfl⟩
  obtain ⟨g, hg, h3⟩ := hval t' h1
  refine ⟨t', h1, ?_⟩
  have hg' : g = fun _ => 1 / 2 := by
    have : some (fun _ => (1 / 2 : ℚ)) = some g := hg
    exact (Option.some.inj this).symm
  subst hg'
  have hj := jac_entry (diag_solver ℚ) (block_of 1 ((one_atom_store half_module).pdm 0)) 1 0 0 0
    rfl (by decide) (by decide) (by decide)
  have h3' : t'.gedm 0 0 = 2 * (Finset.range 1).sum (fun k => (1 / 2 : ℚ)
      * (jac_of (diag_solver ℚ) (block_of 1 ((one_atom_store half_module).pdm 0)) 1).entry
          [k, 0, 0]) := h3
  rw [h3', Finset.sum_range_one, hj]
  simp [diag_solver]

/-- C3 (amended): for every non-empty list of descriptor vectors whose total
length is `nat * des_per_atom` and every loaded model `f`, the forward part
of `cal_gedm(nat)` returns and stores `E_delta = 2 * f(X)`, where `X` is the
`(nat, des_per_atom)` matrix whose entry `(iat, j)` is element
`iat * des_per_atom + j` of the concatenation of `d_tensor[0]`, `d_tensor[1]`,
... in projector order; the value is still stored when all of `cal_gedm`
returns.  When each atom owns `nlmax` consecutive vectors of total length
`des_per_atom`, row `iat` of `X` is exactly the concatenation of the vectors
of atom `iat`. -/
theorem C3_energy_from_descriptors (nat : Nat) (s : LCAO_Deepks K) (md : Module K)
    (hne : s.d_tensor ≠ []) (hvec : VectorDescriptors s)
    (htot : d_total s.d_tensor = nat * s.des_per_atom) (hmod : s.module = some md) :
    ∃ X s', gedm_input nat s = .ok X ∧ cal_gedm_forward nat s = .ok s' ∧
      s'.E_delta = 2 * md.forward X ∧ X.shape = [nat, s.des_per_atom] ∧
      (∀ iat j, iat < nat → j < s.des_per_atom →
        X.entry [iat, j] = (concat_values s.d_tensor).getD (iat * s.des_per_atom + j) 0) ∧
      (∀ t', cal_gedm nat s = .ok t' → t'.E_delta = 2 * md.forward X) ∧
      (∀ nlmax, (∀ i, i < nat →
          (concat_values ((s.d_tensor.drop (i * nlmax)).take nlmax)).length = s.des_per_atom) →
        ∀ iat, iat < nat →
          (List.range s.des_per_atom).map (fun j => X.entry [iat, j])
            = concat_values ((s.d_tensor.drop (iat * nlmax)).take nlmax)) := by
  refine ⟨input_of nat s, _, gedm_input_eq nat s hne hvec htot,
    cal_gedm_forward_eq nat s md hne hvec htot hmod, mul_comm _ _, rfl, ?_, ?_, ?_⟩
  · intro iat j _ _
    exact input_of_entry nat s iat j
  · intro t' ht'
    rw [cal_gedm_energy nat s t' md hne hvec htot hmod ht', mul_comm]
  · intro nlmax hseg iat hiat
    exact input_row_eq nat nlmax s iat hseg hiat

/-- Witness of C3: one atom, one projector with `l = 0`, block `[[2]]` and the
model `f(d) = d / 2`: the stored correction energy is 2, after the forward
part and after all of `cal_gedm`. -/
theorem C3_energy_from_descriptors_witness :
    (∃ s', cal_gedm_forward 1 (one_atom_state half_module) = .ok s' ∧ s'.E_delta = 2) ∧
      ∃ t', cal_gedm 1 (one_atom_state half_module) = .ok t' ∧ t'.E_delta = 2 := by
  obtain ⟨X, s', _, hs', hE, _, hent, hall, _⟩ := C3_energy_from_descriptors 1
    (one_atom_state half_module) half_module
    (descriptors_ne_nil (diag_solver ℚ) (one_atom_store half_module) (by decide))
    (descriptors_vector (diag_solver ℚ) (one_atom_store half_module)) rfl rfl
  obtain ⟨t', ht', _⟩ := cal_gedm_descriptor_eq (diag_solver ℚ) (one_atom_store half_module)
    half_module 1 (fun _ => 1 / 2) (by decide) rfl rfl rfl
  have h00 : X.entry [0, 0] = 2 := hent 0 0 (by decide) (by decide)
  have hval : 2 * half_module.forward X = 2 := by
    show 2 * (1 / 2 * X.entry [0, 0]) = 2
    rw [h00]
    norm_num
  refine ⟨⟨s', hs', ?_⟩, t', ht', ?_⟩
  · rw [hE, hval]
  · rw [hall t' ht', hval]

/-- C3 as stated fails: with `nat = 1`, `des_per_atom = 0` and an empty list
of descriptor vectors (total length `0 = nat * des_per_atom`) and a loaded
model, `cal_gedm` stores no energy, since `torch::cat` rejects the empty
list; and with two atoms holding one and three descriptors and
`des_per_atom = 2`, row 0 of the model input holds a descriptor of atom 1. -/
theorem C3_counterexample :
    (d_total no_projector_state.d_tensor = 1 * no_projector_state.des_per_atom ∧
      no_projector_state.module = some half_module ∧
      cal_gedm_forward 1 no_projector_state = .error "cat expects a non-empty TensorList" ∧
      cal_gedm 1 no_projector_state = .error "cat expects a non-empty TensorList") ∧
    (d_total mixed_model_state.d_tensor = 2 * mixed_model_state.des_per_atom ∧
      input_row 2 mixed_model_state 0 ≠ concat_values (mixed_model_state.d_tensor.take 1)) := by
  refine ⟨⟨rfl, rfl, rfl, rfl⟩, rfl, ?_⟩
  intro h
  have := congrArg List.length h
  revert this
  decide

/-- C4 fails on the code: with a loaded model whose output does not depend on
its input, autograd returns an undefined gradient for the block and
`cal_gedm` fails when it indexes that tensor; no zero is stored. -/
theorem C4_unused_block_raises :
    cal_gedm 1 (one_atom_state const_module) = .error "index: undefined tensor" := rfl

/-- C5 (amended): when the load fails with a `c10::Error`, `load_model`
returns normally and leaves the whole state unchanged, the module included;
the adapter is then unusable if no model had been loaded before: `cal_gedm`
fails for every `nat`.  When the load fails with an exception of any other
type, `load_model` does not return normally: the exception reaches the
caller. -/
theorem C5_failed_load_keeps_state (jit_load : String → LoadResult K) (model_file : String)
    (s : LCAO_Deepks K) :
    (∀ what, jit_load model_file = .c10_error what →
      ∃ s', load_model jit_load model_file s = .ok s' ∧ s' = s ∧
        (s.module = none → ∀ nat, ∃ e, cal_gedm nat s' = .error e)) ∧
    (∀ what, jit_load model_file = .other_exception what →
      load_model jit_load model_file s = .error what) := by
  constructor
  · intro what hfail
    refine ⟨s, ?_, rfl, ?_⟩
    · unfold load_model
      rw [hfail]
    · intro hmod nat
      exact cal_gedm_unloaded nat s hmod
  · intro what hfail
    unfold load_model
    rw [hfail]

/-- Witness of C5: on a state without a model, a load that raises
`c10::Error` returns and leaves the adapter unusable, and a load that raises
`std::bad_alloc` does not return. -/
theorem C5_failed_load_keeps_state_witness :
    (∃ s', load_model missing_file_load "model.ptg" unloaded_state = .ok s' ∧
      s' = unloaded_state ∧ ∀ nat, ∃ e, cal_gedm nat s' = .error e) ∧
    load_model exhausted_load "model.ptg" unloaded_state = .error "std::bad_alloc" := by
  obtain ⟨s', h1, h2, h3⟩ := (C5_failed_load_keeps_state missing_file_load "model.ptg"
    unloaded_state).1 "open file failed" rfl
  exact ⟨⟨s', h1, h2, h3 rfl⟩,
    (C5_failed_load_keeps_state exhausted_load "model.ptg" unloaded_state).2 "std::bad_alloc" rfl⟩

/-- C5 as stated fails: after an earlier successful load, a load that fails
with `c10::Error` leaves the earlier model in place and `cal_gedm` still
obtains a correction energy from it; and a load that fails with an exception
that is not a `c10::Error` does not return normally. -/
theorem C5_counterexample :
    ((one_atom_state half_module).module = some half_module ∧
      ∃ s' t', load_model missing_file_load "model.ptg" (one_atom_state half_module) = .ok s' ∧
        cal_gedm 1 s' = .ok t' ∧ t'.E_delta = 2) ∧
    load_model exhausted_load "model.ptg" (one_atom_state half_module)
      = .error "std::bad_alloc" := by
  refine ⟨⟨rfl, ?_⟩, rfl⟩
  obtain ⟨t', h1, h2, _⟩ := cal_gedm_descriptor_eq (diag_solver ℚ) (one_atom_store half_module)
    half_module 1 (fun _ => 1 / 2) (by decide) rfl rfl rfl
  refine ⟨one_atom_state half_module, t', rfl, h1, ?_⟩
  rw [h2]
  show 1 / 2 * (input_of 1 (one_atom_state half_module)).entry [0, 0] * 2 = 2
  rw [one_atom_input]
  norm_num

/-- C6: if the PDM block of projector `inl` (with `nm = 2 l + 1`) is `c`
times the identity, then `cal_descriptor` returns and `d_tensor[inl]` is a
vector of length `nm` all of whose components equal `c`, for every solver
that decomposes `c` times the identity correctly. -/
theorem C6_scalar_block_descriptor (solver : EighSolver K) (s : LCAO_Deepks K) (inl : Nat) (c : K)
    (hinl : inl < s.inlmax)
    (hpdm : ∀ m1 m2, m1 < 2 * s.inl_l inl + 1 → m2 < 2 * s.inl_l inl + 1 →
      s.pdm inl (m1 * (2 * s.inl_l inl + 1) + m2) = if m1 = m2 then c else 0)
    (hsolver : IsEigh solver (2 * s.inl_l inl + 1) (Matrix.diagonal (fun _ => c))) :
    ∃ t d, cal_descriptor solver s = .ok t ∧ t.d_tensor[inl]? = some d ∧
      d.value.shape = [2 * s.inl_l inl + 1] ∧
      ∀ k, k < 2 * s.inl_l inl + 1 → d.value.entry [k] = c := by
  refine ⟨_, descriptor_of solver s inl, cal_descriptor_eq solver s, ?_, rfl, ?_⟩
  · simp [descriptors, List.getElem?_range, hinl]
  · intro k hk
    simp only [descriptor_of, eigh_vals, hk, dite_true]
    rw [upper_sym_block_scalar _ _ c hpdm]
    exact isEigh_scalar solver _ c hsolver ⟨k, hk⟩

/-- Witness of C6: one projector with `l = 1` and block `5/2` times the
identity, decomposed by the solver that is exact on diagonal matrices. -/
theorem C6_scalar_block_descriptor_witness :
    ∃ t d, cal_descriptor (diag_solver ℚ) scalar_block_state = .ok t ∧
      t.d_tensor[0]? = some d ∧ d.value.shape = [2 * scalar_block_state.inl_l 0 + 1] ∧
      ∀ k, k < 2 * scalar_block_state.inl_l 0 + 1 → d.value.entry [k] = 5 / 2 :=
  C6_scalar_block_descriptor (diag_solver ℚ) scalar_block_state 0 (5 / 2)
    (by decide)
    (by
      intro m1 m2 h1 h2
      simp only [scalar_block_state, empty_state] at h1 h2 ⊢
      interval_cases m1 <;> interval_cases m2 <;> simp)
    (diag_solver_isEigh _ _)

/-- C7: let projector `inl = iat * nlmax + nl` have `l = 0`, with any value
in its 1x1 PDM block.  After `cal_descriptor` and `cal_gvdm(nat)` have
returned, `gevdm_vector[nl]` has shape `(nat, 1, 1, 1)`, so the slice of atom
`iat` has shape `(1, 1, 1)`, and the single entry of that slice is 1, for
every solver that returns a normalised eigenvector for the 1x1 block; and
`cal_gvdm(nat)` does return when every atom has the same `l` in each shell. -/
theorem C7_jacobian_one_by_one (solver : EighSolver K) (nat iat nl : Nat)
    (s t : LCAO_Deepks K) (hiat : iat < nat) (hnl : nl < s.inlmax / nat)
    (hl : s.inl_l (iat * (s.inlmax / nat) + nl) = 0)
    (hsolver : IsEigh solver 1 (fun _ _ => s.pdm (iat * (s.inlmax / nat) + nl) 0))
    (hdesc : cal_descriptor solver s = .ok t) :
    (∀ t', cal_gvdm solver nat t = .ok t' →
      ∃ J, t'.gevdm_vector[nl]? = some J ∧ J.shape = [nat, 1, 1, 1] ∧
        J.entry [iat, 0, 0, 0] = 1) ∧
    ((∀ ia n, ia < nat → n < s.inlmax / nat →
        s.inl_l (ia * (s.inlmax / nat) + n) = s.inl_l n) →
      ∃ t', cal_gvdm solver nat t = .ok t') := by
  have ht := descriptor_state_of solver s t hdesc
  subst ht
  refine ⟨?_, fun huni => cal_gvdm_returns solver nat s (by omega) huni⟩
  intro t' hgvdm
  obtain ⟨J, hJ, hshape, hentry⟩ := cal_gvdm_inv solver nat iat nl s t' hiat hnl hgvdm
  refine ⟨J, hJ, ?_, ?_⟩
  · rw [hshape, hl]
  · rw [hentry, hl, jac_entry solver _ 1 0 0 0 rfl (by decide) (by decide) (by decide),
      upper_sym_block_one]
    exact isEigh_one solver _ hsolver

/-- Witness of C7: one atom, one projector with `l = 0` and block `[[2]]`. -/
theorem C7_jacobian_one_by_one_witness :
    ∃ t' J, cal_gvdm (diag_solver ℚ) 1 (one_atom_state half_module) = .ok t' ∧
      t'.gevdm_vector[0]? = some J ∧ J.shape = [1, 1, 1, 1] ∧ J.entry [0, 0, 0, 0] = 1 := by
  obtain ⟨h1, h2⟩ := C7_jacobian_one_by_one (diag_solver ℚ) 1 0 0 (one_atom_store half_module)
    (one_atom_state half_module) (by decide) (by decide) rfl
    (diag_solver_isEigh_one _) (cal_descriptor_eq _ _)
  obtain ⟨t', ht'⟩ := h2 (fun _ _ _ _ => rfl)
  obtain ⟨J, hJ, hshape, hentry⟩ := h1 t' ht'
  exact ⟨t', J, ht', hJ, hshape, hentry⟩

/-- C8 (amended): when the loaded model is the pure sum of all descriptor
components and `cal_descriptor`, `cal_gedm(nat)` and `cal_gvdm(nat)` have
returned, then for every projector `inl = iat * nlmax + nl` and every block
entry `(m, n)` the gradient tensor `gedm_tensor[inl][m][n]` (Hartree) equals
the sum over the eigenvalue slots `v` of `gevdm_vector[nl][iat][v][m][n]`, and
the stored gradient `gedm[inl][m * nm + n]` (Ry) equals 2 times that sum; and
both routines do return when there are `nat * des_per_atom` descriptor values
and every atom has the same `l` in each shell. -/
theorem C8_sum_model_chain_rule (solver : EighSolver K) (nat iat nl m n : Nat)
    (s t : LCAO_Deepks K) (hiat : iat < nat) (hnl : nl < s.inlmax / nat)
    (hm : m < 2 * s.inl_l (iat * (s.inlmax / nat) + nl) + 1)
    (hn : n < 2 * s.inl_l (iat * (s.inlmax / nat) + nl) + 1)
    (hmod : s.module = some (sum_module K))
    (hdesc : cal_descriptor solver s = .ok t) :
    (∀ tg tj, cal_gedm nat t = .ok tg → cal_gvdm solver nat t = .ok tj →
      ∃ G J, tg.gedm_tensor[iat * (s.inlmax / nat) + nl]? = some (some G) ∧
        tj.gevdm_vector[nl]? = some J ∧
        G.entry [m, n] = (Finset.range (2 * s.inl_l (iat * (s.inlmax / nat) + nl) + 1)).sum
          (fun v => J.entry [iat, v, m, n]) ∧
        tg.gedm (iat * (s.inlmax / nat) + nl)
            (m * (2 * s.inl_l (iat * (s.inlmax / nat) + nl) + 1) + n)
          = 2 * (Finset.range (2 * s.inl_l (iat * (s.inlmax / nat) + nl) + 1)).sum
              (fun v => J.entry [iat, v, m, n])) ∧
    (((List.range s.inlmax).map (fun inl => 2 * s.inl_l inl + 1)).sum = nat * s.des_per_atom →
      (∀ ia k, ia < nat → k < s.inlmax / nat →
        s.inl_l (ia * (s.inlmax / nat) + k) = s.inl_l k) →
      ∃ tg tj, cal_gedm nat t = .ok tg ∧ cal_gvdm solver nat t = .ok tj) := by
  have ht := descriptor_state_of solver s t hdesc
  subst ht
  refine ⟨fun tg tj hgedm hgvdm =>
    sum_model_gradient solver nat iat nl m n s tg tj hiat hnl hm hn hmod hgedm hgvdm, ?_⟩
  intro htot huni
  have hinl := inl_lt s.inlmax nat iat nl hiat hnl
  obtain ⟨tg, htg⟩ := cal_gedm_returns solver nat s (sum_module K) (by omega) htot hmod
    ⟨fun _ => 1, rfl⟩
  obtain ⟨tj, htj⟩ := cal_gvdm_returns solver nat s (by omega) huni
  exact ⟨tg, tj, htg, htj⟩

/-- Witness of C8: one atom, one projector with `l = 0`, the sum model. -/
theorem C8_sum_model_chain_rule_witness :
    ∃ tg tj G J, cal_gedm 1 (one_atom_state (sum_module ℚ)) = .ok tg ∧
      cal_gvdm (diag_solver ℚ) 1 (one_atom_state (sum_module ℚ)) = .ok tj ∧
      tg.gedm_tensor[0]? = some (some G) ∧ tj.gevdm_vector[0]? = some J ∧
      G.entry [0, 0] = (Finset.range 1).sum (fun v => J.entry [0, v, 0, 0]) ∧
      tg.gedm 0 0 = 2 * (Finset.range 1).sum (fun v => J.entry [0, v, 0, 0]) := by
  obtain ⟨h1, h2⟩ := C8_sum_model_chain_rule (diag_solver ℚ) 1 0 0 0 0
    (one_atom_store (sum_module ℚ)) (one_atom_state (sum_module ℚ))
    (by decide) (by decide) (by decide) (by decide) rfl (cal_descriptor_eq _ _)
  obtain ⟨tg, tj, htg, htj⟩ := h2 rfl (fun _ _ _ _ => rfl)
  obtain ⟨G, J, h3, h4, h5, h6⟩ := h1 tg tj htg htj
  exact ⟨tg, tj, G, J, htg, htj, h3, h4, h5, h6⟩

/-- C8 as stated fails for the stored gradient: for one atom with one
projector `l = 0`, block `[[2]]` and the sum model, `cal_gedm` stores
`gedm[0][0] = 2` while the Jacobian entries of `cal_gvdm` sum to 1. -/
theorem C8_counterexample :
    ∃ tg J, cal_gedm 1 (one_atom_state (sum_module ℚ)) = .ok tg ∧
      cal_gvdm (diag_solver ℚ) 1 (one_atom_state (sum_module ℚ))
        = .ok (one_atom_jac_state (sum_module ℚ)) ∧
      (one_atom_jac_state (sum_module ℚ)).gevdm_vector[0]? = some J ∧
      tg.gedm 0 0 = 2 ∧ (Finset.range 1).sum (fun v => J.entry [0, v, 0, 0]) = 1 := by
  have hjac := cal_gvdm_eq (diag_solver ℚ) 1 (one_atom_state (sum_module ℚ)) (by decide)
    (retained_shapes_descriptor _ _) (fun _ _ _ _ => rfl)
  obtain ⟨tg, htg, _⟩ := cal_gedm_descriptor_eq (diag_solver ℚ) (one_atom_store (sum_module ℚ))
    (sum_module ℚ) 1 (fun _ => 1) (by decide) rfl rfl rfl
  obtain ⟨G, J, _, h2, _, h4⟩ := sum_model_gradient (diag_solver ℚ) 1 0 0 0 0
    (one_atom_store (sum_module ℚ)) tg (one_atom_jac_state (sum_module ℚ))
    (by decide) (by decide) (by decide) (by decide) rfl htg hjac
  obtain ⟨J', hJ', _, hentry⟩ := cal_gvdm_inv (diag_solver ℚ) 1 0 0
    (one_atom_store (sum_module ℚ)) (one_atom_jac_state (sum_module ℚ))
    (by decide) (by decide) hjac
  have hJJ : J' = J := by
    rw [h2] at hJ'
    exact (Option.some.inj hJ').symm
  subst hJJ
  have hentry' : ∀ r, J'.entry (0 :: r)
      = (jac_of (diag_solver ℚ) (block_of 1 ((one_atom_store (sum_module ℚ)).pdm 0)) 1).entry r :=
    hentry
  have hsum : (Finset.range 1).sum (fun v => J'.entry [0, v, 0, 0]) = 1 := by
    rw [Finset.sum_range_one, hentry',
      jac_entry (diag_solver ℚ) _ 1 0 0 0 rfl (by decide) (by decide) (by decide)]
    simp [diag_solver]
  refine ⟨tg, J', htg, hjac, h2, ?_, hsum⟩
  have h4' : tg.gedm 0 0 = 2 * (Finset.range 1).sum (fun v => J'.entry [0, v, 0, 0]) := h4
  rw [h4', hsum]
  norm_num

/-- C9: the tensors retained by `cal_descriptor` depend on the Block Store
(`inlmax`, `inl_l`, `pdm`) alone.  Two states with the same Block Store and
arbitrary prior `pdm_tensor` and `d_tensor` end with the same two lists,
each of exactly `inlmax` entries, and a second run on the result returns the
same lists again. -/
theorem C9_descriptor_state_fresh (solver : EighSolver K) (s1 s2 : LCAO_Deepks K)
    (h1 : s1.inlmax = s2.inlmax) (h2 : s1.inl_l = s2.inl_l) (h3 : s1.pdm = s2.pdm) :
    ∃ t1 t2 t3, cal_descriptor solver s1 = .ok t1 ∧ cal_descriptor solver s2 = .ok t2 ∧
      t1.pdm_tensor = t2.pdm_tensor ∧ t1.d_tensor = t2.d_tensor ∧
      t1.pdm_tensor.length = s1.inlmax ∧ t1.d_tensor.length = s1.inlmax ∧
      cal_descriptor solver t1 = .ok t3 ∧
      t3.pdm_tensor = t1.pdm_tensor ∧ t3.d_tensor = t1.d_tensor := by
  refine ⟨_, _, _, cal_descriptor_eq solver s1, cal_descriptor_eq solver s2, ?_, ?_, ?_, ?_,
    cal_descriptor_eq solver _, ?_, ?_⟩
  · simp [retained_blocks, h1, h2, h3]
  · simp [descriptors, descriptor_of, h1, h2, h3]
  · simp [retained_blocks]
  · simp [descriptors]
  · simp [retained_blocks]
  · simp [descriptors, descriptor_of]

/-- Witness of C9: a clean state and a state holding stale tensors of other
sizes, with the same Block Store. -/
theorem C9_descriptor_state_fresh_witness :
    ∃ t1 t2 t3, cal_descriptor (diag_solver ℚ) scalar_block_state = .ok t1 ∧
      cal_descriptor (diag_solver ℚ) stale_state = .ok t2 ∧
      t1.pdm_tensor = t2.pdm_tensor ∧ t1.d_tensor = t2.d_tensor ∧
      t1.pdm_tensor.length = scalar_block_state.inlmax ∧
      t1.d_tensor.length = scalar_block_state.inlmax ∧
      cal_descriptor (diag_solver ℚ) t1 = .ok t3 ∧
      t3.pdm_tensor = t1.pdm_tensor ∧ t3.d_tensor = t1.d_tensor :=
  C9_descriptor_state_fresh (diag_solver ℚ) scalar_block_state stale_state rfl rfl rfl

/-- C10: on a valid layout (`nat ≥ 1`, `inlmax = nat * nlmax`, `nlmax ≥ 1`,
the same `l` in shell `nl` on every atom, `des_per_atom` the sum of the block
sizes of the shells) and with retained blocks of the shapes `cal_descriptor`
gives them, `cal_gvx` on rank zero returns: the assertions hold, `gvx_tensor`
has shape `(nat, 3, nat, des_per_atom)` and `gdmr_vector` has `nlmax` entries. -/
theorem C10_gvx_shape (solver : EighSolver K) (nat nlmax : Nat) (s : LCAO_Deepks K)
    (hnat : 1 ≤ nat) (hnl : 1 ≤ nlmax) (hlay : s.inlmax = nat * nlmax)
    (huni : ∀ iat nl, iat < nat → nl < nlmax → s.inl_l (iat * nlmax + nl) = s.inl_l nl)
    (hdes : s.des_per_atom = ((List.range nlmax).map (fun nl => 2 * s.inl_l nl + 1)).sum)
    (hret : RetainedShapes s) :
    ∃ s', cal_gvx solver 0 nat s = .ok s' ∧
      s'.gvx_tensor.shape = [nat, 3, nat, s.des_per_atom] ∧ s'.gdmr_vector.length = nlmax := by
  have hdiv := layout_div s.inlmax nat nlmax hnat hlay
  have huni' : UniformShells s nat := by
    intro iat nl hiat hnl'
    rw [hdiv] at hnl' ⊢
    exact huni iat nl hiat hnl'
  have hdes' : s.des_per_atom = shell_total s (s.inlmax / nat) := by
    rw [hdiv]
    exact hdes
  refine ⟨_, cal_gvx_eq solver nat s hnat (by omega) hret huni' hdes', ?_, ?_⟩
  · simp only [gvx_closed_shape, hdes']
  · simp [hdiv]

/-- Witness of C10: two atoms sharing one shell with `l = 1`. -/
theorem C10_gvx_shape_witness :
    ∃ s', cal_gvx (diag_solver ℚ) 0 2 two_atom_state = .ok s' ∧
      s'.gvx_tensor.shape = [2, 3, 2, two_atom_state.des_per_atom] ∧
      s'.gdmr_vector.length = 1 :=
  C10_gvx_shape (diag_solver ℚ) 2 1 two_atom_state (by decide) (by decide) rfl
    (fun _ _ _ _ => rfl) rfl (retained_shapes_descriptor (diag_solver ℚ) two_atom_store)

/-- C11: on a process whose rank is not zero, `cal_gvx` consists of
`cal_gvdm` and the emptying of `gdmr_vector` alone; it returns exactly when
`cal_gvdm` returns, so no assertion on `gvx_tensor` is evaluated, and whenever
it returns `gvx_tensor` is the tensor held before the call.  It returns in
particular on every layout with the same `l` in each shell on every atom,
whatever `des_per_atom` is. -/
theorem C11_gvx_skipped_off_rank_zero (solver : EighSolver K) (p : Process K) (nat : Nat)
    (hrank : p.MY_RANK ≠ 0) :
    (p.cal_gvx solver nat =
      match cal_gvdm solver nat p.deepks with
      | .error e => .error e
      | .ok s1 => .ok { s1 with gdmr_vector := [] }) ∧
    (∀ s', p.cal_gvx solver nat = .ok s' →
      s'.gvx_tensor = p.deepks.gvx_tensor ∧ s'.gdmr_vector = []) ∧
    ((∃ s', p.cal_gvx solver nat = .ok s') ↔ ∃ s1, cal_gvdm solver nat p.deepks = .ok s1) ∧
    (1 ≤ nat → RetainedShapes p.deepks →
      (∀ iat nl, iat < nat → nl < p.deepks.inlmax / nat →
        p.deepks.inl_l (iat * (p.deepks.inlmax / nat) + nl) = p.deepks.inl_l nl) →
      ∃ s', p.cal_gvx solver nat = .ok s') := by
  have hrun : p.cal_gvx solver nat =
      match cal_gvdm solver nat p.deepks with
      | .error e => .error e
      | .ok s1 => .ok { s1 with gdmr_vector := [] } := by
    unfold Process.cal_gvx cal_gvx
    cases cal_gvdm solver nat p.deepks with
    | error e => rfl
    | ok s1 => simp only [hrank, if_false, erase_all_eq]
  refine ⟨hrun, ?_, ?_, ?_⟩
  · intro s' hs'
    rw [hrun] at hs'
    cases hg : cal_gvdm solver nat p.deepks with
    | error e =>
      rw [hg] at hs'
      cases hs'
    | ok s1 =>
      rw [hg] at hs'
      simp only [Except.ok.injEq] at hs'
      obtain ⟨_, G, hfr⟩ := cal_gvdm_frame solver nat p.deepks s1 hg
      subst hfr
      subst hs'
      exact ⟨rfl, rfl⟩
  · rw [hrun]
    constructor
    · rintro ⟨s', hs'⟩
      cases hg : cal_gvdm solver nat p.deepks with
      | error e =>
        rw [hg] at hs'
        cases hs'
      | ok s1 => exact ⟨s1, rfl⟩
    · rintro ⟨s1, hs1⟩
      rw [hs1]
      exact ⟨_, rfl⟩
  · intro hnat hret huni
    rw [hrun, cal_gvdm_eq solver nat p.deepks hnat hret huni]
    exact ⟨_, rfl⟩

/-- Witness of C11: on the process of rank 1, with two atoms sharing one
shell `l = 1` and `des_per_atom = 5`, `cal_gvx` returns and keeps
`gvx_tensor`, while on rank zero the same state fails the assertion on the
last extent. -/
theorem C11_gvx_skipped_off_rank_zero_witness :
    idle_process.MY_RANK ≠ 0 ∧
    (∃ s', idle_process.cal_gvx (diag_solver ℚ) 2 = .ok s' ∧
      s'.gvx_tensor = idle_process.deepks.gvx_tensor ∧ s'.gdmr_vector = []) ∧
    cal_gvx (diag_solver ℚ) 0 2 idle_process.deepks
      = .error "assertion failed: gvx_tensor.size(3) == des_per_atom" := by
  have h := C11_gvx_skipped_off_rank_zero (diag_solver ℚ) idle_process 2 (by decide)
  obtain ⟨s', hs'⟩ := h.2.2.2 (by decide)
    (retained_shapes_descriptor (diag_solver ℚ) two_atom_store) (fun _ _ _ _ => rfl)
  exact ⟨by decide, ⟨s', hs', h.2.1 s' hs'⟩, rfl⟩

/-- C12 (amended): `cal_gedm` and `cal_orbital_precalc` have no rank test.
On a process of any rank holding the state left by `cal_descriptor` on a
layout with the same `l` in each shell on every atom, with
`nat * des_per_atom` descriptor values and a loaded model `md` whose output
depends on its input (gradient `g`): `cal_gedm` returns having stored
`E_delta = 2 * md.forward X` for the model input `X` built from the process's
descriptors, the gradient tensors and the array `gedm`; and
`cal_orbital_precalc` returns having stored in `orbital_precalc_tensor` the
contraction of the reduced blocks with the Jacobian, of shape
`(1, nat, sum of the block sizes)`. -/
theorem C12_every_rank_evaluates (solver : EighSolver K) (rank nat : Nat) (s : LCAO_Deepks K)
    (md : Module K) (g : List Nat → K) (P : Nat → Nat → Nat → K)
    (hnat : 1 ≤ nat) (hnl : 1 ≤ s.inlmax / nat)
    (huni : ∀ iat nl, iat < nat → nl < s.inlmax / nat →
      s.inl_l (iat * (s.inlmax / nat) + nl) = s.inl_l nl)
    (htot : ((List.range s.inlmax).map (fun inl => 2 * s.inl_l inl + 1)).sum
      = nat * s.des_per_atom)
    (hmod : s.module = some md)
    (hgrad : md.grad_input (input_of nat (descriptor_state solver s)) = some g) :
    (∃ t', Process.cal_gedm ⟨rank, descriptor_state solver s⟩ nat = .ok t' ∧
      t'.E_delta = 2 * md.forward (input_of nat (descriptor_state solver s)) ∧
      (∀ inl, inl < s.inlmax →
        t'.gedm_tensor[inl]? = some (some (grad_block solver s nat g inl))) ∧
      t'.gedm = gedm_closed s (grad_block solver s nat g)) ∧
    (∃ t', Process.cal_orbital_precalc solver ⟨rank, descriptor_state solver s⟩ nat P = .ok t' ∧
      t'.orbital_precalc_tensor = precalc_closed solver (descriptor_state solver s) P nat ∧
      t'.orbital_precalc_tensor.shape = [1, nat, shell_total s (s.inlmax / nat)]) := by
  have hne : 1 ≤ s.inlmax := by
    rcases Nat.eq_zero_or_pos s.inlmax with h0 | h0
    · rw [h0, Nat.zero_div] at hnl
      omega
    · exact h0
  constructor
  · obtain ⟨t', h1, h2, h3, h4⟩ := cal_gedm_descriptor_eq solver s md nat g hne htot hmod hgrad
    exact ⟨t', h1, by rw [h2, mul_comm], h3, h4⟩
  · refine ⟨_, cal_orbital_precalc_eq solver nat (descriptor_state solver s) P hnat hnl
      (retained_shapes_descriptor solver s) huni, rfl, ?_⟩
    exact precalc_closed_shape solver (descriptor_state solver s) P nat

/-- Witness of C12: the process of rank 1 with one atom, one projector
`l = 0`, block `[[2]]` and the model `f(d) = d / 2` stores `E_delta = 2` and a
contraction of shape `(1, 1, 1)`. -/
theorem C12_every_rank_evaluates_witness :
    (∃ t', Process.cal_gedm ⟨1, one_atom_state half_module⟩ 1 = .ok t' ∧ t'.E_delta = 2) ∧
    (∃ t', Process.cal_orbital_precalc (diag_solver ℚ) ⟨1, one_atom_state half_module⟩ 1
        overlap_blocks = .ok t' ∧
      t'.orbital_precalc_tensor.shape = [1, 1, 1]) := by
  obtain ⟨⟨t', h1, h2, _, _⟩, ⟨u', k1, _, k3⟩⟩ := C12_every_rank_evaluates (diag_solver ℚ) 1 1
    (one_atom_store half_module) half_module (fun _ => 1 / 2) overlap_blocks
    (by decide) (by decide) (fun _ _ _ _ => rfl) rfl rfl rfl
  refine ⟨⟨t', h1, ?_⟩, u', k1, k3⟩
  rw [h2]
  show 2 * (1 / 2 * (input_of 1 (one_atom_state half_module)).entry [0, 0]) = 2
  rw [one_atom_input]
  norm_num

/-- C12 as stated fails: on the process of rank 1, with one atom, one
projector `l = 0`, block `[[2]]` and the model `f(d) = d / 2`, `cal_gedm`
replaces `E_delta = 0` by 2 and fills the empty `gedm_tensor`, and
`cal_orbital_precalc` replaces the dimensionless `orbital_precalc_tensor` by
a tensor of shape `(1, 1, 1)`. -/
theorem C12_counterexample :
    second_process.MY_RANK ≠ 0 ∧
    (∃ t', second_process.cal_gedm 1 = .ok t' ∧
      second_process.deepks.E_delta = 0 ∧ t'.E_delta = 2 ∧
      second_process.deepks.gedm_tensor = [] ∧ t'.gedm_tensor ≠ []) ∧
    (∃ t', second_process.cal_orbital_precalc (diag_solver ℚ) 1 overlap_blocks = .ok t' ∧
      second_process.deepks.orbital_precalc_tensor.shape = [] ∧
      t'.orbital_precalc_tensor.shape = [1, 1, 1]) := by
  refine ⟨by decide, ?_, ?_⟩
  · obtain ⟨t', h1, h2, h3, _⟩ := cal_gedm_descriptor_eq (diag_solver ℚ)
      (one_atom_store half_module) half_module 1 (fun _ => 1 / 2) (by decide) rfl rfl rfl
    refine ⟨t', h1, rfl, ?_, rfl, ?_⟩
    · rw [h2]
      show 1 / 2 * (input_of 1 (one_atom_state half_module)).entry [0, 0] * 2 = 2
      rw [one_atom_input]
      norm_num
    · intro hnil
      have h0 := h3 0 (by decide)
      rw [hnil] at h0
      cases h0
  · refine ⟨_, cal_orbital_precalc_eq (diag_solver ℚ) 1 (one_atom_state half_module)
      overlap_blocks (by decide) (by decide)
      (retained_shapes_descriptor (diag_solver ℚ) (one_atom_store half_module))
      (fun _ _ _ _ => rfl), rfl, ?_⟩
    exact precalc_closed_shape (diag_solver ℚ) (one_atom_state half_module) overlap_blocks 1

/-- C13 (amended): for every call of `cal_gvx` on rank zero, with any solver
and any state, in which `des_per_atom` differs from the summed block sizes
`2 * inl_l[nl] + 1` of the shells `nl < inlmax / nat` of one atom, `cal_gvx`
fails: it does not complete normally with a `gvx_tensor`. -/
theorem C13_wrong_des_fails (solver : EighSolver K) (nat : Nat) (s : LCAO_Deepks K)
    (hdes : s.des_per_atom
      ≠ ((List.range (s.inlmax / nat)).map (fun nl => 2 * s.inl_l nl + 1)).sum) :
    ∃ e, cal_gvx solver 0 nat s = .error e := by
  cases h : cal_gvx solver 0 nat s with
  | error e => exact ⟨e, rfl⟩
  | ok s' => exact absurd (cal_gvx_ok_des solver nat s s' h) hdes

/-- Witness of C13: two atoms sharing one shell with `l = 1` (block size 3)
and `des_per_atom = 5`. -/
theorem C13_wrong_des_fails_witness :
    wrong_des_state.des_per_atom
        ≠ ((List.range (wrong_des_state.inlmax / 2)).map
            (fun nl => 2 * wrong_des_state.inl_l nl + 1)).sum ∧
      ∃ e, cal_gvx (diag_solver ℚ) 0 2 wrong_des_state = .error e :=
  ⟨by decide, C13_wrong_des_fails (diag_solver ℚ) 2 wrong_des_state (by decide)⟩

/-- C13 as stated fails: with `nat = 2` and `inlmax = 3` projectors of
`l = 0` (`inlmax` is not `nat * (inlmax / nat)`) and `des_per_atom = 1`,
`cal_gvx` on rank zero completes normally with a `gvx_tensor` of shape
`(2, 3, 2, 1)`; the third projector is never read. -/
theorem C13_counterexample :
    ragged_state.inlmax ≠ 2 * (ragged_state.inlmax / 2) ∧
      ∃ s', cal_gvx (diag_solver ℚ) 0 2 ragged_state = .ok s' ∧
        s'.gvx_tensor.shape = [2, 3, 2, 1] := by
  refine ⟨by decide, _, cal_gvx_eq (diag_solver ℚ) 2 ragged_state (by decide) (by decide)
    (retained_shapes_descriptor (diag_solver ℚ) ragged_store) (fun _ _ _ _ => rfl) rfl, ?_⟩
  exact gvx_closed_shape (diag_solver ℚ) ragged_state 2

/-- C14: on a valid layout (`inlmax = nat * nlmax`, the same `l` in shell
`nl` on every atom, retained blocks of the shapes `cal_descriptor` gives
them), for `b, a < nat`, `x < 3`, `nl < nlmax` and `v < nm = 2 * inl_l[nl] + 1`:
the tensor `cal_gvx` assigns to `gvx_tensor` on rank zero has, at
`[b][x][a][off + v]` with `off` the sum of the block sizes of the shells
before `nl`, the sum over `m, n < nm` of
`G_x[b][a * nlmax + nl][m * nm + n] * gevdm_vector[nl][a][v][m][n]`, where
`G_0, G_1, G_2` are `gdmx, gdmy, gdmz` and `gevdm_vector` is the list stored
by `cal_gvdm`; and when `des_per_atom` is the sum of the block sizes,
`cal_gvx` returns with that tensor and that `gevdm_vector`. -/
theorem C14_gvx_entries (solver : EighSolver K) (nat nlmax : Nat) (s : LCAO_Deepks K)
    (b x a nl v : Nat) (hlay : s.inlmax = nat * nlmax)
    (huni : ∀ iat nl, iat < nat → nl < nlmax → s.inl_l (iat * nlmax + nl) = s.inl_l nl)
    (hret : RetainedShapes s)
    (hb : b < nat) (hx : x < 3) (ha : a < nat) (hnl : nl < nlmax)
    (hv : v < 2 * s.inl_l nl + 1) :
    ∃ T s1 J, gvx_assigned solver nat s = .ok T ∧ cal_gvdm solver nat s = .ok s1 ∧
      s1.gevdm_vector[nl]? = some J ∧
      T.entry [b, x, a, ((List.range nl).map (fun k => 2 * s.inl_l k + 1)).sum + v]
        = (Finset.range (2 * s.inl_l nl + 1)).sum (fun m =>
            (Finset.range (2 * s.inl_l nl + 1)).sum (fun n =>
              gdm_dir s x b (a * nlmax + nl) (m * (2 * s.inl_l nl + 1) + n)
                * J.entry [a, v, m, n])) ∧
      (s.des_per_atom = ((List.range nlmax).map (fun k => 2 * s.inl_l k + 1)).sum →
        ∃ s', cal_gvx solver 0 nat s = .ok s' ∧ s'.gvx_tensor = T ∧
          s'.gevdm_vector = s1.gevdm_vector) := by
  have hnat : 1 ≤ nat := by omega
  have hdiv := layout_div s.inlmax nat nlmax hnat hlay
  have huni' : UniformShells s nat := by
    intro iat nl hiat hnl'
    rw [hdiv] at hnl' ⊢
    exact huni iat nl hiat hnl'
  have hnl' : nl < s.inlmax / nat := by
    rw [hdiv]
    exact hnl
  refine ⟨gvx_closed solver s nat, _, gevdm_shell solver s nat nl,
    gvx_assigned_eq solver nat s hnat (by omega) hret huni',
    cal_gvdm_eq solver nat s hnat hret huni', ?_, ?_, ?_⟩
  · simp [List.getElem?_range hnl']
  · have h := gvx_closed_entry solver s nat nl b x a v hb hx ha hnl' hv
    rw [hdiv] at h
    exact h
  · intro hdes
    have hdes' : s.des_per_atom = shell_total s (s.inlmax / nat) := by
      rw [hdiv]
      exact hdes
    exact ⟨_, cal_gvx_eq solver nat s hnat (by omega) hret huni' hdes', rfl, rfl⟩

/-- Witness of C14: two atoms sharing one shell with `l = 1` and position
derivatives that are not zero; the entry for derivative atom 1, direction 0,
atom 1 and slot 2. -/
theorem C14_gvx_entries_witness :
    ∃ T s1 J, gvx_assigned (diag_solver ℚ) 2 moving_state = .ok T ∧
      cal_gvdm (diag_solver ℚ) 2 moving_state = .ok s1 ∧ s1.gevdm_vector[0]? = some J ∧
      T.entry [1, 0, 1, 0 + 2]
        = (Finset.range 3).sum (fun m => (Finset.range 3).sum (fun n =>
            moving_state.gdmx 1 (1 * 1 + 0) (m * 3 + n) * J.entry [1, 2, m, n])) ∧
      ∃ s', cal_gvx (diag_solver ℚ) 0 2 moving_state = .ok s' ∧ s'.gvx_tensor = T ∧
        s'.gevdm_vector = s1.gevdm_vector := by
  obtain ⟨T, s1, J, h1, h2, h3, h4, h5⟩ := C14_gvx_entries (diag_solver ℚ) 2 1 moving_state
    1 0 1 0 2 rfl (fun _ _ _ _ => rfl)
    (retained_shapes_descriptor (diag_solver ℚ) moving_store)
    (by decide) (by decide) (by decide) (by decide) (by decide)
  exact ⟨T, s1, J, h1, h2, h3, h4, h5 rfl⟩

/-- C15: on a valid layout (`inlmax = nat * nlmax`, the same `l` in shell
`nl` on every atom, retained blocks of the shapes `cal_descriptor` gives
them), `cal_orbital_precalc` with the reduced blocks `P = orbital_pdm_shell`
returns; `orbital_precalc_tensor` has shape `(1, nat, sum of the block sizes)`
(the leading extent is the single `hl`), and for `a < nat`, `nl < nlmax` and
`v < nm = 2 * inl_l[nl] + 1` its entry for atom `a` at position `off + v`, with
`off` the sum of the block sizes of the shells before `nl`, is the sum over
`m, n < nm` of `P[0][a * nlmax + nl][m * nm + n] * gevdm_vector[nl][a][v][m][n]`. -/
theorem C15_orbital_precalc_entries (solver : EighSolver K) (nat nlmax : Nat)
    (s : LCAO_Deepks K) (P : Nat → Nat → Nat → K) (a nl v : Nat)
    (hlay : s.inlmax = nat * nlmax)
    (huni : ∀ iat nl, iat < nat → nl < nlmax → s.inl_l (iat * nlmax + nl) = s.inl_l nl)
    (hret : RetainedShapes s)
    (ha : a < nat) (hnl : nl < nlmax) (hv : v < 2 * s.inl_l nl + 1) :
    ∃ s' J, cal_orbital_precalc solver nat P s = .ok s' ∧ s'.gevdm_vector[nl]? = some J ∧
      s'.orbital_precalc_tensor.shape
        = [1, nat, ((List.range nlmax).map (fun k => 2 * s.inl_l k + 1)).sum] ∧
      s'.orbital_precalc_tensor.entry
          [0, a, ((List.range nl).map (fun k => 2 * s.inl_l k + 1)).sum + v]
        = (Finset.range (2 * s.inl_l nl + 1)).sum (fun m =>
            (Finset.range (2 * s.inl_l nl + 1)).sum (fun n =>
              P 0 (a * nlmax + nl) (m * (2 * s.inl_l nl + 1) + n) * J.entry [a, v, m, n])) := by
  have hnat : 1 ≤ nat := by omega
  have hdiv := layout_div s.inlmax nat nlmax hnat hlay
  have huni' : UniformShells s nat := by
    intro iat nl hiat hnl'
    rw [hdiv] at hnl' ⊢
    exact huni iat nl hiat hnl'
  have hnl' : nl < s.inlmax / nat := by
    rw [hdiv]
    exact hnl
  refine ⟨_, gevdm_shell solver s nat nl,
    cal_orbital_precalc_eq solver nat s P hnat (by omega) hret huni', ?_, ?_, ?_⟩
  · simp [List.getElem?_range hnl']
  · have h := precalc_closed_shape solver s P nat
    rw [hdiv] at h
    exact h
  · have h := precalc_closed_entry solver s P nat nl a v ha hnl' hv
    rw [hdiv] at h
    exact h

/-- Witness of C15: two atoms sharing one shell with `l = 1`; the entry for
atom 1 and slot 2. -/
theorem C15_orbital_precalc_entries_witness :
    ∃ s' J, cal_orbital_precalc (diag_solver ℚ) 2 overlap_blocks two_atom_state = .ok s' ∧
      s'.gevdm_vector[0]? = some J ∧
      s'.orbital_precalc_tensor.shape = [1, 2, 3] ∧
      s'.orbital_precalc_tensor.entry [0, 1, 0 + 2]
        = (Finset.range 3).sum (fun m => (Finset.range 3).sum (fun n =>
            overlap_blocks 0 (1 * 1 + 0) (m * 3 + n) * J.entry [1, 2, m, n])) :=
  C15_orbital_precalc_entries (diag_solver ℚ) 2 1 two_atom_state overlap_blocks 1 0 2 rfl
    (fun _ _ _ _ => rfl) (retained_shapes_descriptor (diag_solver ℚ) two_atom_store)
    (by decide) (by decide) (by decide)

end Claims

end Deepks
